import Mathlib

/-!
# Adventure: a grid ray caster

A shallow embedding of `src/main.cpp`: the world map, the WASD movement
update `HandlePlayerMovement` and the per-column ray caster
`PerformRayCasting` with its DDA loop.

Conventions of the embedding.

* The program is embedded twice.  In the first embedding a finite `float` is a
  value of an ordered field `α`: exact arithmetic, no rounding and no overflow;
  the definitions run on `α = ℚ` and the theorems also hold on `α = ℝ`.
  Quantities that the code obtains from a division can be infinite or NaN:
  they live in `FloatVal α`, which carries the IEEE special values (there is
  one zero, taken as `+0`).  The statements about the map, about which cells
  the loops read, about movement and about rotation are made there, and so are
  the statements that say "over exact arithmetic".
* In the second embedding, the namespace `Binary32`, every `float` operation
  of `PerformRayCasting` is rounded to binary32 (to nearest, ties to even; the
  one `double` expression is rounded to binary64 and then converted), each
  operation on its own, with overflow to an infinity, gradual underflow and
  two zeros.  The statements about the values that the program computes for
  `sideDist`, `perpWallDist` and `lineHeight` are made there, most of them by
  an analysis of the rounding error of a run.
* `int` is `Int`; the cast `(int) f` truncates towards zero.  In `Binary32`
  the cast is into a 32-bit `int` and is undefined (`none`) outside its range,
  for an infinity and for NaN.
* A read of `worldMap` outside the array is undefined behaviour in C++; the
  embedding makes it explicit (`worldMapAt` returns `none`).
* `cos` and `sin` of `<cmath>` are parameters of the rotation code.
* Key states (`IsKeyDown`) are inputs; `DrawLine` calls are returned as a
  list of slices.
-/

namespace Adventure

/-! ## World data -/

def mapWidth : Nat := 8

def mapHeight : Nat := 8

def worldMap : List (List Int) :=
  [ [1, 1, 1, 1, 1, 1, 1, 1],
    [1, 0, 0, 0, 0, 0, 0, 1],
    [1, 0, 1, 0, 1, 1, 0, 1],
    [1, 0, 1, 0, 0, 0, 0, 1],
    [1, 0, 0, 0, 0, 1, 0, 1],
    [1, 0, 1, 1, 0, 1, 0, 1],
    [1, 0, 0, 0, 0, 0, 0, 1],
    [1, 1, 1, 1, 1, 1, 1, 1] ]

/-- The read `worldMap[i][j]`: `none` when an index is outside the array. -/
def worldMapAt (i j : Int) : Option Int :=
  if 0 ≤ i ∧ i < mapWidth ∧ 0 ≤ j ∧ j < mapHeight then
    some ((worldMap.getD i.toNat []).getD j.toNat 0)
  else none

/-! ## Numbers -/

/-- A `float` value that may be infinite or NaN. -/
inductive FloatVal (α : Type) where
  | fin (a : α)
  | posInf
  | negInf
  | nan
deriving DecidableEq, Repr

/-- The raylib `Vector2`: two components. -/
@[ext]
structure Vector2 (α : Type) where
  x : α
  y : α
deriving DecidableEq, Repr

section Numbers

variable {α : Type} [LinearOrderedField α]

/-- The infinity with the sign of `a`; NaN when `a` is zero. -/
def FloatVal.infOfSign (a : α) : FloatVal α :=
  if 0 < a then .posInf else if a < 0 then .negInf else .nan

/-- IEEE addition on exact values: the sum is not rounded and does not
overflow (`Binary32.add` is the rounded one). -/
def FloatVal.add : FloatVal α → FloatVal α → FloatVal α
  | .fin a, .fin b => .fin (a + b)
  | .fin _, .posInf => .posInf
  | .fin _, .negInf => .negInf
  | .posInf, .fin _ => .posInf
  | .posInf, .posInf => .posInf
  | .posInf, .negInf => .nan
  | .negInf, .fin _ => .negInf
  | .negInf, .posInf => .nan
  | .negInf, .negInf => .negInf
  | .fin _, .nan => .nan
  | .posInf, .nan => .nan
  | .negInf, .nan => .nan
  | .nan, _ => .nan

/-- IEEE multiplication on exact values: the product is not rounded and does
not overflow (`Binary32.mul` is the rounded one). -/
def FloatVal.mul : FloatVal α → FloatVal α → FloatVal α
  | .fin a, .fin b => .fin (a * b)
  | .fin a, .posInf => FloatVal.infOfSign a
  | .fin a, .negInf => FloatVal.infOfSign (-a)
  | .posInf, .fin b => FloatVal.infOfSign b
  | .negInf, .fin b => FloatVal.infOfSign (-b)
  | .posInf, .posInf => .posInf
  | .posInf, .negInf => .negInf
  | .negInf, .posInf => .negInf
  | .negInf, .negInf => .posInf
  | .fin _, .nan => .nan
  | .posInf, .nan => .nan
  | .negInf, .nan => .nan
  | .nan, _ => .nan

/-- IEEE division on exact values; a zero divisor is `+0`.  The quotient is
not rounded and neither overflows nor underflows (`Binary32.div` is the rounded
one, with two zeros). -/
def FloatVal.div : FloatVal α → FloatVal α → FloatVal α
  | .fin a, .fin b => if b = 0 then FloatVal.infOfSign a else .fin (a / b)
  | .fin _, .posInf => .fin 0
  | .fin _, .negInf => .fin 0
  | .posInf, .fin b => if 0 ≤ b then .posInf else .negInf
  | .negInf, .fin b => if 0 ≤ b then .negInf else .posInf
  | .posInf, .posInf => .nan
  | .posInf, .negInf => .nan
  | .negInf, .posInf => .nan
  | .negInf, .negInf => .nan
  | .fin _, .nan => .nan
  | .posInf, .nan => .nan
  | .negInf, .nan => .nan
  | .nan, _ => .nan

/-- The `fabs` of `<cmath>`. -/
def FloatVal.fabs : FloatVal α → FloatVal α
  | .fin a => .fin |a|
  | .posInf => .posInf
  | .negInf => .posInf
  | .nan => .nan

/-- The comparison `a < b` of floats: false as soon as one side is NaN. -/
def FloatVal.lt : FloatVal α → FloatVal α → Bool
  | .fin a, .fin b => decide (a < b)
  | .fin _, .posInf => true
  | .negInf, .fin _ => true
  | .negInf, .posInf => true
  | _, _ => false

variable [FloorRing α]

/-- The cast `(int) a` of a finite float: truncation towards zero, into an
unbounded `Int` (`Binary32.toInt` is the cast into a 32-bit `int`). -/
def toInt (a : α) : Int :=
  if 0 ≤ a then ⌊a⌋ else ⌈a⌉

/-- The cast `(int) f`; undefined (`none`) on an infinity or NaN. -/
def FloatVal.toInt : FloatVal α → Option Int
  | .fin a => some (Adventure.toInt a)
  | _ => none

end Numbers

/-! ## Player state and movement -/

/-- The three vectors that `main` owns and `HandlePlayerMovement` updates. -/
@[ext]
structure PlayerState (α : Type) where
  position : Vector2 α
  direction : Vector2 α
  cameraPlane : Vector2 α
deriving DecidableEq, Repr

/-- The results of `IsKeyDown` for the four keys. -/
structure Keys where
  w : Bool
  s : Bool
  a : Bool
  d : Bool
deriving DecidableEq, Repr

section Movement

variable {α : Type} [LinearOrderedField α] [FloorRing α]

/-- The body of `if( IsKeyDown( KEY_W ) )`: the x update, then the y update. -/
def moveForward (st : PlayerState α) (moveSpeed : α) : Option (PlayerState α) :=
  match worldMapAt (toInt (st.position.x + st.direction.x * moveSpeed)) (toInt st.position.y) with
  | none => none
  | some cx =>
    let st1 : PlayerState α :=
      if cx = 0 then
        { st with position := { st.position with x := st.position.x + st.direction.x * moveSpeed } }
      else st
    match worldMapAt (toInt st1.position.x)
        (toInt (st1.position.y + st1.direction.y * moveSpeed)) with
    | none => none
    | some cy =>
      some (if cy = 0 then
        { st1 with
          position := { st1.position with y := st1.position.y + st1.direction.y * moveSpeed } }
      else st1)

/-- The body of `if( IsKeyDown( KEY_S ) )`. -/
def moveBackward (st : PlayerState α) (moveSpeed : α) : Option (PlayerState α) :=
  match worldMapAt (toInt (st.position.x - st.direction.x * moveSpeed)) (toInt st.position.y) with
  | none => none
  | some cx =>
    let st1 : PlayerState α :=
      if cx = 0 then
        { st with position := { st.position with x := st.position.x - st.direction.x * moveSpeed } }
      else st
    match worldMapAt (toInt st1.position.x)
        (toInt (st1.position.y - st1.direction.y * moveSpeed)) with
    | none => none
    | some cy =>
      some (if cy = 0 then
        { st1 with
          position := { st1.position with y := st1.position.y - st1.direction.y * moveSpeed } }
      else st1)

/-- The body of `if( IsKeyDown( KEY_A ) )`, assignment by assignment. -/
def rotateLeft (cos sin : α → α) (st : PlayerState α) (rotSpeed : α) : PlayerState α :=
  let oldDirX := st.direction.x
  let st1 : PlayerState α :=
    { st with direction :=
        { st.direction with
          x := st.direction.x * cos rotSpeed - st.direction.y * sin rotSpeed } }
  let st2 : PlayerState α :=
    { st1 with direction :=
        { st1.direction with y := oldDirX * sin rotSpeed + st1.direction.y * cos rotSpeed } }
  let oldPlaneX := st2.cameraPlane.x
  let st3 : PlayerState α :=
    { st2 with cameraPlane :=
        { st2.cameraPlane with
          x := st2.cameraPlane.x * cos rotSpeed - st2.cameraPlane.y * sin rotSpeed } }
  { st3 with cameraPlane :=
      { st3.cameraPlane with y := oldPlaneX * sin rotSpeed + st3.cameraPlane.y * cos rotSpeed } }

/-- The body of `if( IsKeyDown( KEY_D ) )`, assignment by assignment. -/
def rotateRight (cos sin : α → α) (st : PlayerState α) (rotSpeed : α) : PlayerState α :=
  let oldDirX := st.direction.x
  let st1 : PlayerState α :=
    { st with direction :=
        { st.direction with
          x := st.direction.x * cos (-rotSpeed) - st.direction.y * sin (-rotSpeed) } }
  let st2 : PlayerState α :=
    { st1 with direction :=
        { st1.direction with
          y := oldDirX * sin (-rotSpeed) + st1.direction.y * cos (-rotSpeed) } }
  let oldPlaneX := st2.cameraPlane.x
  let st3 : PlayerState α :=
    { st2 with cameraPlane :=
        { st2.cameraPlane with
          x := st2.cameraPlane.x * cos (-rotSpeed) - st2.cameraPlane.y * sin (-rotSpeed) } }
  { st3 with cameraPlane :=
      { st3.cameraPlane with
        y := oldPlaneX * sin (-rotSpeed) + st3.cameraPlane.y * cos (-rotSpeed) } }

/-- The function `HandlePlayerMovement`: the four key branches in source order,
each working on the state the previous one left.  The source declares the
three vectors `const Vector2 &` and assigns to them; the embedding follows the
assignments and returns the updated state.  The result is `none` when a
`worldMap` read falls outside the array. -/
def HandlePlayerMovement (cos sin : α → α) (keys : Keys) (st : PlayerState α) (deltaTime : α) :
    Option (PlayerState α) :=
  let moveSpeed : α := 3 * deltaTime
  let rotSpeed : α := 3 / 2 * deltaTime
  match (if keys.w then moveForward st moveSpeed else some st) with
  | none => none
  | some st1 =>
    match (if keys.s then moveBackward st1 moveSpeed else some st1) with
    | none => none
    | some st2 =>
      let st3 := if keys.a then rotateLeft cos sin st2 rotSpeed else st2
      some (if keys.d then rotateRight cos sin st3 rotSpeed else st3)

end Movement

/-! ## Ray casting -/

/-- The loop variables of the DDA loop. -/
structure DDAState (α : Type) where
  sideDistX : FloatVal α
  sideDistY : FloatVal α
  mapX : Int
  mapY : Int
  side : Int
deriving DecidableEq, Repr

/-- How a run of the DDA loop ends: a wall hit after `iters` iterations, a
`worldMap` read outside the array, or still running when the fuel is spent. -/
inductive DDAResult (α : Type) where
  | hit (s : DDAState α) (iters : Nat)
  | outOfGrid (s : DDAState α) (iters : Nat)
  | running (s : DDAState α)
deriving DecidableEq, Repr

/-- The two wall colours. -/
inductive Color where
  | BLUE
  | DARKBLUE
deriving DecidableEq, Repr

/-- The arguments of one `DrawLine( x, drawStart, x, drawEnd, wallColor )`. -/
structure Slice where
  x : Int
  drawStart : Int
  drawEnd : Int
  wallColor : Color
deriving DecidableEq, Repr

section RayCasting

variable {α : Type} [LinearOrderedField α] [FloorRing α]

/-- The camera-space coordinate `2 * x / ( float ) screenWidth - 1` of column `x`. -/
def cameraX (screenWidth x : Int) : α :=
  ((2 * x : Int) : α) / (screenWidth : α) - 1

/-- The ray direction of a column. -/
def rayDirection (playerDirection cameraPlane : Vector2 α) (camX : α) : Vector2 α :=
  { x := playerDirection.x + cameraPlane.x * camX
    y := playerDirection.y + cameraPlane.y * camX }

/-- The vector `deltaDist = { fabs( 1 / rayDirection.x ), fabs( 1 / rayDirection.y ) }`. -/
def deltaDist (rayDir : Vector2 α) : Vector2 (FloatVal α) :=
  { x := FloatVal.fabs (FloatVal.div (.fin 1) (.fin rayDir.x))
    y := FloatVal.fabs (FloatVal.div (.fin 1) (.fin rayDir.y)) }

/-- The vector `step`, set by the two sign tests. -/
def stepOf (rayDir : Vector2 α) : Vector2 α :=
  { x := if rayDir.x < 0 then -1 else 1
    y := if rayDir.y < 0 then -1 else 1 }

/-- The loop variables on entry to the DDA loop. -/
def ddaInit (playerPosition rayDir : Vector2 α) : DDAState α :=
  let mapX : Int := toInt playerPosition.x
  let mapY : Int := toInt playerPosition.y
  let dd := deltaDist rayDir
  { sideDistX :=
      if rayDir.x < 0 then FloatVal.mul (.fin (playerPosition.x - (mapX : α))) dd.x
      else FloatVal.mul (.fin ((mapX : α) + 1 - playerPosition.x)) dd.x
    sideDistY :=
      if rayDir.y < 0 then FloatVal.mul (.fin (playerPosition.y - (mapY : α))) dd.y
      else FloatVal.mul (.fin ((mapY : α) + 1 - playerPosition.y)) dd.y
    mapX := mapX
    mapY := mapY
    side := 0 }

/-- One jump to the next map square: the `if`/`else` inside the `while`. -/
def ddaStep (dd : Vector2 (FloatVal α)) (step : Vector2 α) (s : DDAState α) : DDAState α :=
  if FloatVal.lt s.sideDistX s.sideDistY then
    { s with
      sideDistX := FloatVal.add s.sideDistX dd.x
      mapX := toInt ((s.mapX : α) + step.x)
      side := 0 }
  else
    { s with
      sideDistY := FloatVal.add s.sideDistY dd.y
      mapY := toInt ((s.mapY : α) + step.y)
      side := 1 }

/-- The loop `while( hit == 0 )`, run for at most `fuel` iterations; `iters`
counts the iterations already done. -/
def ddaLoop (dd : Vector2 (FloatVal α)) (step : Vector2 α) :
    Nat → Nat → DDAState α → DDAResult α
  | 0, _, s => .running s
  | fuel + 1, iters, s =>
    let s1 := ddaStep dd step s
    match worldMapAt s1.mapX s1.mapY with
    | none => .outOfGrid s1 (iters + 1)
    | some c => if c > 0 then .hit s1 (iters + 1) else ddaLoop dd step fuel (iters + 1) s1

/-- The perpendicular wall distance, from the loop variables at the hit. -/
def perpWallDist (playerPosition rayDir step : Vector2 α) (s : DDAState α) : FloatVal α :=
  if s.side = 0 then
    FloatVal.div (.fin ((s.mapX : α) - playerPosition.x + (1 - step.x) / 2)) (.fin rayDir.x)
  else
    FloatVal.div (.fin ((s.mapY : α) - playerPosition.y + (1 - step.y) / 2)) (.fin rayDir.y)

/-- The value `( int ) ( screenHeight / perpWallDist )`. -/
def lineHeight (screenHeight : Int) (perp : FloatVal α) : Option Int :=
  FloatVal.toInt (FloatVal.div (.fin (screenHeight : α)) perp)

/-- The start row of the slice (`/` is C integer division). -/
def drawStart (lineHeight screenHeight : Int) : Int :=
  let drawStart := Int.tdiv (-lineHeight) 2 + Int.tdiv screenHeight 2
  if drawStart < 0 then 0 else drawStart

/-- The end row of the slice. -/
def drawEnd (lineHeight screenHeight : Int) : Int :=
  let drawEnd := Int.tdiv lineHeight 2 + Int.tdiv screenHeight 2
  if drawEnd ≥ screenHeight then screenHeight - 1 else drawEnd

/-- The DDA run of column `x`: the loop from its initial variables. -/
def castRay (fuel : Nat) (playerPosition playerDirection cameraPlane : Vector2 α)
    (screenWidth x : Int) : DDAResult α :=
  let rayDir := rayDirection playerDirection cameraPlane (cameraX screenWidth x)
  ddaLoop (deltaDist rayDir) (stepOf rayDir) fuel 0 (ddaInit playerPosition rayDir)

/-- The body of the `for` loop of `PerformRayCasting` for column `x`. -/
def castColumn (fuel : Nat) (playerPosition playerDirection cameraPlane : Vector2 α)
    (screenWidth screenHeight x : Int) : Option Slice :=
  let rayDir := rayDirection playerDirection cameraPlane (cameraX screenWidth x)
  match castRay fuel playerPosition playerDirection cameraPlane screenWidth x with
  | .hit s _ =>
    match lineHeight screenHeight (perpWallDist playerPosition rayDir (stepOf rayDir) s) with
    | none => none
    | some lh =>
      some { x := x
             drawStart := drawStart lh screenHeight
             drawEnd := drawEnd lh screenHeight
             wallColor := if s.side = 0 then .BLUE else .DARKBLUE }
  | _ => none

/-- The function `PerformRayCasting`: the slices drawn, column by column. -/
def PerformRayCasting (fuel : Nat) (playerPosition playerDirection cameraPlane : Vector2 α)
    (screenWidth screenHeight : Int) : Option (List Slice) :=
  (List.range screenWidth.toNat).mapM fun x =>
    castColumn fuel playerPosition playerDirection cameraPlane screenWidth screenHeight (x : Int)

end RayCasting

/-! ## Specification vocabulary -/

section Vocabulary

variable {α : Type} [LinearOrderedField α]

/-- The loop variables point at a cell that is not on the border of the map. -/
def Interior (s : DDAState α) : Prop :=
  (1 ≤ s.mapX ∧ s.mapX ≤ 6) ∧ (1 ≤ s.mapY ∧ s.mapY ≤ 6)

/-- The number of cells between the current cell and the border of the map,
along the two directions of travel of the ray. -/
def travel (rayDir : Vector2 α) (s : DDAState α) : Int :=
  (if rayDir.x < 0 then s.mapX else 7 - s.mapX) + (if rayDir.y < 0 then s.mapY else 7 - s.mapY)

/-- What holds of the loop variables throughout a run from cell `(mapX0, mapY0)`:
each map coordinate has only moved the way its step points, and the side
distance of an axis with a zero ray component is `+∞`. -/
def RayInv (rayDir : Vector2 α) (mapX0 mapY0 : Int) (s : DDAState α) : Prop :=
  ((rayDir.x < 0 → s.mapX ≤ mapX0) ∧ (¬ rayDir.x < 0 → mapX0 ≤ s.mapX)) ∧
  ((rayDir.y < 0 → s.mapY ≤ mapY0) ∧ (¬ rayDir.y < 0 → mapY0 ≤ s.mapY)) ∧
  (rayDir.x = 0 → s.sideDistX = .posInf) ∧ (rayDir.y = 0 → s.sideDistY = .posInf)

instance (s : DDAState α) : Decidable (Interior s) :=
  inferInstanceAs (Decidable ((1 ≤ s.mapX ∧ s.mapX ≤ 6) ∧ (1 ≤ s.mapY ∧ s.mapY ≤ 6)))

instance (rayDir : Vector2 α) (mapX0 mapY0 : Int) (s : DDAState α) :
    Decidable (RayInv rayDir mapX0 mapY0 s) :=
  inferInstanceAs (Decidable (
    ((rayDir.x < 0 → s.mapX ≤ mapX0) ∧ (¬ rayDir.x < 0 → mapX0 ≤ s.mapX)) ∧
    ((rayDir.y < 0 → s.mapY ≤ mapY0) ∧ (¬ rayDir.y < 0 → mapY0 ≤ s.mapY)) ∧
    (rayDir.x = 0 → s.sideDistX = .posInf) ∧ (rayDir.y = 0 → s.sideDistY = .posInf)))

/-- The float comparison `0 < f`. -/
def FloatVal.isPos (f : FloatVal α) : Prop :=
  FloatVal.lt (.fin 0) f = true

instance (f : FloatVal α) : Decidable (FloatVal.isPos f) :=
  inferInstanceAs (Decidable (FloatVal.lt (.fin 0) f = true))

end Vocabulary

/-! ## Vocabulary for the runs of the DDA loop and for the slice -/

section RunVocabulary

variable {α : Type} [LinearOrderedField α]

/-- IEEE subtraction on exact values. -/
def FloatVal.sub : FloatVal α → FloatVal α → FloatVal α
  | .fin a, .fin b => .fin (a - b)
  | .fin _, .posInf => .negInf
  | .fin _, .negInf => .posInf
  | .posInf, .fin _ => .posInf
  | .posInf, .posInf => .nan
  | .posInf, .negInf => .posInf
  | .negInf, .fin _ => .negInf
  | .negInf, .posInf => .negInf
  | .negInf, .negInf => .nan
  | .fin _, .nan => .nan
  | .posInf, .nan => .nan
  | .negInf, .nan => .nan
  | .nan, _ => .nan

/-- The comparison `a <= b` of floats: false as soon as one side is NaN. -/
def FloatVal.le : FloatVal α → FloatVal α → Bool
  | .fin a, .fin b => decide (a ≤ b)
  | .fin _, .posInf => true
  | .negInf, .fin _ => true
  | .negInf, .posInf => true
  | .posInf, .posInf => true
  | .negInf, .negInf => true
  | _, _ => false

/-- The two-sided clamp of the specification: `v` brought into `[lo, hi]`. -/
def clamp (v lo hi : Int) : Int :=
  if v < lo then lo else if v > hi then hi else v

/-- The x grid line that the ray leaves the current cell through. -/
def nextLineX (rayDir : Vector2 α) (s : DDAState α) : Int :=
  if rayDir.x < 0 then s.mapX else s.mapX + 1

/-- The y grid line that the ray leaves the current cell through. -/
def nextLineY (rayDir : Vector2 α) (s : DDAState α) : Int :=
  if rayDir.y < 0 then s.mapY else s.mapY + 1

/-- The x grid line on the entry side of the current cell. -/
def prevLineX (rayDir : Vector2 α) (s : DDAState α) : Int :=
  if rayDir.x < 0 then s.mapX + 1 else s.mapX

/-- The y grid line on the entry side of the current cell. -/
def prevLineY (rayDir : Vector2 α) (s : DDAState α) : Int :=
  if rayDir.y < 0 then s.mapY + 1 else s.mapY

/-- The ray parameter `t` at which `pos + t * rayDir` is on the grid line `line`
of the x axis. -/
def crossX (pos rayDir : Vector2 α) (line : Int) : α :=
  ((line : α) - pos.x) / rayDir.x

/-- The ray parameter `t` at which `pos + t * rayDir` is on the grid line `line`
of the y axis. -/
def crossY (pos rayDir : Vector2 α) (line : Int) : α :=
  ((line : α) - pos.y) / rayDir.y

/-- The side distances are the ray parameters of the next grid lines, on
every axis with a non-zero ray component. -/
def GeoInv (pos rayDir : Vector2 α) (s : DDAState α) : Prop :=
  (rayDir.x ≠ 0 → s.sideDistX = .fin (crossX pos rayDir (nextLineX rayDir s))) ∧
  (rayDir.y ≠ 0 → s.sideDistY = .fin (crossY pos rayDir (nextLineY rayDir s)))

/-- The ray is inside the current cell between its entry and its exit: it
reaches the entry line of each axis no later than the exit line of the other. -/
def CellInv (pos rayDir : Vector2 α) (s : DDAState α) : Prop :=
  crossY pos rayDir (prevLineY rayDir s) ≤ crossX pos rayDir (nextLineX rayDir s) ∧
  crossX pos rayDir (prevLineX rayDir s) ≤ crossY pos rayDir (nextLineY rayDir s)

/-- A map coordinate whose ray component is zero stays where it started, as
long as the other component can resolve the hit. -/
def AxisInv (rayDir : Vector2 α) (mapX0 mapY0 : Int) (s : DDAState α) : Prop :=
  (rayDir.x = 0 → s.mapX = mapX0) ∧ (rayDir.y = 0 → rayDir.x ≠ 0 → s.mapY = mapY0)

variable [FloorRing α]

/-- The loop variables after `k` runs of the loop body. -/
def ddaIter (dd : Vector2 (FloatVal α)) (step : Vector2 α) (k : Nat) (s : DDAState α) :
    DDAState α :=
  (ddaStep dd step)^[k] s

/-- Everything the proofs keep track of along a run from `pos`. -/
def DDAInv (pos rayDir : Vector2 α) (s : DDAState α) : Prop :=
  RayInv rayDir (toInt pos.x) (toInt pos.y) s ∧ GeoInv pos rayDir s ∧
  AxisInv rayDir (toInt pos.x) (toInt pos.y) s ∧
  (rayDir.x ≠ 0 → rayDir.y ≠ 0 → CellInv pos rayDir s)

end RunVocabulary

/-! ## The same ray caster in binary32 arithmetic

The definitions above take a `float` for an exact number.  The ones below
follow the same lines of `PerformRayCasting` with every `float` operation
rounded to binary32 (to nearest, ties to even), each operation on its own (no
extended precision, no fused multiply-add), with overflow to an infinity,
gradual underflow, two zeros, and the `(int)` cast into a 32-bit `int`.  A
finite datum carries its sign and its exact rational magnitude, so that the
definitions evaluate. -/

namespace Binary32

/-- A binary floating-point format: precision in bits and exponent range. -/
structure Format where
  prec : Nat
  emin : Int
  emax : Int

/-- The format of `float`. -/
def binary32 : Format := { prec := 24, emin := -126, emax := 127 }

/-- The format of `double`. -/
def binary64 : Format := { prec := 53, emin := -1022, emax := 1023 }

/-- A floating-point datum: a signed magnitude (zero keeps its sign), a signed
infinity or NaN. -/
inductive Fp where
  | num (neg : Bool) (mag : ℚ)
  | inf (neg : Bool)
  | nan
deriving DecidableEq, Repr

/-- The power `2 ^ e` as a rational. -/
def pow2 (e : Int) : ℚ :=
  if 0 ≤ e then ((2 ^ e.toNat : Nat) : ℚ) else 1 / ((2 ^ (-e).toNat : Nat) : ℚ)

/-- The binary logarithm of `n`, rounded down, found in at most `fuel` halvings. -/
def log2Fuel : Nat → Nat → Nat
  | 0, _ => 0
  | fuel + 1, n => if 2 ≤ n then log2Fuel fuel (n / 2) + 1 else 0

/-- The binary logarithm of `n ≥ 1`, rounded down. -/
def natLog2 (n : Nat) : Nat :=
  log2Fuel n n

/-- The exponent `e` with `2 ^ e ≤ m < 2 ^ (e + 1)`, for `m > 0`. -/
def floorLog2 (m : ℚ) : Int :=
  let e0 : Int := (natLog2 m.num.toNat : Int) - (natLog2 m.den : Int)
  if pow2 e0 ≤ m then e0 else e0 - 1

/-- Rounding of `n ≥ 0` to the nearest integer, ties to even. -/
def roundHalfEven (n : ℚ) : Int :=
  let f : Int := ⌊n⌋
  if n - f < 1 / 2 then f
  else if 1 / 2 < n - f then f + 1
  else if f % 2 = 0 then f else f + 1

/-- Rounding of a magnitude to the format, to nearest, ties to even; `none`
when the result overflows the format. -/
def roundMag (fmt : Format) (m : ℚ) : Option ℚ :=
  if m = 0 then some 0
  else
    let e : Int := max (floorLog2 m) fmt.emin
    let q : ℚ := pow2 (e - ((fmt.prec : Int) - 1))
    let r : ℚ := (roundHalfEven (m / q) : ℚ) * q
    if r < pow2 (fmt.emax + 1) then some r else none

/-- The datum for sign `neg` and exact magnitude `m`. -/
def round (fmt : Format) (neg : Bool) (m : ℚ) : Fp :=
  match roundMag fmt m with
  | some r => .num neg r
  | none => .inf neg

/-- The datum nearest to the exact value `v` (a zero `v` gives `+0`). -/
def ofRat (fmt : Format) (v : ℚ) : Fp :=
  round fmt (decide (v < 0)) |v|

/-- The real value of a finite datum. -/
def val (neg : Bool) (mag : ℚ) : ℚ :=
  if neg then -mag else mag

/-- Negation: the sign bit flipped. -/
def neg : Fp → Fp
  | .num s m => .num (!s) m
  | .inf s => .inf (!s)
  | .nan => .nan

/-- The `fabs` of `<cmath>`: the sign bit cleared. -/
def fabs : Fp → Fp
  | .num _ m => .num false m
  | .inf _ => .inf false
  | .nan => .nan

/-- IEEE addition, rounded to the format. -/
def add (fmt : Format) : Fp → Fp → Fp
  | .num s m, .num t n =>
    if val s m + val t n = 0 then .num (s && t) 0 else ofRat fmt (val s m + val t n)
  | .num _ _, .inf t => .inf t
  | .inf s, .num _ _ => .inf s
  | .inf s, .inf t => if s = t then .inf s else .nan
  | .num _ _, .nan => .nan
  | .inf _, .nan => .nan
  | .nan, _ => .nan

/-- IEEE subtraction, rounded to the format. -/
def sub (fmt : Format) (a b : Fp) : Fp :=
  add fmt a (neg b)

/-- IEEE multiplication, rounded to the format. -/
def mul (fmt : Format) : Fp → Fp → Fp
  | .num s m, .num t n => round fmt (xor s t) (m * n)
  | .num s m, .inf t => if m = 0 then .nan else .inf (xor s t)
  | .inf s, .num t n => if n = 0 then .nan else .inf (xor s t)
  | .inf s, .inf t => .inf (xor s t)
  | .num _ _, .nan => .nan
  | .inf _, .nan => .nan
  | .nan, _ => .nan

/-- IEEE division, rounded to the format. -/
def div (fmt : Format) : Fp → Fp → Fp
  | .num s m, .num t n =>
    if n = 0 then (if m = 0 then .nan else .inf (xor s t)) else round fmt (xor s t) (m / n)
  | .num s _, .inf t => .num (xor s t) 0
  | .inf s, .num t _ => .inf (xor s t)
  | .inf _, .inf _ => .nan
  | .num _ _, .nan => .nan
  | .inf _, .nan => .nan
  | .nan, _ => .nan

/-- The comparison `a < b`: false as soon as one side is NaN; the two zeros
are equal. -/
def lt : Fp → Fp → Bool
  | .num s m, .num t n => decide (val s m < val t n)
  | .num _ _, .inf t => !t
  | .inf s, .num _ _ => s
  | .inf s, .inf t => s && !t
  | _, _ => false

/-- The conversion of an `int` to the format. -/
def ofInt (fmt : Format) (i : Int) : Fp :=
  ofRat fmt (i : ℚ)

/-- The conversion `double` to `float`. -/
def toFloat : Fp → Fp
  | .num s m => round binary32 s m
  | .inf s => .inf s
  | .nan => .nan

/-- The cast `(int) a` into a 32-bit `int`: truncation towards zero; undefined
(`none`) on NaN, on an infinity and when the result does not fit. -/
def toInt : Fp → Option Int
  | .num s m =>
    if Adventure.toInt (val s m) < -2147483648 ∨ 2147483647 < Adventure.toInt (val s m) then none
    else some (Adventure.toInt (val s m))
  | _ => none

/-- The loop variables of the DDA loop, in binary32. -/
structure DDAState where
  sideDistX : Fp
  sideDistY : Fp
  mapX : Int
  mapY : Int
  side : Int
deriving DecidableEq, Repr

/-- How a run of the DDA loop ends: a wall hit, a `worldMap` read outside the
array, an undefined `int` cast, or still running when the fuel is spent. -/
inductive DDAResult where
  | hit (s : DDAState) (iters : Nat)
  | outOfGrid (s : DDAState) (iters : Nat)
  | undefinedCast (s : DDAState) (iters : Nat)
  | running (s : DDAState)
deriving DecidableEq, Repr

/-- The camera-space coordinate `2 * x / ( float ) screenWidth - 1`. -/
def cameraX (screenWidth x : Int) : Fp :=
  sub binary32 (div binary32 (ofInt binary32 (2 * x)) (ofInt binary32 screenWidth))
    (ofInt binary32 1)

/-- The ray direction of a column. -/
def rayDirection (playerDirection cameraPlane : Vector2 Fp) (camX : Fp) : Vector2 Fp :=
  { x := add binary32 playerDirection.x (mul binary32 cameraPlane.x camX)
    y := add binary32 playerDirection.y (mul binary32 cameraPlane.y camX) }

/-- The vector `deltaDist = { fabs( 1 / rayDirection.x ), fabs( 1 / rayDirection.y ) }`. -/
def deltaDist (rayDir : Vector2 Fp) : Vector2 Fp :=
  { x := fabs (div binary32 (ofInt binary32 1) rayDir.x)
    y := fabs (div binary32 (ofInt binary32 1) rayDir.y) }

/-- The vector `step`, set by the two sign tests. -/
def stepOf (rayDir : Vector2 Fp) : Vector2 Fp :=
  { x := if lt rayDir.x (ofInt binary32 0) then ofInt binary32 (-1) else ofInt binary32 1
    y := if lt rayDir.y (ofInt binary32 0) then ofInt binary32 (-1) else ofInt binary32 1 }

/-- The initial side distance of one axis: `( p - map ) * delta` in `float`
when the ray component is negative, else `( map + 1.0 - p ) * delta`, which the
literal `1.0` makes a `double` expression, converted to `float` on assignment. -/
def sideDistInit (r p delta : Fp) (map : Int) : Fp :=
  if lt r (ofInt binary32 0) then
    mul binary32 (sub binary32 p (ofInt binary32 map)) delta
  else
    toFloat (mul binary64
      (sub binary64 (add binary64 (ofInt binary64 map) (ofRat binary64 1)) p) delta)

/-- The loop variables on entry to the DDA loop; `none` when a cast of the
position is undefined. -/
def ddaInit (playerPosition rayDir : Vector2 Fp) : Option DDAState :=
  match toInt playerPosition.x, toInt playerPosition.y with
  | some mapX, some mapY =>
    some
      { sideDistX := sideDistInit rayDir.x playerPosition.x (deltaDist rayDir).x mapX
        sideDistY := sideDistInit rayDir.y playerPosition.y (deltaDist rayDir).y mapY
        mapX := mapX
        mapY := mapY
        side := 0 }
  | _, _ => none

/-- One jump to the next map square; `none` when the cast of
`mapX += step.x` (or of `mapY += step.y`) is undefined. -/
def ddaStep (dd step : Vector2 Fp) (s : DDAState) : Option DDAState :=
  if lt s.sideDistX s.sideDistY then
    match toInt (add binary32 (ofInt binary32 s.mapX) step.x) with
    | some mapX =>
      some { s with sideDistX := add binary32 s.sideDistX dd.x, mapX := mapX, side := 0 }
    | none => none
  else
    match toInt (add binary32 (ofInt binary32 s.mapY) step.y) with
    | some mapY =>
      some { s with sideDistY := add binary32 s.sideDistY dd.y, mapY := mapY, side := 1 }
    | none => none

/-- The loop `while( hit == 0 )`, run for at most `fuel` iterations; `iters`
counts the iterations already done. -/
def ddaLoop (dd step : Vector2 Fp) : Nat → Nat → DDAState → DDAResult
  | 0, _, s => .running s
  | fuel + 1, iters, s =>
    match ddaStep dd step s with
    | none => .undefinedCast s (iters + 1)
    | some s1 =>
      match worldMapAt s1.mapX s1.mapY with
      | none => .outOfGrid s1 (iters + 1)
      | some c => if c > 0 then .hit s1 (iters + 1) else ddaLoop dd step fuel (iters + 1) s1

/-- The loop variables after `k` runs of the loop body; `none` when a cast on
the way is undefined. -/
def ddaIter (dd step : Vector2 Fp) : Nat → DDAState → Option DDAState
  | 0, s => some s
  | k + 1, s =>
    match ddaStep dd step s with
    | some s1 => ddaIter dd step k s1
    | none => none

/-- The perpendicular wall distance, from the loop variables at the hit. -/
def perpWallDist (playerPosition rayDir step : Vector2 Fp) (s : DDAState) : Fp :=
  if s.side = 0 then
    div binary32
      (add binary32 (sub binary32 (ofInt binary32 s.mapX) playerPosition.x)
        (div binary32 (sub binary32 (ofInt binary32 1) step.x) (ofInt binary32 2)))
      rayDir.x
  else
    div binary32
      (add binary32 (sub binary32 (ofInt binary32 s.mapY) playerPosition.y)
        (div binary32 (sub binary32 (ofInt binary32 1) step.y) (ofInt binary32 2)))
      rayDir.y

/-- The value `( int ) ( screenHeight / perpWallDist )`. -/
def lineHeight (screenHeight : Int) (perp : Fp) : Option Int :=
  toInt (div binary32 (ofInt binary32 screenHeight) perp)

/-- The DDA run of a ray from a position: the loop from its initial variables;
`none` when a cast of the position is undefined. -/
def castRay (fuel : Nat) (playerPosition rayDir : Vector2 Fp) : Option DDAResult :=
  match ddaInit playerPosition rayDir with
  | some s => some (ddaLoop (deltaDist rayDir) (stepOf rayDir) fuel 0 s)
  | none => none

/-! ### Vocabulary for the binary32 runs -/

/-- The comparison `a <= b`: false as soon as one side is NaN. -/
def le : Fp → Fp → Bool
  | .num s m, .num t n => decide (val s m ≤ val t n)
  | .num _ _, .inf t => !t
  | .inf s, .num _ _ => s
  | .inf s, .inf t => s || !t
  | _, _ => false

/-- The datum is a `float`: a magnitude that is not negative and that rounding
to binary32 leaves as it is, an infinity or NaN. -/
def IsFloat : Fp → Prop
  | .num _ m => 0 ≤ m ∧ roundMag binary32 m = some m
  | _ => True

instance (a : Fp) : Decidable (IsFloat a) :=
  match a with
  | .num _ m => inferInstanceAs (Decidable (0 ≤ m ∧ roundMag binary32 m = some m))
  | .inf _ => isTrue trivial
  | .nan => isTrue trivial

/-- The datum is finite. -/
def IsFinite : Fp → Prop
  | .num _ _ => True
  | _ => False

instance (a : Fp) : Decidable (IsFinite a) :=
  match a with
  | .num _ _ => isTrue trivial
  | .inf _ => isFalse id
  | .nan => isFalse id

/-- The loop variables point at a cell that is not on the border of the map. -/
def Interior (s : DDAState) : Prop :=
  (1 ≤ s.mapX ∧ s.mapX ≤ 6) ∧ (1 ≤ s.mapY ∧ s.mapY ≤ 6)

/-- The number of cells between the current cell and the border of the map,
along the two directions of travel of the ray. -/
def travel (rayDir : Vector2 Fp) (s : DDAState) : Int :=
  (if lt rayDir.x (ofInt binary32 0) then s.mapX else 7 - s.mapX) +
    (if lt rayDir.y (ofInt binary32 0) then s.mapY else 7 - s.mapY)

/-- The datum is a zero, `+0` or `-0`. -/
def IsZero : Fp → Prop
  | .num _ m => m = 0
  | _ => False

instance (a : Fp) : Decidable (IsZero a) :=
  match a with
  | .num _ m => inferInstanceAs (Decidable (m = 0))
  | .inf _ => isFalse id
  | .nan => isFalse id

/-- A ray component that is finite, is not `-0.0` and has magnitude at most
`2^125`. -/
def RayComponent : Fp → Prop
  | .num s m => 0 ≤ m ∧ m ≤ 2 ^ 125 ∧ (m = 0 → s = false)
  | _ => False

instance (a : Fp) : Decidable (RayComponent a) :=
  match a with
  | .num s m => inferInstanceAs (Decidable (0 ≤ m ∧ m ≤ 2 ^ 125 ∧ (m = 0 → s = false)))
  | .inf _ => isFalse id
  | .nan => isFalse id

/-- A ray component that is finite and has magnitude at least `2^-124`. -/
def LargeComponent : Fp → Prop
  | .num _ m => 1 / 2 ^ 124 ≤ m
  | _ => False

instance (a : Fp) : Decidable (LargeComponent a) :=
  match a with
  | .num _ m => inferInstanceAs (Decidable (1 / 2 ^ 124 ≤ m))
  | .inf _ => isFalse id
  | .nan => isFalse id

/-- What holds of the loop variables throughout a binary32 run from cell
`(mapX0, mapY0)`: each map coordinate has only moved the way its step points,
and the side distance of an axis with a zero ray component is `+∞`. -/
def RunInv (rayDir : Vector2 Fp) (mapX0 mapY0 : Int) (s : DDAState) : Prop :=
  ((lt rayDir.x (ofInt binary32 0) = true → s.mapX ≤ mapX0) ∧
    (lt rayDir.x (ofInt binary32 0) = false → mapX0 ≤ s.mapX)) ∧
  ((lt rayDir.y (ofInt binary32 0) = true → s.mapY ≤ mapY0) ∧
    (lt rayDir.y (ofInt binary32 0) = false → mapY0 ≤ s.mapY)) ∧
  (IsZero rayDir.x → s.sideDistX = .inf false) ∧ (IsZero rayDir.y → s.sideDistY = .inf false)

/-! ### Vocabulary for the rounding error of a run -/

/-- The magnitude of a finite datum, `0` for an infinity and NaN. -/
def mag : Fp → ℚ
  | .num _ m => m
  | _ => 0

/-- The value of a finite datum, `0` for an infinity and NaN. -/
def toRat : Fp → ℚ
  | .num s m => val s m
  | _ => 0

/-- A ray component that is finite, of magnitude between `2^-100` and `2^100`. -/
def MidComponent : Fp → Prop
  | .num _ m => 1 / 2 ^ 100 ≤ m ∧ m ≤ 2 ^ 100
  | _ => False

instance (a : Fp) : Decidable (MidComponent a) :=
  match a with
  | .num _ m => inferInstanceAs (Decidable (1 / 2 ^ 100 ≤ m ∧ m ≤ 2 ^ 100))
  | .inf _ => isFalse id
  | .nan => isFalse id

/-- The number `x` is `t` up to a relative error of `c` units of `2^-24`. -/
def Close (c x t : ℚ) : Prop := |x - t| ≤ c * t / 2 ^ 24

/-- The distance along one axis from the coordinate `p`, in cell `i`, to the
first grid line in the direction of the ray component `r`. -/
def frac (r : Fp) (p : ℚ) (i : Int) : ℚ :=
  if lt r (ofInt binary32 0) then p - i else i + 1 - p

/-- The number of steps along one axis, in the direction of the ray component
`r`, that take the map coordinate from `i` to `m`. -/
def stepsTo (r : Fp) (i m : Int) : Int :=
  if lt r (ofInt binary32 0) then i - m else m - i

/-- The ray parameter, in exact arithmetic, at which the ray meets the grid
line of one axis that lies beyond the cell with map coordinate `m`. -/
def lineDist (r : Fp) (p : ℚ) (i m : Int) : ℚ :=
  (frac r p i + stepsTo r i m) / mag r

/-- The side distance `sd` of one axis, at map coordinate `m`, follows the
exact ray parameter of the next grid line up to rounding. -/
def AccInv (r : Fp) (p : ℚ) (i : Int) (sd : Fp) (m : Int) : Prop :=
  0 ≤ stepsTo r i m ∧
    ∃ b, sd = .num false b ∧ Close (9 + 2 * (stepsTo r i m : ℚ)) b (lineDist r p i m)

/-- The ray enters the current cell before it leaves it, up to rounding: on
each axis the exact ray parameter of the grid line crossed last is not beyond
the parameter of the next grid line of the other axis by more than the
relative error `2^-18`. -/
def OrdInv (rayDir : Vector2 Fp) (p q : ℚ) (i j : Int) (s : DDAState) : Prop :=
  lineDist rayDir.x p i s.mapX - 1 / mag rayDir.x ≤
      lineDist rayDir.y q j s.mapY * (1 + 1 / 2 ^ 18) ∧
    lineDist rayDir.y q j s.mapY - 1 / mag rayDir.y ≤
      lineDist rayDir.x p i s.mapX * (1 + 1 / 2 ^ 18)

/-- What the error analysis keeps track of along a binary32 run from the
position `(p, q)` in cell `(i, j)`: each side distance follows the exact ray
parameter of the next grid line of its axis, and the order of the crossings is
kept up to rounding. -/
def ErrInv (rayDir : Vector2 Fp) (p q : ℚ) (i j : Int) (s : DDAState) : Prop :=
  (MidComponent rayDir.x → AccInv rayDir.x p i s.sideDistX s.mapX) ∧
  (MidComponent rayDir.y → AccInv rayDir.y q j s.sideDistY s.mapY) ∧
  (MidComponent rayDir.x → MidComponent rayDir.y → OrdInv rayDir p q i j s)

end Binary32

/-! ## Facts about the map and the casts -/

theorem worldMapAt_eq_some_iff_inBounds (i j : Int) :
    (∃ c, worldMapAt i j = some c) ↔ (0 ≤ i ∧ i ≤ 7) ∧ (0 ≤ j ∧ j ≤ 7) := by
  unfold worldMapAt mapWidth mapHeight
  constructor
  · rintro ⟨c, hc⟩
    split at hc
    · omega
    · simp at hc
  · rintro ⟨⟨h1, h2⟩, h3, h4⟩
    rw [if_pos (by norm_num; omega)]
    exact ⟨_, rfl⟩

theorem worldMapAt_border_pos (i j : Int) (hi : 0 ≤ i ∧ i ≤ 7) (hj : 0 ≤ j ∧ j ≤ 7)
    (hb : i = 0 ∨ i = 7 ∨ j = 0 ∨ j = 7) : worldMapAt i j = some 1 := by
  obtain ⟨hi0, hi7⟩ := hi
  obtain ⟨hj0, hj7⟩ := hj
  interval_cases i <;> interval_cases j <;> first | rfl | (exfalso; revert hb; decide)

theorem interior_of_worldMapAt_le (i j c : Int) (h : worldMapAt i j = some c) (hc : c ≤ 0) :
    (1 ≤ i ∧ i ≤ 6) ∧ (1 ≤ j ∧ j ≤ 6) := by
  obtain ⟨⟨hi0, hi7⟩, hj0, hj7⟩ := (worldMapAt_eq_some_iff_inBounds i j).1 ⟨c, h⟩
  by_contra hcon
  have hb : i = 0 ∨ i = 7 ∨ j = 0 ∨ j = 7 := by omega
  rw [worldMapAt_border_pos i j ⟨hi0, hi7⟩ ⟨hj0, hj7⟩ hb] at h
  simp at h
  omega

section CastFacts

variable {α : Type} [LinearOrderedField α] [FloorRing α]

theorem toInt_intCast (n : Int) : toInt (n : α) = n := by
  unfold toInt
  split <;> simp

theorem toInt_intCast_add_one (n : Int) : toInt ((n : α) + 1) = n + 1 := by
  have h : ((n : α) + 1) = ((n + 1 : Int) : α) := by push_cast; rfl
  rw [h, toInt_intCast]

theorem toInt_intCast_add_neg_one (n : Int) : toInt ((n : α) + -1) = n - 1 := by
  have h : ((n : α) + -1) = ((n - 1 : Int) : α) := by push_cast; ring
  rw [h, toInt_intCast]

/-- A value whose cast is at least 1 is at least its cast and below the next integer. -/
theorem toInt_bounds_of_pos (a : α) (h : 1 ≤ toInt a) :
    ((toInt a : Int) : α) ≤ a ∧ a < ((toInt a : Int) : α) + 1 := by
  unfold toInt at h ⊢
  split at h
  · rename_i h0
    simp only [if_pos h0]
    exact ⟨Int.floor_le a, Int.lt_floor_add_one a⟩
  · rename_i h0
    exfalso
    have : ⌈a⌉ ≤ 0 := by
      apply Int.ceil_le.2
      push_cast
      exact le_of_lt (not_le.1 h0)
    omega

/-- The cast of a value in `(-1, 8)` is an index in `0..7`. -/
theorem toInt_mem_range (a : α) (h0 : -1 < a) (h8 : a < 8) : 0 ≤ toInt a ∧ toInt a ≤ 7 := by
  unfold toInt
  split
  · rename_i ha
    refine ⟨Int.floor_nonneg.2 ha, ?_⟩
    have : ⌊a⌋ < 8 := Int.floor_lt.2 (by exact_mod_cast h8)
    omega
  · rename_i ha
    have hneg : a < 0 := not_le.1 ha
    have h1 : ⌈a⌉ ≤ 0 := Int.ceil_le.2 (by exact_mod_cast le_of_lt hneg)
    have h2 : -1 < ⌈a⌉ := Int.lt_ceil.2 (by exact_mod_cast h0)
    omega

end CastFacts

/-! ## Facts that need no cast -/

section OrderFacts

variable {α : Type} [LinearOrderedField α]

theorem deltaDist_x_of_zero (rayDir : Vector2 α) (h : rayDir.x = 0) :
    (deltaDist rayDir).x = .posInf := by
  simp [deltaDist, FloatVal.div, FloatVal.infOfSign, FloatVal.fabs, h]

theorem deltaDist_y_of_zero (rayDir : Vector2 α) (h : rayDir.y = 0) :
    (deltaDist rayDir).y = .posInf := by
  simp [deltaDist, FloatVal.div, FloatVal.infOfSign, FloatVal.fabs, h]

theorem FloatVal.lt_posInf_left (f : FloatVal α) : FloatVal.lt .posInf f = false := by
  cases f <;> rfl

theorem travel_ge_two (rayDir : Vector2 α) (s : DDAState α) (hs : Interior s) :
    2 ≤ travel rayDir s ∧ travel rayDir s ≤ 12 := by
  obtain ⟨⟨hx1, hx6⟩, hy1, hy6⟩ := hs
  unfold travel
  split <;> split <;> omega

/-- A component of a unit vector, scaled by a speed in `[0, 1]`, is at most 1
in absolute value. -/
theorem abs_component_mul_le_one (a b m : α) (hunit : a * a + b * b = 1) (hm0 : 0 ≤ m)
    (hm1 : m ≤ 1) : |a * m| ≤ 1 := by
  have ha : |a| ≤ 1 := by
    apply abs_le_one_iff_mul_self_le_one.2
    nlinarith [mul_self_nonneg b]
  rw [abs_mul, abs_of_nonneg hm0]
  calc |a| * m ≤ 1 * 1 := mul_le_mul ha hm1 hm0 zero_le_one
    _ = 1 := one_mul 1

end OrderFacts

/-! ## The DDA loop -/

section DDAFacts

variable {α : Type} [LinearOrderedField α] [FloorRing α]

/-- The x branch of one DDA step. -/
theorem ddaStep_of_lt (rayDir : Vector2 α) (s : DDAState α)
    (h : FloatVal.lt s.sideDistX s.sideDistY = true) :
    ddaStep (deltaDist rayDir) (stepOf rayDir) s =
      { sideDistX := FloatVal.add s.sideDistX (deltaDist rayDir).x
        sideDistY := s.sideDistY
        mapX := s.mapX + (if rayDir.x < 0 then -1 else 1)
        mapY := s.mapY
        side := 0 } := by
  unfold ddaStep stepOf
  rw [if_pos h]
  by_cases hx : rayDir.x < 0
  · simp only [if_pos hx, toInt_intCast_add_neg_one]
    rfl
  · simp only [if_neg hx, toInt_intCast_add_one]

/-- The y branch of one DDA step. -/
theorem ddaStep_of_not_lt (rayDir : Vector2 α) (s : DDAState α)
    (h : FloatVal.lt s.sideDistX s.sideDistY = false) :
    ddaStep (deltaDist rayDir) (stepOf rayDir) s =
      { sideDistX := s.sideDistX
        sideDistY := FloatVal.add s.sideDistY (deltaDist rayDir).y
        mapX := s.mapX
        mapY := s.mapY + (if rayDir.y < 0 then -1 else 1)
        side := 1 } := by
  unfold ddaStep stepOf
  rw [if_neg (by simp [h])]
  by_cases hy : rayDir.y < 0
  · simp only [if_pos hy, toInt_intCast_add_neg_one]
    rfl
  · simp only [if_neg hy, toInt_intCast_add_one]

/-- One step from an interior cell stays inside the array and moves one cell
closer to the border. -/
theorem ddaStep_travel (rayDir : Vector2 α) (s : DDAState α) (hs : Interior s) :
    ((0 ≤ (ddaStep (deltaDist rayDir) (stepOf rayDir) s).mapX ∧
        (ddaStep (deltaDist rayDir) (stepOf rayDir) s).mapX ≤ 7) ∧
      (0 ≤ (ddaStep (deltaDist rayDir) (stepOf rayDir) s).mapY ∧
        (ddaStep (deltaDist rayDir) (stepOf rayDir) s).mapY ≤ 7)) ∧
    travel rayDir (ddaStep (deltaDist rayDir) (stepOf rayDir) s) = travel rayDir s - 1 := by
  obtain ⟨⟨hx1, hx6⟩, hy1, hy6⟩ := hs
  cases h : FloatVal.lt s.sideDistX s.sideDistY
  · rw [ddaStep_of_not_lt rayDir s h]
    unfold travel
    by_cases hy : rayDir.y < 0
    · simp only [if_pos hy]
      refine ⟨⟨⟨by omega, by omega⟩, by omega, by omega⟩, by omega⟩
    · simp only [if_neg hy]
      refine ⟨⟨⟨by omega, by omega⟩, by omega, by omega⟩, by omega⟩
  · rw [ddaStep_of_lt rayDir s h]
    unfold travel
    by_cases hx : rayDir.x < 0
    · simp only [if_pos hx]
      refine ⟨⟨⟨by omega, by omega⟩, by omega, by omega⟩, by omega⟩
    · simp only [if_neg hx]
      refine ⟨⟨⟨by omega, by omega⟩, by omega, by omega⟩, by omega⟩

/-- The DDA loop from an interior cell, with enough fuel: it stops at a wall,
after at most `travel - 1` further iterations, and the state it stops in is one
step after an interior state that satisfies any given step invariant. -/
theorem ddaLoop_hit (rayDir : Vector2 α) (Inv : DDAState α → Prop)
    (hstep : ∀ s, Interior s → Inv s → Interior (ddaStep (deltaDist rayDir) (stepOf rayDir) s) →
      Inv (ddaStep (deltaDist rayDir) (stepOf rayDir) s)) :
    ∀ (fuel iters : Nat) (s : DDAState α), Interior s → Inv s →
      travel rayDir s ≤ (fuel : Int) + 1 →
      ∃ s0 n c, Interior s0 ∧ Inv s0 ∧
        ddaLoop (deltaDist rayDir) (stepOf rayDir) fuel iters s =
          .hit (ddaStep (deltaDist rayDir) (stepOf rayDir) s0) n ∧
        worldMapAt (ddaStep (deltaDist rayDir) (stepOf rayDir) s0).mapX
          (ddaStep (deltaDist rayDir) (stepOf rayDir) s0).mapY = some c ∧ 0 < c ∧
        iters < n ∧ (n : Int) ≤ (iters : Int) + travel rayDir s - 1 := by
  intro fuel
  induction fuel with
  | zero =>
    intro iters s hs _ ht
    have := (travel_ge_two rayDir s hs).1
    omega
  | succ fuel ih =>
    intro iters s hs hinv ht
    obtain ⟨⟨hbx, hby⟩, htr⟩ := ddaStep_travel rayDir s hs
    obtain ⟨c, hc⟩ := (worldMapAt_eq_some_iff_inBounds _ _).2 ⟨hbx, hby⟩
    have h2 := (travel_ge_two rayDir s hs).1
    by_cases hpos : 0 < c
    · refine ⟨s, iters + 1, c, hs, hinv, ?_, hc, hpos, by omega, by push_cast; omega⟩
      simp only [ddaLoop, hc, if_pos (show c > 0 from hpos)]
    · have hint : Interior (ddaStep (deltaDist rayDir) (stepOf rayDir) s) :=
        interior_of_worldMapAt_le _ _ c hc (by omega)
      obtain ⟨s0, n, c0, hs0, hinv0, hrun, hc0, hc0pos, hlt, hle⟩ :=
        ih (iters + 1) _ hint (hstep s hs hinv hint) (by push_cast at ht ⊢; omega)
      refine ⟨s0, n, c0, hs0, hinv0, ?_, hc0, hc0pos, by omega, by push_cast at hle; omega⟩
      simp only [ddaLoop, hc, if_neg (show ¬ c > 0 from hpos)]
      exact hrun

/-- More fuel does not change a run that has hit a wall. -/
theorem ddaLoop_fuel_mono (dd : Vector2 (FloatVal α)) (step : Vector2 α) (extra : Nat) :
    ∀ (fuel iters : Nat) (s r : DDAState α) (n : Nat),
      ddaLoop dd step fuel iters s = .hit r n →
      ddaLoop dd step (fuel + extra) iters s = .hit r n := by
  intro fuel
  induction fuel with
  | zero =>
    intro iters s r n h
    simp [ddaLoop] at h
  | succ fuel ih =>
    intro iters s r n h
    rw [Nat.add_right_comm]
    simp only [ddaLoop] at h ⊢
    cases hc : worldMapAt (ddaStep dd step s).mapX (ddaStep dd step s).mapY with
    | none => simp [hc] at h
    | some c =>
      simp only [hc] at h ⊢
      by_cases hpos : c > 0
      · simpa only [if_pos hpos] using h
      · simp only [if_neg hpos] at h ⊢
        exact ih _ _ _ _ h

end DDAFacts

/-! ## The perpendicular distance -/

section PerpFacts

variable {α : Type} [LinearOrderedField α] [FloorRing α]

theorem ddaInit_interior (pos rayDir : Vector2 α)
    (h : worldMapAt (toInt pos.x) (toInt pos.y) = some 0) : Interior (ddaInit pos rayDir) :=
  interior_of_worldMapAt_le _ _ 0 h le_rfl

theorem ddaInit_rayInv (pos rayDir : Vector2 α) (hx : 1 ≤ toInt pos.x) (hy : 1 ≤ toInt pos.y) :
    RayInv rayDir (toInt pos.x) (toInt pos.y) (ddaInit pos rayDir) := by
  have bx := (toInt_bounds_of_pos pos.x hx).2
  have by1 := (toInt_bounds_of_pos pos.y hy).2
  refine ⟨⟨fun _ => le_rfl, fun _ => le_rfl⟩, ⟨fun _ => le_rfl, fun _ => le_rfl⟩, ?_, ?_⟩
  · intro h0
    have hpos : (0 : α) < ((toInt pos.x : Int) : α) + 1 - pos.x := by linarith
    simp [ddaInit, deltaDist_x_of_zero rayDir h0, h0, FloatVal.mul, FloatVal.infOfSign, hpos]
  · intro h0
    have hpos : (0 : α) < ((toInt pos.y : Int) : α) + 1 - pos.y := by linarith
    simp [ddaInit, deltaDist_y_of_zero rayDir h0, h0, FloatVal.mul, FloatVal.infOfSign, hpos]

theorem ddaStep_rayInv (rayDir : Vector2 α) (mapX0 mapY0 : Int) (s : DDAState α)
    (h : RayInv rayDir mapX0 mapY0 s) :
    RayInv rayDir mapX0 mapY0 (ddaStep (deltaDist rayDir) (stepOf rayDir) s) := by
  obtain ⟨⟨hx1, hx2⟩, ⟨hy1, hy2⟩, hix, hiy⟩ := h
  cases hlt : FloatVal.lt s.sideDistX s.sideDistY
  · rw [ddaStep_of_not_lt rayDir s hlt]
    refine ⟨⟨hx1, hx2⟩, ⟨?_, ?_⟩, hix, ?_⟩
    · intro hneg
      have := hy1 hneg
      simp only [if_pos hneg]
      omega
    · intro hneg
      have := hy2 hneg
      simp only [if_neg hneg]
      omega
    · intro h0
      simp [hiy h0, deltaDist_y_of_zero rayDir h0, FloatVal.add]
  · have hne : rayDir.x ≠ 0 := by
      intro h0
      rw [hix h0, FloatVal.lt_posInf_left] at hlt
      exact Bool.noConfusion hlt
    rw [ddaStep_of_lt rayDir s hlt]
    refine ⟨⟨?_, ?_⟩, ⟨hy1, hy2⟩, fun h0 => absurd h0 hne, hiy⟩
    · intro hneg
      have := hx1 hneg
      simp only [if_pos hneg]
      omega
    · intro hneg
      have := hx2 hneg
      simp only [if_neg hneg]
      omega

/-- The perpendicular distance one step after a state of a run from `pos`:
positive as soon as `pos` is not on a grid line that the ray faces. -/
theorem perpWallDist_step_isPos (pos rayDir : Vector2 α) (s : DDAState α)
    (hpx : 1 ≤ toInt pos.x) (hpy : 1 ≤ toInt pos.y)
    (hgx : rayDir.x < 0 → ((toInt pos.x : Int) : α) ≠ pos.x)
    (hgy : rayDir.y < 0 → ((toInt pos.y : Int) : α) ≠ pos.y)
    (h : RayInv rayDir (toInt pos.x) (toInt pos.y) s) :
    FloatVal.isPos (perpWallDist pos rayDir (stepOf rayDir)
      (ddaStep (deltaDist rayDir) (stepOf rayDir) s)) := by
  obtain ⟨bx1, bx2⟩ := toInt_bounds_of_pos pos.x hpx
  obtain ⟨by1, by2⟩ := toInt_bounds_of_pos pos.y hpy
  obtain ⟨⟨hx1, hx2⟩, ⟨hy1, hy2⟩, hix, hiy⟩ := h
  cases hlt : FloatVal.lt s.sideDistX s.sideDistY
  · rw [ddaStep_of_not_lt rayDir s hlt]
    unfold perpWallDist stepOf FloatVal.isPos
    simp only [if_neg (show ¬ ((1 : Int) = 0) by decide)]
    by_cases hneg : rayDir.y < 0
    · have hle : ((s.mapY : Int) : α) ≤ ((toInt pos.y : Int) : α) := by exact_mod_cast hy1 hneg
      have hlt2 : ((toInt pos.y : Int) : α) < pos.y := lt_of_le_of_ne by1 (hgy hneg)
      have hnum : ((s.mapY : Int) : α) - pos.y < 0 := by linarith
      simp only [if_pos hneg, FloatVal.div, if_neg (ne_of_lt hneg), FloatVal.lt]
      rw [decide_eq_true_iff]
      push_cast
      have e : ((s.mapY : Int) : α) + -1 - pos.y + (1 - -1) / 2 = (s.mapY : α) - pos.y := by ring
      rw [e]
      exact div_pos_of_neg_of_neg hnum hneg
    · have hle : ((toInt pos.y : Int) : α) ≤ ((s.mapY : Int) : α) := by exact_mod_cast hy2 hneg
      have hnum : 0 < ((s.mapY : Int) : α) + 1 - pos.y := by linarith
      have e : (((s.mapY + 1 : Int) : Int) : α) - pos.y + (1 - 1) / 2 = (s.mapY : α) + 1 - pos.y := by
        push_cast; ring
      simp only [if_neg hneg, e]
      by_cases h0 : rayDir.y = 0
      · simp [FloatVal.div, h0, FloatVal.infOfSign, hnum, FloatVal.lt]
      · have hpos : 0 < rayDir.y := lt_of_le_of_ne (not_lt.1 hneg) (Ne.symm h0)
        simp only [FloatVal.div, if_neg h0, FloatVal.lt]
        rw [decide_eq_true_iff]
        exact div_pos hnum hpos
  · have hne : rayDir.x ≠ 0 := by
      intro h0
      rw [hix h0, FloatVal.lt_posInf_left] at hlt
      exact Bool.noConfusion hlt
    rw [ddaStep_of_lt rayDir s hlt]
    unfold perpWallDist stepOf FloatVal.isPos
    simp only [if_true]
    by_cases hneg : rayDir.x < 0
    · have hle : ((s.mapX : Int) : α) ≤ ((toInt pos.x : Int) : α) := by exact_mod_cast hx1 hneg
      have hlt2 : ((toInt pos.x : Int) : α) < pos.x := lt_of_le_of_ne bx1 (hgx hneg)
      have hnum : ((s.mapX : Int) : α) - pos.x < 0 := by linarith
      simp only [if_pos hneg, FloatVal.div, if_neg hne, FloatVal.lt]
      rw [decide_eq_true_iff]
      push_cast
      have e : ((s.mapX : Int) : α) + -1 - pos.x + (1 - -1) / 2 = (s.mapX : α) - pos.x := by ring
      rw [e]
      exact div_pos_of_neg_of_neg hnum hneg
    · have hle : ((toInt pos.x : Int) : α) ≤ ((s.mapX : Int) : α) := by exact_mod_cast hx2 hneg
      have hnum : 0 < ((s.mapX : Int) : α) + 1 - pos.x := by linarith
      have e : (((s.mapX + 1 : Int) : Int) : α) - pos.x + (1 - 1) / 2 = (s.mapX : α) + 1 - pos.x := by
        push_cast; ring
      have hpos : 0 < rayDir.x := lt_of_le_of_ne (not_lt.1 hneg) (Ne.symm hne)
      simp only [if_neg hneg, e, FloatVal.div, if_neg hne, FloatVal.lt]
      rw [decide_eq_true_iff]
      exact div_pos hnum hpos

end PerpFacts

/-! ## The map and the DDA loop: main results -/

/-- C1: every border cell of `worldMap` is non-zero: for indices `i`, `j` in
`0..7` with `i = 0`, `i = 7`, `j = 0` or `j = 7`, the entry `worldMap[i][j]`
exists and is not 0. -/
theorem worldMap_border_nonzero (i j : Int) (hi : 0 ≤ i ∧ i ≤ 7) (hj : 0 ≤ j ∧ j ≤ 7)
    (hb : i = 0 ∨ i = 7 ∨ j = 0 ∨ j = 7) : ∃ c, worldMapAt i j = some c ∧ c ≠ 0 :=
  ⟨1, worldMapAt_border_pos i j hi hj hb, by decide⟩

theorem worldMap_border_nonzero_witness :
    ((0 : Int) ≤ 7 ∧ (7 : Int) ≤ 7) ∧ ((0 : Int) ≤ 3 ∧ (3 : Int) ≤ 7) ∧
      ∃ c, worldMapAt 7 3 = some c ∧ c ≠ 0 :=
  ⟨by decide, by decide, worldMap_border_nonzero 7 3 (by decide) (by decide) (by decide)⟩

/-- C2: from every position whose cell is an empty cell of `worldMap`, and for
every ray direction (zero components included), the DDA loop stops at a wall
after `n ≤ mapWidth + mapHeight = 16` iterations: every run with at least 16
units of fuel ends in the same hit. -/
theorem dda_terminates_within_16 {α : Type} [LinearOrderedField α] [FloorRing α]
    (pos rayDir : Vector2 α) (hcell : worldMapAt (toInt pos.x) (toInt pos.y) = some 0) :
    ∃ s n, n ≤ mapWidth + mapHeight ∧
      ∀ fuel, mapWidth + mapHeight ≤ fuel →
        ddaLoop (deltaDist rayDir) (stepOf rayDir) fuel 0 (ddaInit pos rayDir) = .hit s n := by
  have hint := ddaInit_interior pos rayDir hcell
  have htr := (travel_ge_two rayDir (ddaInit pos rayDir) hint).2
  obtain ⟨s0, n, c, -, -, hrun, -, -, -, hle⟩ :=
    ddaLoop_hit rayDir (fun _ => True) (fun _ _ _ _ => trivial) 11 0 (ddaInit pos rayDir) hint
      trivial (by push_cast; omega)
  refine ⟨ddaStep (deltaDist rayDir) (stepOf rayDir) s0, n, ?_, ?_⟩
  · unfold mapWidth mapHeight
    push_cast at hle
    omega
  · intro fuel hfuel
    unfold mapWidth mapHeight at hfuel
    obtain ⟨extra, rfl⟩ : ∃ extra, fuel = 11 + extra := ⟨fuel - 11, by omega⟩
    exact ddaLoop_fuel_mono _ _ extra 11 0 _ _ n hrun

theorem dda_terminates_within_16_witness :
    worldMapAt (toInt (7 / 2 : ℚ)) (toInt (7 / 2 : ℚ)) = some 0 ∧
      ∃ s n, n ≤ mapWidth + mapHeight ∧
        ∀ fuel, mapWidth + mapHeight ≤ fuel →
          ddaLoop (deltaDist (⟨-1, 0⟩ : Vector2 ℚ)) (stepOf ⟨-1, 0⟩) fuel 0
            (ddaInit ⟨7 / 2, 7 / 2⟩ ⟨-1, 0⟩) = .hit s n :=
  ⟨by decide!, dda_terminates_within_16 ⟨7 / 2, 7 / 2⟩ ⟨-1, 0⟩ (by decide!)⟩

/-- C3, as stated, fails: from position `(1, 1.5)`, on the grid line `x = 1`
of the empty cell `[1][1]`, the ray `(-1, 0)` hits the border cell `[0][1]` in
one step and the perpendicular distance is `0`, which is not `> 0`. -/
theorem perpWallDist_zero_on_grid_line :
    worldMapAt (toInt (1 : ℚ)) (toInt (3 / 2 : ℚ)) = some 0 ∧
      ddaLoop (deltaDist (⟨-1, 0⟩ : Vector2 ℚ)) (stepOf ⟨-1, 0⟩) 16 0
          (ddaInit ⟨1, 3 / 2⟩ ⟨-1, 0⟩) = .hit ⟨.fin 1, .posInf, 0, 1, 0⟩ 1 ∧
      perpWallDist (⟨1, 3 / 2⟩ : Vector2 ℚ) ⟨-1, 0⟩ (stepOf ⟨-1, 0⟩)
          ⟨.fin 1, .posInf, 0, 1, 0⟩ = .fin 0 ∧
      ¬ FloatVal.isPos (perpWallDist (⟨1, 3 / 2⟩ : Vector2 ℚ) ⟨-1, 0⟩ (stepOf ⟨-1, 0⟩)
          ⟨.fin 1, .posInf, 0, 1, 0⟩) := by
  refine ⟨by decide!, by decide!, by decide!, by decide!⟩

/-- C4, as stated, fails: in the scenario (position `(3.5, 3.5)`, direction
`(-1, 0)`, cameraPlane `(0, 0.66)`, screenWidth 800, column 400) no run of the
DDA loop stops with `mapX = 1`. -/
theorem scenario_hit_mapX_ne_one :
    ¬ ∃ fuel s n, castRay fuel (⟨7 / 2, 7 / 2⟩ : Vector2 ℚ) ⟨-1, 0⟩ ⟨0, 33 / 50⟩ 800 400 =
      .hit s n ∧ s.mapX = 1 := by
  rintro ⟨fuel, s, n, hrun, hx⟩
  have h3 : castRay 3 (⟨7 / 2, 7 / 2⟩ : Vector2 ℚ) ⟨-1, 0⟩ ⟨0, 33 / 50⟩ 800 400 =
      .hit ⟨.fin (7 / 2), .posInf, 0, 3, 0⟩ 3 := by decide!
  by_cases hf : 3 ≤ fuel
  · obtain ⟨extra, rfl⟩ : ∃ extra, fuel = 3 + extra := ⟨fuel - 3, by omega⟩
    unfold castRay at h3 hrun
    rw [ddaLoop_fuel_mono _ _ extra 3 0 _ _ 3 h3] at hrun
    cases hrun
    revert hx
    decide
  · have hcases : fuel = 0 ∨ fuel = 1 ∨ fuel = 2 := by omega
    rcases hcases with rfl | rfl | rfl
    · have h0 : castRay 0 (⟨7 / 2, 7 / 2⟩ : Vector2 ℚ) ⟨-1, 0⟩ ⟨0, 33 / 50⟩ 800 400 =
          .running ⟨.fin (1 / 2), .posInf, 3, 3, 0⟩ := by decide!
      rw [h0] at hrun
      cases hrun
    · have h1 : castRay 1 (⟨7 / 2, 7 / 2⟩ : Vector2 ℚ) ⟨-1, 0⟩ ⟨0, 33 / 50⟩ 800 400 =
          .running ⟨.fin (3 / 2), .posInf, 2, 3, 0⟩ := by decide!
      rw [h1] at hrun
      cases hrun
    · have h2 : castRay 2 (⟨7 / 2, 7 / 2⟩ : Vector2 ℚ) ⟨-1, 0⟩ ⟨0, 33 / 50⟩ 800 400 =
          .running ⟨.fin (5 / 2), .posInf, 1, 3, 0⟩ := by decide!
      rw [h2] at hrun
      cases hrun

/-- C4, amended: in the scenario the DDA loop stops after 3 iterations with
the hit cell at `mapX = 0` (and `mapY = 3`, `side = 0`): the ray crosses the
empty cells `[2][3]` and `[1][3]` and hits the border cell `[0][3]`, whose
face lies on the grid line `x = 1`. -/
theorem scenario_hit_mapX_zero (fuel : Nat) :
    castRay (fuel + 3) (⟨7 / 2, 7 / 2⟩ : Vector2 ℚ) ⟨-1, 0⟩ ⟨0, 33 / 50⟩ 800 400 =
      .hit { sideDistX := .fin (7 / 2), sideDistY := .posInf, mapX := 0, mapY := 3, side := 0 }
        3 := by
  have h3 : castRay 3 (⟨7 / 2, 7 / 2⟩ : Vector2 ℚ) ⟨-1, 0⟩ ⟨0, 33 / 50⟩ 800 400 =
      .hit ⟨.fin (7 / 2), .posInf, 0, 3, 0⟩ 3 := by decide!
  unfold castRay at h3 ⊢
  rw [Nat.add_comm]
  exact ddaLoop_fuel_mono _ _ fuel 3 0 _ _ 3 h3

/-- C5: in the scenario (position `(3.5, 3.5)`, direction `(-1, 0)`,
cameraPlane `(0, 0.66)`, screen 800 x 600, column 400) the code computes
`cameraX = 0`, `rayDirection = (-1, 0)`, stops the DDA loop with `side = 0`,
and gets `perpWallDist = 2.5` and `lineHeight = 240`. -/
theorem scenario_center_column :
    cameraX 800 400 = (0 : ℚ) ∧
    rayDirection (⟨-1, 0⟩ : Vector2 ℚ) ⟨0, 33 / 50⟩ (cameraX 800 400) = ⟨-1, 0⟩ ∧
    ∃ s n, castRay 16 (⟨7 / 2, 7 / 2⟩ : Vector2 ℚ) ⟨-1, 0⟩ ⟨0, 33 / 50⟩ 800 400 = .hit s n ∧
      s.side = 0 ∧
      perpWallDist (⟨7 / 2, 7 / 2⟩ : Vector2 ℚ) ⟨-1, 0⟩ (stepOf ⟨-1, 0⟩) s = .fin (5 / 2) ∧
      lineHeight 600 (perpWallDist (⟨7 / 2, 7 / 2⟩ : Vector2 ℚ) ⟨-1, 0⟩ (stepOf ⟨-1, 0⟩) s) =
        some 240 ∧
      castColumn 16 (⟨7 / 2, 7 / 2⟩ : Vector2 ℚ) ⟨-1, 0⟩ ⟨0, 33 / 50⟩ 800 600 400 =
        some { x := 400, drawStart := 180, drawEnd := 420, wallColor := .BLUE } := by
  refine ⟨by decide!, by decide!, ⟨.fin (7 / 2), .posInf, 0, 3, 0⟩, 3, by decide!, rfl,
    by decide!, by decide!, by decide!⟩

/-! ## Movement -/

section MovementFacts

variable {α : Type} [LinearOrderedField α] [FloorRing α]

/-- The W branch when its two reads are inside the array. -/
theorem moveForward_eq (st : PlayerState α) (moveSpeed : α) (cx cy : Int)
    (hx : worldMapAt (toInt (st.position.x + st.direction.x * moveSpeed))
      (toInt st.position.y) = some cx)
    (hy : worldMapAt
      (toInt (if cx = 0 then st.position.x + st.direction.x * moveSpeed else st.position.x))
      (toInt (st.position.y + st.direction.y * moveSpeed)) = some cy) :
    moveForward st moveSpeed = some
      { st with position :=
          { x := if cx = 0 then st.position.x + st.direction.x * moveSpeed else st.position.x
            y := if cy = 0 then st.position.y + st.direction.y * moveSpeed
              else st.position.y } } := by
  unfold moveForward
  simp only [hx]
  by_cases h0 : cx = 0
  · simp only [if_pos h0] at hy ⊢
    simp only [hy]
    by_cases h1 : cy = 0
    · simp only [if_pos h1]
    · simp only [if_neg h1]
  · simp only [if_neg h0] at hy ⊢
    simp only [hy]
    by_cases h1 : cy = 0
    · simp only [if_pos h1]
    · simp only [if_neg h1]

/-- The S branch when its two reads are inside the array. -/
theorem moveBackward_eq (st : PlayerState α) (moveSpeed : α) (cx cy : Int)
    (hx : worldMapAt (toInt (st.position.x - st.direction.x * moveSpeed))
      (toInt st.position.y) = some cx)
    (hy : worldMapAt
      (toInt (if cx = 0 then st.position.x - st.direction.x * moveSpeed else st.position.x))
      (toInt (st.position.y - st.direction.y * moveSpeed)) = some cy) :
    moveBackward st moveSpeed = some
      { st with position :=
          { x := if cx = 0 then st.position.x - st.direction.x * moveSpeed else st.position.x
            y := if cy = 0 then st.position.y - st.direction.y * moveSpeed
              else st.position.y } } := by
  unfold moveBackward
  simp only [hx]
  by_cases h0 : cx = 0
  · simp only [if_pos h0] at hy ⊢
    simp only [hy]
    by_cases h1 : cy = 0
    · simp only [if_pos h1]
    · simp only [if_neg h1]
  · simp only [if_neg h0] at hy ⊢
    simp only [hy]
    by_cases h1 : cy = 0
    · simp only [if_pos h1]
    · simp only [if_neg h1]

/-- A position whose cell is inside the border, moved by at most one cell along
x, is cast to an index of the array. -/
theorem toInt_add_mem_range (a d : α) (ha : 1 ≤ toInt a ∧ toInt a ≤ 6) (hd : |d| ≤ 1) :
    0 ≤ toInt (a + d) ∧ toInt (a + d) ≤ 7 := by
  obtain ⟨h1, h2⟩ := toInt_bounds_of_pos a ha.1
  have hlo : (1 : α) ≤ ((toInt a : Int) : α) := by exact_mod_cast ha.1
  have hhi : ((toInt a : Int) : α) ≤ 6 := by exact_mod_cast ha.2
  obtain ⟨hd1, hd2⟩ := abs_le.1 hd
  exact toInt_mem_range (a + d) (by linarith) (by linarith)

/-- The W branch from an empty cell, with a step of at most one cell per axis:
both reads are inside the array and the new position is again in an empty
cell. -/
theorem moveForward_some (st : PlayerState α) (moveSpeed : α)
    (hcell : worldMapAt (toInt st.position.x) (toInt st.position.y) = some 0)
    (hdx : |st.direction.x * moveSpeed| ≤ 1) (hdy : |st.direction.y * moveSpeed| ≤ 1) :
    ∃ st1, moveForward st moveSpeed = some st1 ∧
      worldMapAt (toInt st1.position.x) (toInt st1.position.y) = some 0 ∧
      st1.direction = st.direction ∧ st1.cameraPlane = st.cameraPlane := by
  obtain ⟨hix, hiy⟩ := interior_of_worldMapAt_le _ _ 0 hcell le_rfl
  obtain ⟨cx, hcx⟩ := (worldMapAt_eq_some_iff_inBounds
    (toInt (st.position.x + st.direction.x * moveSpeed)) (toInt st.position.y)).2
    ⟨toInt_add_mem_range _ _ hix hdx, by omega⟩
  have hcell1 : worldMapAt
      (toInt (if cx = 0 then st.position.x + st.direction.x * moveSpeed else st.position.x))
      (toInt st.position.y) = some 0 := by
    by_cases h0 : cx = 0
    · simp only [if_pos h0]
      rw [hcx, h0]
    · simp only [if_neg h0]
      exact hcell
  obtain ⟨hix1, -⟩ := interior_of_worldMapAt_le _ _ 0 hcell1 le_rfl
  obtain ⟨cy, hcy⟩ := (worldMapAt_eq_some_iff_inBounds
    (toInt (if cx = 0 then st.position.x + st.direction.x * moveSpeed else st.position.x))
    (toInt (st.position.y + st.direction.y * moveSpeed))).2
    ⟨by omega, toInt_add_mem_range _ _ hiy hdy⟩
  refine ⟨_, moveForward_eq st moveSpeed cx cy hcx hcy, ?_, rfl, rfl⟩
  by_cases h1 : cy = 0
  · simp only [if_pos h1]
    rw [hcy, h1]
  · simp only [if_neg h1]
    exact hcell1

/-- The S branch from an empty cell, with a step of at most one cell per axis:
both reads are inside the array and the new position is again in an empty
cell. -/
theorem moveBackward_some (st : PlayerState α) (moveSpeed : α)
    (hcell : worldMapAt (toInt st.position.x) (toInt st.position.y) = some 0)
    (hdx : |st.direction.x * moveSpeed| ≤ 1) (hdy : |st.direction.y * moveSpeed| ≤ 1) :
    ∃ st1, moveBackward st moveSpeed = some st1 ∧
      worldMapAt (toInt st1.position.x) (toInt st1.position.y) = some 0 ∧
      st1.direction = st.direction ∧ st1.cameraPlane = st.cameraPlane := by
  obtain ⟨hix, hiy⟩ := interior_of_worldMapAt_le _ _ 0 hcell le_rfl
  have hdx1 : |-(st.direction.x * moveSpeed)| ≤ 1 := by rwa [abs_neg]
  have hdy1 : |-(st.direction.y * moveSpeed)| ≤ 1 := by rwa [abs_neg]
  obtain ⟨cx, hcx⟩ := (worldMapAt_eq_some_iff_inBounds
    (toInt (st.position.x - st.direction.x * moveSpeed)) (toInt st.position.y)).2
    ⟨by rw [sub_eq_add_neg]; exact toInt_add_mem_range _ _ hix hdx1, by omega⟩
  have hcell1 : worldMapAt
      (toInt (if cx = 0 then st.position.x - st.direction.x * moveSpeed else st.position.x))
      (toInt st.position.y) = some 0 := by
    by_cases h0 : cx = 0
    · simp only [if_pos h0]
      rw [hcx, h0]
    · simp only [if_neg h0]
      exact hcell
  obtain ⟨hix1, -⟩ := interior_of_worldMapAt_le _ _ 0 hcell1 le_rfl
  obtain ⟨cy, hcy⟩ := (worldMapAt_eq_some_iff_inBounds
    (toInt (if cx = 0 then st.position.x - st.direction.x * moveSpeed else st.position.x))
    (toInt (st.position.y - st.direction.y * moveSpeed))).2
    ⟨by omega, by rw [sub_eq_add_neg]; exact toInt_add_mem_range _ _ hiy hdy1⟩
  refine ⟨_, moveBackward_eq st moveSpeed cx cy hcx hcy, ?_, rfl, rfl⟩
  by_cases h1 : cy = 0
  · simp only [if_pos h1]
    rw [hcy, h1]
  · simp only [if_neg h1]
    exact hcell1

/-- With only W held, `HandlePlayerMovement` is the W branch. -/
theorem HandlePlayerMovement_w (cos sin : α → α) (st : PlayerState α) (deltaTime : α) :
    HandlePlayerMovement cos sin ⟨true, false, false, false⟩ st deltaTime =
      moveForward st (3 * deltaTime) := by
  unfold HandlePlayerMovement
  simp only [if_true, Bool.false_eq_true, if_false]
  cases moveForward st (3 * deltaTime) <;> rfl

/-- With only S held, `HandlePlayerMovement` is the S branch. -/
theorem HandlePlayerMovement_s (cos sin : α → α) (st : PlayerState α) (deltaTime : α) :
    HandlePlayerMovement cos sin ⟨false, true, false, false⟩ st deltaTime =
      moveBackward st (3 * deltaTime) := by
  unfold HandlePlayerMovement
  simp only [if_true, Bool.false_eq_true, if_false]
  cases moveBackward st (3 * deltaTime) <;> rfl

/-- C6: axis-separated sliding in the W branch: when the cell reached by the x
step is a wall and the cell reached by the y step alone is empty, forward
movement leaves `position.x` unchanged and sets `position.y` to the old
`position.y + delta.y`, with `delta = direction * moveSpeed`. -/
theorem forward_slides_along_wall (cos sin : α → α) (st : PlayerState α) (deltaTime : α)
    (c : Int)
    (hwall : worldMapAt (toInt (st.position.x + st.direction.x * (3 * deltaTime)))
      (toInt st.position.y) = some c)
    (hc : c ≠ 0)
    (hopen : worldMapAt (toInt st.position.x)
      (toInt (st.position.y + st.direction.y * (3 * deltaTime))) = some 0) :
    HandlePlayerMovement cos sin ⟨true, false, false, false⟩ st deltaTime = some
      { st with position :=
          { x := st.position.x, y := st.position.y + st.direction.y * (3 * deltaTime) } } := by
  rw [HandlePlayerMovement_w]
  have h := moveForward_eq st (3 * deltaTime) c 0 hwall (by simpa only [if_neg hc] using hopen)
  simpa only [if_neg hc, if_true] using h

theorem forward_slides_along_wall_witness :
    worldMapAt (toInt ((3 / 2 : ℚ) + (-3 / 5) * (3 * (1 / 3)))) (toInt (3 / 2 : ℚ)) = some 1 ∧
    (1 : Int) ≠ 0 ∧
    worldMapAt (toInt (3 / 2 : ℚ)) (toInt ((3 / 2 : ℚ) + 4 / 5 * (3 * (1 / 3)))) = some 0 ∧
    HandlePlayerMovement (fun _ => (1 : ℚ)) (fun _ => (0 : ℚ)) ⟨true, false, false, false⟩
        ⟨⟨3 / 2, 3 / 2⟩, ⟨-3 / 5, 4 / 5⟩, ⟨0, 33 / 50⟩⟩ (1 / 3) =
      some ⟨⟨3 / 2, 3 / 2 + 4 / 5 * (3 * (1 / 3))⟩, ⟨-3 / 5, 4 / 5⟩, ⟨0, 33 / 50⟩⟩ :=
  ⟨by decide!, by decide, by decide!,
    forward_slides_along_wall (fun _ => (1 : ℚ)) (fun _ => (0 : ℚ))
      ⟨⟨3 / 2, 3 / 2⟩, ⟨-3 / 5, 4 / 5⟩, ⟨0, 33 / 50⟩⟩ (1 / 3) 1 (by decide!) (by decide)
      (by decide!)⟩

/-- C7, as stated, fails: at position `(1.9, 1.9)` with direction `(0.6, 0.8)`
and `moveSpeed = 0.25` the cell `worldMap[int(x0)][int(y0 + deltaY)]` = `[1][2]`
is empty, yet `position.y` is not updated: the x update was applied first and
the y check read the wall `[2][2]`. -/
theorem forward_y_check_reads_updated_x :
    worldMapAt (toInt (19 / 10 : ℚ)) (toInt ((19 / 10 : ℚ) + 4 / 5 * (3 * (1 / 12)))) = some 0 ∧
    HandlePlayerMovement (fun _ => (1 : ℚ)) (fun _ => (0 : ℚ)) ⟨true, false, false, false⟩
        ⟨⟨19 / 10, 19 / 10⟩, ⟨3 / 5, 4 / 5⟩, ⟨0, 33 / 50⟩⟩ (1 / 12) =
      some ⟨⟨41 / 20, 19 / 10⟩, ⟨3 / 5, 4 / 5⟩, ⟨0, 33 / 50⟩⟩ ∧
    (19 / 10 : ℚ) ≠ 19 / 10 + 4 / 5 * (3 * (1 / 12)) ∧
    worldMapAt (toInt (41 / 20 : ℚ)) (toInt ((19 / 10 : ℚ) + 4 / 5 * (3 * (1 / 12)))) = some 1 := by
  refine ⟨by decide!, by decide!, by decide!, by decide!⟩

/-- C7, amended: in forward and in backward movement the x update is applied
iff `worldMap[int(x0 + deltaX)][int(y0)] == 0`, and the y update is applied iff
`worldMap[int(x1)][int(y0 + deltaY)] == 0`, where `x1` is `position.x` after the
x update of the same call (`x0 + deltaX` when it was applied, `x0` otherwise);
`deltaX`, `deltaY` are the components of `direction * moveSpeed`, negated for
backward movement. -/
theorem movement_axes_in_sequence (cos sin : α → α) (st : PlayerState α) (deltaTime : α) :
    (∀ cx cy : Int,
      worldMapAt (toInt (st.position.x + st.direction.x * (3 * deltaTime)))
        (toInt st.position.y) = some cx →
      worldMapAt
        (toInt (if cx = 0 then st.position.x + st.direction.x * (3 * deltaTime)
          else st.position.x))
        (toInt (st.position.y + st.direction.y * (3 * deltaTime))) = some cy →
      HandlePlayerMovement cos sin ⟨true, false, false, false⟩ st deltaTime = some
        { st with position :=
            { x := if cx = 0 then st.position.x + st.direction.x * (3 * deltaTime)
                else st.position.x
              y := if cy = 0 then st.position.y + st.direction.y * (3 * deltaTime)
                else st.position.y } }) ∧
    (∀ cx cy : Int,
      worldMapAt (toInt (st.position.x - st.direction.x * (3 * deltaTime)))
        (toInt st.position.y) = some cx →
      worldMapAt
        (toInt (if cx = 0 then st.position.x - st.direction.x * (3 * deltaTime)
          else st.position.x))
        (toInt (st.position.y - st.direction.y * (3 * deltaTime))) = some cy →
      HandlePlayerMovement cos sin ⟨false, true, false, false⟩ st deltaTime = some
        { st with position :=
            { x := if cx = 0 then st.position.x - st.direction.x * (3 * deltaTime)
                else st.position.x
              y := if cy = 0 then st.position.y - st.direction.y * (3 * deltaTime)
                else st.position.y } }) := by
  constructor
  · intro cx cy hx hy
    rw [HandlePlayerMovement_w]
    exact moveForward_eq st (3 * deltaTime) cx cy hx hy
  · intro cx cy hx hy
    rw [HandlePlayerMovement_s]
    exact moveBackward_eq st (3 * deltaTime) cx cy hx hy

theorem movement_axes_in_sequence_witness :
    worldMapAt (toInt ((19 / 10 : ℚ) + 3 / 5 * (3 * (1 / 12)))) (toInt (19 / 10 : ℚ)) = some 0 ∧
    worldMapAt
      (toInt (if (0 : Int) = 0 then (19 / 10 : ℚ) + 3 / 5 * (3 * (1 / 12)) else 19 / 10))
      (toInt ((19 / 10 : ℚ) + 4 / 5 * (3 * (1 / 12)))) = some 1 ∧
    HandlePlayerMovement (fun _ => (1 : ℚ)) (fun _ => (0 : ℚ)) ⟨true, false, false, false⟩
        ⟨⟨19 / 10, 19 / 10⟩, ⟨3 / 5, 4 / 5⟩, ⟨0, 33 / 50⟩⟩ (1 / 12) =
      some ⟨⟨if (0 : Int) = 0 then 19 / 10 + 3 / 5 * (3 * (1 / 12)) else 19 / 10,
        if (1 : Int) = 0 then 19 / 10 + 4 / 5 * (3 * (1 / 12)) else 19 / 10⟩,
        ⟨3 / 5, 4 / 5⟩, ⟨0, 33 / 50⟩⟩ :=
  ⟨by decide!, by decide!,
    (movement_axes_in_sequence (fun _ => (1 : ℚ)) (fun _ => (0 : ℚ))
      ⟨⟨19 / 10, 19 / 10⟩, ⟨3 / 5, 4 / 5⟩, ⟨0, 33 / 50⟩⟩ (1 / 12)).1 0 1 (by decide!)
      (by decide!)⟩

/-- C8, as stated, fails: from the empty cell `[1][1]`, with the unit
direction `(1, 0)` and `deltaTime = 10`, the first read of the W branch has
the row index `int(1.5 + 30) = 31`, outside `0..7`. -/
theorem forward_read_out_of_grid :
    worldMapAt (toInt (3 / 2 : ℚ)) (toInt (3 / 2 : ℚ)) = some 0 ∧
    (1 : ℚ) * 1 + 0 * 0 = 1 ∧ (0 : ℚ) ≤ 10 ∧
    toInt ((3 / 2 : ℚ) + 1 * (3 * 10)) = 31 ∧
    HandlePlayerMovement (fun _ => (1 : ℚ)) (fun _ => (0 : ℚ)) ⟨true, false, false, false⟩
      ⟨⟨3 / 2, 3 / 2⟩, ⟨1, 0⟩, ⟨0, 33 / 50⟩⟩ 10 = none := by
  refine ⟨by decide!, by decide!, by decide!, by decide!, by decide!⟩

/-- C8, amended: for every player position in an empty cell of `worldMap`,
every unit-length direction and every `deltaTime` with `0 ≤ deltaTime ≤ 1/3`
(so `moveSpeed ≤ 1`), and every combination of held keys, all `worldMap`
reads of `HandlePlayerMovement` are inside the array (the call returns a
state), and the new position is again in an empty cell. -/
theorem movement_reads_in_grid (cos sin : α → α) (keys : Keys) (st : PlayerState α)
    (deltaTime : α)
    (hcell : worldMapAt (toInt st.position.x) (toInt st.position.y) = some 0)
    (hunit : st.direction.x * st.direction.x + st.direction.y * st.direction.y = 1)
    (h0 : 0 ≤ deltaTime) (h1 : deltaTime ≤ 1 / 3) :
    ∃ st1, HandlePlayerMovement cos sin keys st deltaTime = some st1 ∧
      worldMapAt (toInt st1.position.x) (toInt st1.position.y) = some 0 := by
  have hm0 : (0 : α) ≤ 3 * deltaTime := by linarith
  have hm1 : 3 * deltaTime ≤ 1 := by linarith
  have hdx := abs_component_mul_le_one st.direction.x st.direction.y (3 * deltaTime) hunit hm0 hm1
  have hdy := abs_component_mul_le_one st.direction.y st.direction.x (3 * deltaTime)
    (by rw [add_comm]; exact hunit) hm0 hm1
  -- the state after the W branch
  obtain ⟨sw, hsw, hcellw, hdirw, -⟩ :
      ∃ sw, (if keys.w then moveForward st (3 * deltaTime) else some st) = some sw ∧
        worldMapAt (toInt sw.position.x) (toInt sw.position.y) = some 0 ∧
        sw.direction = st.direction ∧ sw.cameraPlane = st.cameraPlane := by
    by_cases hw : keys.w = true
    · simp only [if_pos hw]
      exact moveForward_some st (3 * deltaTime) hcell hdx hdy
    · simp only [if_neg hw]
      exact ⟨st, rfl, hcell, rfl, rfl⟩
  -- the state after the S branch
  obtain ⟨ss, hss, hcells, -, -⟩ :
      ∃ ss, (if keys.s then moveBackward sw (3 * deltaTime) else some sw) = some ss ∧
        worldMapAt (toInt ss.position.x) (toInt ss.position.y) = some 0 ∧
        ss.direction = sw.direction ∧ ss.cameraPlane = sw.cameraPlane := by
    by_cases hs : keys.s = true
    · simp only [if_pos hs]
      exact moveBackward_some sw (3 * deltaTime) hcellw (by rw [hdirw]; exact hdx)
        (by rw [hdirw]; exact hdy)
    · simp only [if_neg hs]
      exact ⟨sw, rfl, hcellw, rfl, rfl⟩
  unfold HandlePlayerMovement
  simp only [hsw, hss]
  refine ⟨_, rfl, ?_⟩
  by_cases ha : keys.a = true <;> by_cases hd : keys.d = true <;>
    simpa [ha, hd, rotateLeft, rotateRight] using hcells

theorem movement_reads_in_grid_witness :
    worldMapAt (toInt (3 / 2 : ℚ)) (toInt (3 / 2 : ℚ)) = some 0 ∧
    (-3 / 5 : ℚ) * (-3 / 5) + 4 / 5 * (4 / 5) = 1 ∧ (0 : ℚ) ≤ 1 / 3 ∧ (1 / 3 : ℚ) ≤ 1 / 3 ∧
    ∃ st1, HandlePlayerMovement (fun _ => (1 : ℚ)) (fun _ => (0 : ℚ)) ⟨true, true, false, false⟩
        ⟨⟨3 / 2, 3 / 2⟩, ⟨-3 / 5, 4 / 5⟩, ⟨0, 33 / 50⟩⟩ (1 / 3) = some st1 ∧
      worldMapAt (toInt st1.position.x) (toInt st1.position.y) = some 0 :=
  ⟨by decide!, by decide!, by decide!, by decide!,
    movement_reads_in_grid (fun _ => (1 : ℚ)) (fun _ => (0 : ℚ)) ⟨true, true, false, false⟩
      ⟨⟨3 / 2, 3 / 2⟩, ⟨-3 / 5, 4 / 5⟩, ⟨0, 33 / 50⟩⟩ (1 / 3) (by decide!) (by decide!)
      (by decide!) (by decide!)⟩

end MovementFacts

/-! ## Rotation -/

section RotationFacts

variable {α : Type} [LinearOrderedField α] [FloorRing α]

/-- With only A held, `HandlePlayerMovement` is the rotate-left update. -/
theorem HandlePlayerMovement_a (cos sin : α → α) (st : PlayerState α) (deltaTime : α) :
    HandlePlayerMovement cos sin ⟨false, false, true, false⟩ st deltaTime =
      some (rotateLeft cos sin st (3 / 2 * deltaTime)) := rfl

/-- With only D held, `HandlePlayerMovement` is the rotate-right update. -/
theorem HandlePlayerMovement_d (cos sin : α → α) (st : PlayerState α) (deltaTime : α) :
    HandlePlayerMovement cos sin ⟨false, false, false, true⟩ st deltaTime =
      some (rotateRight cos sin st (3 / 2 * deltaTime)) := rfl

/-- Rotate-left then rotate-right by the same angle, over the reals. -/
theorem rotateRight_rotateLeft (st : PlayerState ℝ) (t : ℝ) :
    rotateRight Real.cos Real.sin (rotateLeft Real.cos Real.sin st t) t = st := by
  have hcs := Real.cos_sq_add_sin_sq t
  ext
  · rfl
  · rfl
  · simp only [rotateRight, rotateLeft, Real.cos_neg, Real.sin_neg]
    linear_combination st.direction.x * hcs
  · simp only [rotateRight, rotateLeft, Real.cos_neg, Real.sin_neg]
    linear_combination st.direction.y * hcs
  · simp only [rotateRight, rotateLeft, Real.cos_neg, Real.sin_neg]
    linear_combination st.cameraPlane.x * hcs
  · simp only [rotateRight, rotateLeft, Real.cos_neg, Real.sin_neg]
    linear_combination st.cameraPlane.y * hcs

/-- Rotate-right then rotate-left by the same angle, over the reals. -/
theorem rotateLeft_rotateRight (st : PlayerState ℝ) (t : ℝ) :
    rotateLeft Real.cos Real.sin (rotateRight Real.cos Real.sin st t) t = st := by
  have hcs := Real.cos_sq_add_sin_sq t
  ext
  · rfl
  · rfl
  · simp only [rotateRight, rotateLeft, Real.cos_neg, Real.sin_neg]
    linear_combination st.direction.x * hcs
  · simp only [rotateRight, rotateLeft, Real.cos_neg, Real.sin_neg]
    linear_combination st.direction.y * hcs
  · simp only [rotateRight, rotateLeft, Real.cos_neg, Real.sin_neg]
    linear_combination st.cameraPlane.x * hcs
  · simp only [rotateRight, rotateLeft, Real.cos_neg, Real.sin_neg]
    linear_combination st.cameraPlane.y * hcs

/-- C9: rotation invertibility over exact real arithmetic: a call of
`HandlePlayerMovement` with only A held followed by a call with only D held
and the same `deltaTime` returns `direction` and `cameraPlane` (and the whole
player state) to their original values, and likewise D followed by A. -/
theorem rotation_invertible (st : PlayerState ℝ) (deltaTime : ℝ) :
    (HandlePlayerMovement Real.cos Real.sin ⟨false, false, true, false⟩ st deltaTime).bind
        (fun s => HandlePlayerMovement Real.cos Real.sin ⟨false, false, false, true⟩ s deltaTime)
      = some st ∧
    (HandlePlayerMovement Real.cos Real.sin ⟨false, false, false, true⟩ st deltaTime).bind
        (fun s => HandlePlayerMovement Real.cos Real.sin ⟨false, false, true, false⟩ s deltaTime)
      = some st := by
  simp only [HandlePlayerMovement_a, HandlePlayerMovement_d, Option.some_bind,
    rotateRight_rotateLeft, rotateLeft_rotateRight, and_self]

/-- C10: the rotate-left update is a simultaneous 2D rotation by
`t = rotSpeed = 1.5 * deltaTime`: both `direction` and `cameraPlane` become
`(x cos t - y sin t, x sin t + y cos t)` with `x`, `y` the values before the
call, and `position` is kept; rotate-right is the same with the angle `-t`. -/
theorem rotation_simultaneous (cos sin : α → α) (st : PlayerState α) (deltaTime : α) :
    HandlePlayerMovement cos sin ⟨false, false, true, false⟩ st deltaTime = some
      { position := st.position
        direction :=
          { x := st.direction.x * cos (3 / 2 * deltaTime)
              - st.direction.y * sin (3 / 2 * deltaTime)
            y := st.direction.x * sin (3 / 2 * deltaTime)
              + st.direction.y * cos (3 / 2 * deltaTime) }
        cameraPlane :=
          { x := st.cameraPlane.x * cos (3 / 2 * deltaTime)
              - st.cameraPlane.y * sin (3 / 2 * deltaTime)
            y := st.cameraPlane.x * sin (3 / 2 * deltaTime)
              + st.cameraPlane.y * cos (3 / 2 * deltaTime) } } ∧
    HandlePlayerMovement cos sin ⟨false, false, false, true⟩ st deltaTime = some
      { position := st.position
        direction :=
          { x := st.direction.x * cos (-(3 / 2 * deltaTime))
              - st.direction.y * sin (-(3 / 2 * deltaTime))
            y := st.direction.x * sin (-(3 / 2 * deltaTime))
              + st.direction.y * cos (-(3 / 2 * deltaTime)) }
        cameraPlane :=
          { x := st.cameraPlane.x * cos (-(3 / 2 * deltaTime))
              - st.cameraPlane.y * sin (-(3 / 2 * deltaTime))
            y := st.cameraPlane.x * sin (-(3 / 2 * deltaTime))
              + st.cameraPlane.y * cos (-(3 / 2 * deltaTime)) } } ∧
    rotateRight cos sin st (3 / 2 * deltaTime) = rotateLeft cos sin st (-(3 / 2 * deltaTime)) :=
  ⟨rfl, rfl, rfl⟩

end RotationFacts

/-! ## Runs of the DDA loop as iterations of its body -/

theorem worldMapAt_zero_or_one (i j c : Int) (h : worldMapAt i j = some c) : c = 0 ∨ c = 1 := by
  obtain ⟨⟨hi0, hi7⟩, hj0, hj7⟩ := (worldMapAt_eq_some_iff_inBounds i j).1 ⟨c, h⟩
  have h01 : worldMapAt i j = some 0 ∨ worldMapAt i j = some 1 := by
    interval_cases i <;> interval_cases j <;> decide
  rcases h01 with h0 | h1
  · rw [h0] at h
    exact Or.inl (Option.some.inj h).symm
  · rw [h1] at h
    exact Or.inr (Option.some.inj h).symm

section RunFacts

variable {α : Type} [LinearOrderedField α] [FloorRing α]

theorem ddaIter_succ (dd : Vector2 (FloatVal α)) (step : Vector2 α) (k : Nat) (s : DDAState α) :
    ddaIter dd step (k + 1) s = ddaIter dd step k (ddaStep dd step s) := rfl

theorem ddaIter_succ_last (dd : Vector2 (FloatVal α)) (step : Vector2 α) (k : Nat)
    (s : DDAState α) :
    ddaIter dd step (k + 1) s = ddaStep dd step (ddaIter dd step k s) :=
  Function.iterate_succ_apply' (ddaStep dd step) k s

/-- A property kept by the loop body holds after any number of iterations. -/
theorem ddaIter_inv (dd : Vector2 (FloatVal α)) (step : Vector2 α) (Inv : DDAState α → Prop)
    (hstep : ∀ s, Inv s → Inv (ddaStep dd step s)) (s : DDAState α) (h : Inv s) (k : Nat) :
    Inv (ddaIter dd step k s) := by
  induction k with
  | zero => exact h
  | succ k ih =>
    rw [ddaIter_succ_last]
    exact hstep _ ih

/-- A run that hits a wall is a number `k ≥ 1` of iterations of the loop body:
the cell read after each earlier iteration was empty, the last one is a wall. -/
theorem ddaLoop_trace (dd : Vector2 (FloatVal α)) (step : Vector2 α) :
    ∀ (fuel iters : Nat) (s r : DDAState α) (n : Nat),
      ddaLoop dd step fuel iters s = .hit r n →
      ∃ k, 1 ≤ k ∧ n = iters + k ∧ r = ddaIter dd step k s ∧
        (∃ c, worldMapAt r.mapX r.mapY = some c ∧ 0 < c) ∧
        ∀ j, 1 ≤ j → j < k →
          worldMapAt (ddaIter dd step j s).mapX (ddaIter dd step j s).mapY = some 0 := by
  intro fuel
  induction fuel with
  | zero =>
    intro iters s r n h
    simp [ddaLoop] at h
  | succ fuel ih =>
    intro iters s r n h
    simp only [ddaLoop] at h
    cases hc : worldMapAt (ddaStep dd step s).mapX (ddaStep dd step s).mapY with
    | none => simp [hc] at h
    | some c =>
      simp only [hc] at h
      by_cases hpos : c > 0
      · simp only [if_pos hpos] at h
        injection h with hr hn
        subst hr
        subst hn
        refine ⟨1, le_rfl, rfl, rfl, ⟨c, hc, hpos⟩, ?_⟩
        intro j h1 h2
        omega
      · simp only [if_neg hpos] at h
        obtain ⟨k, hk1, hn, hr, hwall, hempty⟩ := ih _ _ _ _ h
        refine ⟨k + 1, by omega, by omega, ?_, hwall, ?_⟩
        · rw [ddaIter_succ]
          exact hr
        · intro j h1 h2
          obtain ⟨j, rfl⟩ : ∃ i, j = i + 1 := ⟨j - 1, by omega⟩
          rw [ddaIter_succ]
          by_cases hj : j = 0
          · subst hj
            have h01 := worldMapAt_zero_or_one _ _ c hc
            have hc0 : c = 0 := by omega
            rw [← hc0]
            exact hc
          · exact hempty j (by omega) (by omega)

/-- The run of the DDA loop from a position in an empty cell: with 16 units of
fuel or more it is the same `k ≤ 11` iterations of the loop body, reading an
empty cell after each of the first `k - 1` and a wall after the last. -/
theorem dda_run (pos rayDir : Vector2 α)
    (hcell : worldMapAt (toInt pos.x) (toInt pos.y) = some 0) :
    ∃ k, 1 ≤ k ∧ k ≤ 11 ∧
      (∀ fuel, 16 ≤ fuel →
        ddaLoop (deltaDist rayDir) (stepOf rayDir) fuel 0 (ddaInit pos rayDir) =
          .hit (ddaIter (deltaDist rayDir) (stepOf rayDir) k (ddaInit pos rayDir)) k) ∧
      (∃ c, worldMapAt (ddaIter (deltaDist rayDir) (stepOf rayDir) k (ddaInit pos rayDir)).mapX
          (ddaIter (deltaDist rayDir) (stepOf rayDir) k (ddaInit pos rayDir)).mapY = some c ∧
        0 < c) ∧
      ∀ j, 1 ≤ j → j < k →
        worldMapAt (ddaIter (deltaDist rayDir) (stepOf rayDir) j (ddaInit pos rayDir)).mapX
          (ddaIter (deltaDist rayDir) (stepOf rayDir) j (ddaInit pos rayDir)).mapY = some 0 := by
  have hint := ddaInit_interior pos rayDir hcell
  have htr := (travel_ge_two rayDir (ddaInit pos rayDir) hint).2
  obtain ⟨s0, n, c, -, -, hrun, -, -, -, hle⟩ :=
    ddaLoop_hit rayDir (fun _ => True) (fun _ _ _ _ => trivial) 11 0 (ddaInit pos rayDir) hint
      trivial (by push_cast; omega)
  obtain ⟨k, hk1, hn, hr, hwall, hempty⟩ := ddaLoop_trace _ _ 11 0 _ _ n hrun
  have hnk : n = k := by omega
  subst hnk
  refine ⟨n, hk1, by push_cast at hle; omega, ?_, ?_, hempty⟩
  · intro fuel hfuel
    obtain ⟨extra, rfl⟩ : ∃ extra, fuel = 11 + extra := ⟨fuel - 11, by omega⟩
    rw [← hr]
    exact ddaLoop_fuel_mono _ _ extra 11 0 _ _ n hrun
  · rw [← hr]
    exact hwall

end RunFacts

/-! ## The geometry of a run -/

section GeoOrderFacts

variable {α : Type} [LinearOrderedField α]

theorem deltaDist_x_of_ne (rayDir : Vector2 α) (h : rayDir.x ≠ 0) :
    (deltaDist rayDir).x = .fin |1 / rayDir.x| := by
  simp [deltaDist, FloatVal.div, FloatVal.fabs, h]

theorem deltaDist_y_of_ne (rayDir : Vector2 α) (h : rayDir.y ≠ 0) :
    (deltaDist rayDir).y = .fin |1 / rayDir.y| := by
  simp [deltaDist, FloatVal.div, FloatVal.fabs, h]

/-- One cell further along x is one `deltaDist.x` further along the ray. -/
theorem crossX_next (pos rayDir : Vector2 α) (line : Int) :
    crossX pos rayDir (line + (if rayDir.x < 0 then -1 else 1)) =
      crossX pos rayDir line + |1 / rayDir.x| := by
  unfold crossX
  by_cases hneg : rayDir.x < 0
  · simp only [if_pos hneg]
    rw [abs_of_neg (one_div_neg.2 hneg)]
    push_cast
    ring
  · simp only [if_neg hneg]
    rw [abs_of_nonneg (one_div_nonneg.2 (not_lt.1 hneg))]
    push_cast
    ring

/-- One cell further along y is one `deltaDist.y` further along the ray. -/
theorem crossY_next (pos rayDir : Vector2 α) (line : Int) :
    crossY pos rayDir (line + (if rayDir.y < 0 then -1 else 1)) =
      crossY pos rayDir line + |1 / rayDir.y| := by
  unfold crossY
  by_cases hneg : rayDir.y < 0
  · simp only [if_pos hneg]
    rw [abs_of_neg (one_div_neg.2 hneg)]
    push_cast
    ring
  · simp only [if_neg hneg]
    rw [abs_of_nonneg (one_div_nonneg.2 (not_lt.1 hneg))]
    push_cast
    ring

theorem nextLineX_step (rayDir : Vector2 α) (s : DDAState α) (sx sy : FloatVal α) (side : Int) :
    nextLineX rayDir
        { sideDistX := sx, sideDistY := sy,
          mapX := s.mapX + (if rayDir.x < 0 then -1 else 1), mapY := s.mapY, side := side } =
      nextLineX rayDir s + (if rayDir.x < 0 then -1 else 1) ∧
    prevLineX rayDir
        { sideDistX := sx, sideDistY := sy,
          mapX := s.mapX + (if rayDir.x < 0 then -1 else 1), mapY := s.mapY, side := side } =
      nextLineX rayDir s := by
  unfold nextLineX prevLineX
  by_cases hneg : rayDir.x < 0
  · simp only [if_pos hneg, true_and]
    omega
  · simp only [if_neg hneg, and_self]

theorem nextLineY_step (rayDir : Vector2 α) (s : DDAState α) (sx sy : FloatVal α) (side : Int) :
    nextLineY rayDir
        { sideDistX := sx, sideDistY := sy,
          mapX := s.mapX, mapY := s.mapY + (if rayDir.y < 0 then -1 else 1), side := side } =
      nextLineY rayDir s + (if rayDir.y < 0 then -1 else 1) ∧
    prevLineY rayDir
        { sideDistX := sx, sideDistY := sy,
          mapX := s.mapX, mapY := s.mapY + (if rayDir.y < 0 then -1 else 1), side := side } =
      nextLineY rayDir s := by
  unfold nextLineY prevLineY
  by_cases hneg : rayDir.y < 0
  · simp only [if_pos hneg, true_and]
    omega
  · simp only [if_neg hneg, and_self]

theorem abs_one_div_nonneg (r : α) : 0 ≤ |1 / r| := abs_nonneg _

end GeoOrderFacts

section GeoFacts

variable {α : Type} [LinearOrderedField α] [FloorRing α]

/-- The loop body keeps the invariant of a run. -/
theorem ddaStep_ddaInv (pos rayDir : Vector2 α) (s : DDAState α) (h : DDAInv pos rayDir s) :
    DDAInv pos rayDir (ddaStep (deltaDist rayDir) (stepOf rayDir) s) := by
  obtain ⟨hray, ⟨hgx, hgy⟩, ⟨hax, hay⟩, hcell⟩ := h
  refine ⟨ddaStep_rayInv rayDir _ _ s hray, ?_⟩
  obtain ⟨-, -, hix, hiy⟩ := hray
  cases hlt : FloatVal.lt s.sideDistX s.sideDistY
  · -- the y branch
    rw [ddaStep_of_not_lt rayDir s hlt]
    obtain ⟨hn, hp⟩ := nextLineY_step rayDir s s.sideDistX
      (FloatVal.add s.sideDistY (deltaDist rayDir).y) 1
    refine ⟨⟨?_, ?_⟩, ⟨hax, ?_⟩, ?_⟩
    · intro hx
      exact hgx hx
    · intro hy
      rw [hn, crossY_next]
      simp only [hgy hy, deltaDist_y_of_ne rayDir hy, FloatVal.add]
    · intro hy0 hx
      exfalso
      rw [hgx hx, hiy hy0] at hlt
      simp [FloatVal.lt] at hlt
    · intro hx hy
      obtain ⟨hc1, hc2⟩ := hcell hx hy
      rw [hgx hx, hgy hy] at hlt
      have hle : crossY pos rayDir (nextLineY rayDir s) ≤ crossX pos rayDir (nextLineX rayDir s) := by
        simpa [FloatVal.lt] using hlt
      refine ⟨?_, ?_⟩
      · rw [hp]
        exact hle
      · rw [hn, crossY_next]
        have := abs_one_div_nonneg rayDir.y
        have e : prevLineX rayDir
            { sideDistX := s.sideDistX
              sideDistY := FloatVal.add s.sideDistY (deltaDist rayDir).y
              mapX := s.mapX, mapY := s.mapY + (if rayDir.y < 0 then -1 else 1), side := 1 } =
            prevLineX rayDir s := rfl
        rw [e]
        linarith
  · -- the x branch
    have hx : rayDir.x ≠ 0 := by
      intro h0
      rw [hix h0, FloatVal.lt_posInf_left] at hlt
      exact Bool.noConfusion hlt
    rw [ddaStep_of_lt rayDir s hlt]
    obtain ⟨hn, hp⟩ := nextLineX_step rayDir s
      (FloatVal.add s.sideDistX (deltaDist rayDir).x) s.sideDistY 0
    refine ⟨⟨?_, ?_⟩, ⟨fun h0 => absurd h0 hx, ?_⟩, ?_⟩
    · intro _
      rw [hn, crossX_next]
      simp only [hgx hx, deltaDist_x_of_ne rayDir hx, FloatVal.add]
    · intro hy
      exact hgy hy
    · intro hy0 _
      exact hay hy0 hx
    · intro _ hy
      obtain ⟨hc1, hc2⟩ := hcell hx hy
      rw [hgx hx, hgy hy] at hlt
      have hlt2 : crossX pos rayDir (nextLineX rayDir s) < crossY pos rayDir (nextLineY rayDir s) := by
        simpa [FloatVal.lt] using hlt
      refine ⟨?_, ?_⟩
      · rw [hn, crossX_next]
        have := abs_one_div_nonneg rayDir.x
        have e : prevLineY rayDir
            { sideDistX := FloatVal.add s.sideDistX (deltaDist rayDir).x
              sideDistY := s.sideDistY
              mapX := s.mapX + (if rayDir.x < 0 then -1 else 1), mapY := s.mapY, side := 0 } =
            prevLineY rayDir s := rfl
        rw [e]
        linarith
      · rw [hp]
        exact le_of_lt hlt2

/-- The invariant of a run holds on entry to the loop. -/
theorem ddaInit_ddaInv (pos rayDir : Vector2 α) (hx : 1 ≤ toInt pos.x) (hy : 1 ≤ toInt pos.y) :
    DDAInv pos rayDir (ddaInit pos rayDir) := by
  obtain ⟨bx1, bx2⟩ := toInt_bounds_of_pos pos.x hx
  obtain ⟨by1, by2⟩ := toInt_bounds_of_pos pos.y hy
  have cxn : ∀ hne : rayDir.x ≠ 0,
      0 ≤ crossX pos rayDir (nextLineX rayDir (ddaInit pos rayDir)) ∧
      crossX pos rayDir (prevLineX rayDir (ddaInit pos rayDir)) ≤ 0 := by
    intro hne
    unfold crossX nextLineX prevLineX ddaInit
    by_cases hneg : rayDir.x < 0
    · simp only [if_pos hneg]
      push_cast
      exact ⟨div_nonneg_of_nonpos (by linarith) (le_of_lt hneg),
        div_nonpos_of_nonneg_of_nonpos (by linarith) (le_of_lt hneg)⟩
    · simp only [if_neg hneg]
      push_cast
      have hpos : 0 ≤ rayDir.x := not_lt.1 hneg
      exact ⟨div_nonneg (by linarith) hpos, div_nonpos_of_nonpos_of_nonneg (by linarith) hpos⟩
  have cyn : ∀ hne : rayDir.y ≠ 0,
      0 ≤ crossY pos rayDir (nextLineY rayDir (ddaInit pos rayDir)) ∧
      crossY pos rayDir (prevLineY rayDir (ddaInit pos rayDir)) ≤ 0 := by
    intro hne
    unfold crossY nextLineY prevLineY ddaInit
    by_cases hneg : rayDir.y < 0
    · simp only [if_pos hneg]
      push_cast
      exact ⟨div_nonneg_of_nonpos (by linarith) (le_of_lt hneg),
        div_nonpos_of_nonneg_of_nonpos (by linarith) (le_of_lt hneg)⟩
    · simp only [if_neg hneg]
      push_cast
      have hpos : 0 ≤ rayDir.y := not_lt.1 hneg
      exact ⟨div_nonneg (by linarith) hpos, div_nonpos_of_nonpos_of_nonneg (by linarith) hpos⟩
  refine ⟨ddaInit_rayInv pos rayDir hx hy, ⟨?_, ?_⟩, ⟨fun _ => rfl, fun _ _ => rfl⟩, ?_⟩
  · intro hne
    unfold crossX nextLineX ddaInit
    simp only [deltaDist_x_of_ne rayDir hne]
    by_cases hneg : rayDir.x < 0
    · simp only [if_pos hneg, FloatVal.mul, abs_of_neg (one_div_neg.2 hneg)]
      congr 1
      ring
    · simp only [if_neg hneg, FloatVal.mul, abs_of_nonneg (one_div_nonneg.2 (not_lt.1 hneg))]
      congr 1
      push_cast
      ring
  · intro hne
    unfold crossY nextLineY ddaInit
    simp only [deltaDist_y_of_ne rayDir hne]
    by_cases hneg : rayDir.y < 0
    · simp only [if_pos hneg, FloatVal.mul, abs_of_neg (one_div_neg.2 hneg)]
      congr 1
      ring
    · simp only [if_neg hneg, FloatVal.mul, abs_of_nonneg (one_div_nonneg.2 (not_lt.1 hneg))]
      congr 1
      push_cast
      ring
  · intro hnx hny
    obtain ⟨h1, h2⟩ := cxn hnx
    obtain ⟨h3, h4⟩ := cyn hny
    exact ⟨le_trans h4 h1, le_trans h2 h3⟩

end GeoFacts

section HitOrderFacts

variable {α : Type} [LinearOrderedField α]

theorem FloatVal.lt_irrefl (f : FloatVal α) : FloatVal.lt f f = false := by
  cases f <;> simp [FloatVal.lt]

/-- A ray parameter between the crossings of the two grid lines of a cell row
gives a point between these two lines. -/
theorem between_lines_of_cross (p r t : α) (m : Int) (hr : r ≠ 0)
    (h1 : (((if r < 0 then m + 1 else m : Int) : α) - p) / r ≤ t)
    (h2 : t ≤ (((if r < 0 then m else m + 1 : Int) : α) - p) / r) :
    (m : α) ≤ p + t * r ∧ p + t * r ≤ (m : α) + 1 := by
  by_cases hneg : r < 0
  · simp only [if_pos hneg] at h1 h2
    push_cast at h1 h2
    have e1 := (div_le_iff_of_neg hneg).1 h1
    have e2 := (le_div_iff_of_neg hneg).1 h2
    constructor <;> linarith
  · simp only [if_neg hneg] at h1 h2
    push_cast at h1 h2
    have hpos : 0 < r := lt_of_le_of_ne (not_lt.1 hneg) (Ne.symm hr)
    have e1 := (div_le_iff₀ hpos).1 h1
    have e2 := (le_div_iff₀ hpos).1 h2
    constructor <;> linarith

/-- The perpendicular distance right after an x step is the ray parameter of
the grid line that was crossed. -/
theorem perpWallDist_after_x (pos rayDir : Vector2 α) (s : DDAState α) (sx sy : FloatVal α)
    (hx : rayDir.x ≠ 0) :
    perpWallDist pos rayDir (stepOf rayDir)
        { sideDistX := sx, sideDistY := sy,
          mapX := s.mapX + (if rayDir.x < 0 then -1 else 1), mapY := s.mapY, side := 0 } =
      .fin (crossX pos rayDir (nextLineX rayDir s)) := by
  unfold perpWallDist stepOf crossX nextLineX
  simp only [if_true, FloatVal.div, if_neg hx]
  congr 1
  by_cases hneg : rayDir.x < 0
  · simp only [if_pos hneg]
    push_cast
    ring
  · simp only [if_neg hneg]
    push_cast
    ring

/-- The perpendicular distance right after a y step is the ray parameter of
the grid line that was crossed. -/
theorem perpWallDist_after_y (pos rayDir : Vector2 α) (s : DDAState α) (sx sy : FloatVal α)
    (hy : rayDir.y ≠ 0) :
    perpWallDist pos rayDir (stepOf rayDir)
        { sideDistX := sx, sideDistY := sy,
          mapX := s.mapX, mapY := s.mapY + (if rayDir.y < 0 then -1 else 1), side := 1 } =
      .fin (crossY pos rayDir (nextLineY rayDir s)) := by
  unfold perpWallDist stepOf crossY nextLineY
  simp only [if_neg (show ¬ ((1 : Int) = 0) by decide), FloatVal.div, if_neg hy]
  congr 1
  by_cases hneg : rayDir.y < 0
  · simp only [if_pos hneg]
    push_cast
    ring
  · simp only [if_neg hneg]
    push_cast
    ring

end HitOrderFacts

section HitFacts

variable {α : Type} [LinearOrderedField α] [FloorRing α]

/-- The run of the DDA loop from a position in an empty cell, seen from its
last iteration: the loop body takes the state `s0` after `k ≤ 10` iterations,
which satisfies the run invariant, to the state in which the loop stops. -/
theorem dda_run_last (pos rayDir : Vector2 α)
    (hcell : worldMapAt (toInt pos.x) (toInt pos.y) = some 0) :
    ∃ k s0, k ≤ 10 ∧ s0 = ddaIter (deltaDist rayDir) (stepOf rayDir) k (ddaInit pos rayDir) ∧
      DDAInv pos rayDir s0 ∧
      (∀ fuel, mapWidth + mapHeight ≤ fuel →
        ddaLoop (deltaDist rayDir) (stepOf rayDir) fuel 0 (ddaInit pos rayDir) =
          .hit (ddaStep (deltaDist rayDir) (stepOf rayDir) s0) (k + 1)) ∧
      (∃ c, worldMapAt (ddaStep (deltaDist rayDir) (stepOf rayDir) s0).mapX
          (ddaStep (deltaDist rayDir) (stepOf rayDir) s0).mapY = some c ∧ 0 < c) ∧
      (∀ j, 1 ≤ j → j < k + 1 →
        worldMapAt (ddaIter (deltaDist rayDir) (stepOf rayDir) j (ddaInit pos rayDir)).mapX
          (ddaIter (deltaDist rayDir) (stepOf rayDir) j (ddaInit pos rayDir)).mapY = some 0) ∧
      ∀ j, DDAInv pos rayDir (ddaIter (deltaDist rayDir) (stepOf rayDir) j (ddaInit pos rayDir)) := by
  obtain ⟨k, hk1, hk11, hrun, hwall, hempty⟩ := dda_run pos rayDir hcell
  obtain ⟨⟨hpx, -⟩, hpy, -⟩ := ddaInit_interior pos rayDir hcell
  have hinv : ∀ j, DDAInv pos rayDir
      (ddaIter (deltaDist rayDir) (stepOf rayDir) j (ddaInit pos rayDir)) :=
    ddaIter_inv _ _ (DDAInv pos rayDir) (ddaStep_ddaInv pos rayDir) _
      (ddaInit_ddaInv pos rayDir hpx hpy)
  obtain ⟨k, rfl⟩ : ∃ i, k = i + 1 := ⟨k - 1, by omega⟩
  rw [ddaIter_succ_last] at hrun hwall
  refine ⟨k, _, by omega, rfl, hinv k, ?_, hwall, hempty, hinv⟩
  intro fuel hfuel
  exact hrun fuel hfuel

end HitFacts

/-! ## The DDA loop: zero components, geometry of the hit, reads -/

section HitResults

variable {α : Type} [LinearOrderedField α] [FloorRing α]

/-- Over exact arithmetic the hit is on the ray (the statement of C14 without
rounding).  From a position in an empty cell (on a grid line of the cell or
strictly inside) and for a ray with both components non-zero, the loop stops
in a state `s` with a finite `perpWallDist = t`; when
`side = 0` the point `position + t * rayDirection` has x-coordinate
`mapX + (1 - step.x) / 2` and y-coordinate in `[mapY, mapY + 1]`, and the same
with the axes exchanged when `side = 1`.  The cell `worldMap[mapX][mapY]` is
`> 0` and the cell read after every earlier iteration was 0. -/
theorem hit_point_on_wall_face (pos rayDir : Vector2 α)
    (hcell : worldMapAt (toInt pos.x) (toInt pos.y) = some 0)
    (hx : rayDir.x ≠ 0) (hy : rayDir.y ≠ 0) :
    ∃ s n t, (∀ fuel, mapWidth + mapHeight ≤ fuel →
        ddaLoop (deltaDist rayDir) (stepOf rayDir) fuel 0 (ddaInit pos rayDir) = .hit s n) ∧
      perpWallDist pos rayDir (stepOf rayDir) s = .fin t ∧
      (s.side = 0 ∨ s.side = 1) ∧
      (s.side = 0 →
        pos.x + t * rayDir.x = (s.mapX : α) + (1 - (stepOf rayDir).x) / 2 ∧
        (s.mapY : α) ≤ pos.y + t * rayDir.y ∧ pos.y + t * rayDir.y ≤ (s.mapY : α) + 1) ∧
      (s.side = 1 →
        pos.y + t * rayDir.y = (s.mapY : α) + (1 - (stepOf rayDir).y) / 2 ∧
        (s.mapX : α) ≤ pos.x + t * rayDir.x ∧ pos.x + t * rayDir.x ≤ (s.mapX : α) + 1) ∧
      (∃ c, worldMapAt s.mapX s.mapY = some c ∧ 0 < c) ∧
      ∀ j, 1 ≤ j → j < n →
        worldMapAt (ddaIter (deltaDist rayDir) (stepOf rayDir) j (ddaInit pos rayDir)).mapX
          (ddaIter (deltaDist rayDir) (stepOf rayDir) j (ddaInit pos rayDir)).mapY = some 0 := by
  obtain ⟨k, s0, -, -, hinv0, hrun, hwall, hempty, -⟩ := dda_run_last pos rayDir hcell
  obtain ⟨-, ⟨hgx, hgy⟩, -, hcellinv⟩ := hinv0
  obtain ⟨hc1, hc2⟩ := hcellinv hx hy
  cases hlt : FloatVal.lt s0.sideDistX s0.sideDistY
  · -- the last iteration took the y branch
    have hle : crossY pos rayDir (nextLineY rayDir s0) ≤ crossX pos rayDir (nextLineX rayDir s0) := by
      rw [hgx hx, hgy hy] at hlt
      simpa [FloatVal.lt] using hlt
    rw [ddaStep_of_not_lt rayDir s0 hlt] at hrun hwall
    refine ⟨_, _, crossY pos rayDir (nextLineY rayDir s0), hrun,
      perpWallDist_after_y pos rayDir s0 _ _ hy, Or.inr rfl, ?_, ?_, hwall, hempty⟩
    · intro h
      exact absurd (show (1 : Int) = 0 from h) (by decide)
    · intro _
      refine ⟨?_, ?_⟩
      · unfold crossY nextLineY stepOf
        rw [div_mul_cancel₀ _ hy]
        by_cases hneg : rayDir.y < 0
        · simp only [if_pos hneg]
          push_cast
          ring
        · simp only [if_neg hneg]
          push_cast
          ring
      · exact between_lines_of_cross pos.x rayDir.x _ s0.mapX hx hc2 hle
  · -- the last iteration took the x branch
    have hlt2 : crossX pos rayDir (nextLineX rayDir s0) < crossY pos rayDir (nextLineY rayDir s0) := by
      rw [hgx hx, hgy hy] at hlt
      simpa [FloatVal.lt] using hlt
    rw [ddaStep_of_lt rayDir s0 hlt] at hrun hwall
    refine ⟨_, _, crossX pos rayDir (nextLineX rayDir s0), hrun,
      perpWallDist_after_x pos rayDir s0 _ _ hx, Or.inl rfl, ?_, ?_, hwall, hempty⟩
    · intro _
      refine ⟨?_, ?_⟩
      · unfold crossX nextLineX stepOf
        rw [div_mul_cancel₀ _ hx]
        by_cases hneg : rayDir.x < 0
        · simp only [if_pos hneg]
          push_cast
          ring
        · simp only [if_neg hneg]
          push_cast
          ring
      · exact between_lines_of_cross pos.y rayDir.y _ s0.mapY hy hc1 (le_of_lt hlt2)
    · intro h
      exact absurd (show (0 : Int) = 1 from h) (by decide)

theorem hit_point_on_wall_face_witness :
    worldMapAt (toInt (7 / 2 : ℚ)) (toInt (7 / 2 : ℚ)) = some 0 ∧ (-1 : ℚ) ≠ 0 ∧
      (-33 / 50 : ℚ) ≠ 0 ∧
      ∃ s n t, (∀ fuel, mapWidth + mapHeight ≤ fuel →
          ddaLoop (deltaDist (⟨-1, -33 / 50⟩ : Vector2 ℚ)) (stepOf ⟨-1, -33 / 50⟩) fuel 0
            (ddaInit ⟨7 / 2, 7 / 2⟩ ⟨-1, -33 / 50⟩) = .hit s n) ∧
        perpWallDist (⟨7 / 2, 7 / 2⟩ : Vector2 ℚ) ⟨-1, -33 / 50⟩ (stepOf ⟨-1, -33 / 50⟩) s =
          .fin t ∧
        (s.side = 0 ∨ s.side = 1) ∧
        (s.side = 0 →
          (7 / 2 : ℚ) + t * (-1) = (s.mapX : ℚ) + (1 - (stepOf (⟨-1, -33 / 50⟩ : Vector2 ℚ)).x) / 2 ∧
          (s.mapY : ℚ) ≤ 7 / 2 + t * (-33 / 50) ∧ 7 / 2 + t * (-33 / 50) ≤ (s.mapY : ℚ) + 1) ∧
        (s.side = 1 →
          (7 / 2 : ℚ) + t * (-33 / 50) =
            (s.mapY : ℚ) + (1 - (stepOf (⟨-1, -33 / 50⟩ : Vector2 ℚ)).y) / 2 ∧
          (s.mapX : ℚ) ≤ 7 / 2 + t * (-1) ∧ 7 / 2 + t * (-1) ≤ (s.mapX : ℚ) + 1) ∧
        (∃ c, worldMapAt s.mapX s.mapY = some c ∧ 0 < c) ∧
        ∀ j, 1 ≤ j → j < n →
          worldMapAt
            (ddaIter (deltaDist (⟨-1, -33 / 50⟩ : Vector2 ℚ)) (stepOf ⟨-1, -33 / 50⟩) j
              (ddaInit ⟨7 / 2, 7 / 2⟩ ⟨-1, -33 / 50⟩)).mapX
            (ddaIter (deltaDist (⟨-1, -33 / 50⟩ : Vector2 ℚ)) (stepOf ⟨-1, -33 / 50⟩) j
              (ddaInit ⟨7 / 2, 7 / 2⟩ ⟨-1, -33 / 50⟩)).mapY = some 0 :=
  ⟨by decide!, by decide!, by decide!,
    hit_point_on_wall_face (⟨7 / 2, 7 / 2⟩ : Vector2 ℚ) ⟨-1, -33 / 50⟩ (by decide!) (by decide!)
      (by decide!)⟩

/-- C15: the DDA loop never reads outside the grid.  From a position in an
empty cell and for every ray direction the loop stops after `n` iterations,
and the read `worldMap[mapX][mapY]` made after each iteration `1..n` (these are
all the reads of the loop) has `0 ≤ mapX ≤ 7` and `0 ≤ mapY ≤ 7`. -/
theorem dda_reads_in_grid (pos rayDir : Vector2 α)
    (hcell : worldMapAt (toInt pos.x) (toInt pos.y) = some 0) :
    ∃ s n, (∀ fuel, mapWidth + mapHeight ≤ fuel →
        ddaLoop (deltaDist rayDir) (stepOf rayDir) fuel 0 (ddaInit pos rayDir) = .hit s n) ∧
      ∀ j, 1 ≤ j → j ≤ n →
        (0 ≤ (ddaIter (deltaDist rayDir) (stepOf rayDir) j (ddaInit pos rayDir)).mapX ∧
          (ddaIter (deltaDist rayDir) (stepOf rayDir) j (ddaInit pos rayDir)).mapX ≤ 7) ∧
        (0 ≤ (ddaIter (deltaDist rayDir) (stepOf rayDir) j (ddaInit pos rayDir)).mapY ∧
          (ddaIter (deltaDist rayDir) (stepOf rayDir) j (ddaInit pos rayDir)).mapY ≤ 7) := by
  obtain ⟨k, -, -, hrun, ⟨c, hc, -⟩, hempty⟩ := dda_run pos rayDir hcell
  refine ⟨_, k, hrun, ?_⟩
  intro j hj1 hjk
  by_cases hlast : j = k
  · subst hlast
    exact (worldMapAt_eq_some_iff_inBounds _ _).1 ⟨c, hc⟩
  · exact (worldMapAt_eq_some_iff_inBounds _ _).1 ⟨0, hempty j hj1 (by omega)⟩

theorem dda_reads_in_grid_witness :
    worldMapAt (toInt (7 / 2 : ℚ)) (toInt (7 / 2 : ℚ)) = some 0 ∧
      ∃ s n, (∀ fuel, mapWidth + mapHeight ≤ fuel →
          ddaLoop (deltaDist (⟨-1, -33 / 50⟩ : Vector2 ℚ)) (stepOf ⟨-1, -33 / 50⟩) fuel 0
            (ddaInit ⟨7 / 2, 7 / 2⟩ ⟨-1, -33 / 50⟩) = .hit s n) ∧
        ∀ j, 1 ≤ j → j ≤ n →
          (0 ≤ (ddaIter (deltaDist (⟨-1, -33 / 50⟩ : Vector2 ℚ)) (stepOf ⟨-1, -33 / 50⟩) j
              (ddaInit ⟨7 / 2, 7 / 2⟩ ⟨-1, -33 / 50⟩)).mapX ∧
            (ddaIter (deltaDist (⟨-1, -33 / 50⟩ : Vector2 ℚ)) (stepOf ⟨-1, -33 / 50⟩) j
              (ddaInit ⟨7 / 2, 7 / 2⟩ ⟨-1, -33 / 50⟩)).mapX ≤ 7) ∧
          (0 ≤ (ddaIter (deltaDist (⟨-1, -33 / 50⟩ : Vector2 ℚ)) (stepOf ⟨-1, -33 / 50⟩) j
              (ddaInit ⟨7 / 2, 7 / 2⟩ ⟨-1, -33 / 50⟩)).mapY ∧
            (ddaIter (deltaDist (⟨-1, -33 / 50⟩ : Vector2 ℚ)) (stepOf ⟨-1, -33 / 50⟩) j
              (ddaInit ⟨7 / 2, 7 / 2⟩ ⟨-1, -33 / 50⟩)).mapY ≤ 7) :=
  ⟨by decide!, dda_reads_in_grid (⟨7 / 2, 7 / 2⟩ : Vector2 ℚ) ⟨-1, -33 / 50⟩ (by decide!)⟩

/-- Over exact arithmetic the closed form and the accumulator agree (the
statement of C18 without rounding).  From a position in an empty cell and for
every ray, when the loop stops with `side = 0` then
`rayDirection.x ≠ 0` and `perpWallDist` equals `sideDist.x - deltaDist.x` of
the final state; when it stops with `side = 1` and `rayDirection.y ≠ 0`,
`perpWallDist` equals `sideDist.y - deltaDist.y`. -/
theorem perpWallDist_eq_sideDist_sub (pos rayDir : Vector2 α)
    (hcell : worldMapAt (toInt pos.x) (toInt pos.y) = some 0) :
    ∃ s n, (∀ fuel, mapWidth + mapHeight ≤ fuel →
        ddaLoop (deltaDist rayDir) (stepOf rayDir) fuel 0 (ddaInit pos rayDir) = .hit s n) ∧
      (s.side = 0 ∨ s.side = 1) ∧
      (s.side = 0 → rayDir.x ≠ 0 ∧
        perpWallDist pos rayDir (stepOf rayDir) s =
          FloatVal.sub s.sideDistX (deltaDist rayDir).x) ∧
      (s.side = 1 → rayDir.y ≠ 0 →
        perpWallDist pos rayDir (stepOf rayDir) s =
          FloatVal.sub s.sideDistY (deltaDist rayDir).y) := by
  obtain ⟨k, s0, -, -, hinv0, hrun, -, -, -⟩ := dda_run_last pos rayDir hcell
  obtain ⟨⟨-, -, hix, -⟩, ⟨hgx, hgy⟩, -, -⟩ := hinv0
  cases hlt : FloatVal.lt s0.sideDistX s0.sideDistY
  · rw [ddaStep_of_not_lt rayDir s0 hlt] at hrun
    refine ⟨_, _, hrun, Or.inr rfl, ?_, ?_⟩
    · intro h
      exact absurd (show (1 : Int) = 0 from h) (by decide)
    · intro _ hy
      rw [perpWallDist_after_y pos rayDir s0 _ _ hy]
      simp only [hgy hy, deltaDist_y_of_ne rayDir hy, FloatVal.add, FloatVal.sub,
        add_sub_cancel_right]
  · have hx : rayDir.x ≠ 0 := by
      intro h0
      rw [hix h0, FloatVal.lt_posInf_left] at hlt
      exact Bool.noConfusion hlt
    rw [ddaStep_of_lt rayDir s0 hlt] at hrun
    refine ⟨_, _, hrun, Or.inl rfl, ?_, ?_⟩
    · intro _
      refine ⟨hx, ?_⟩
      rw [perpWallDist_after_x pos rayDir s0 _ _ hx]
      simp only [hgx hx, deltaDist_x_of_ne rayDir hx, FloatVal.add, FloatVal.sub,
        add_sub_cancel_right]
    · intro h
      exact absurd (show (0 : Int) = 1 from h) (by decide)

theorem perpWallDist_eq_sideDist_sub_witness :
    worldMapAt (toInt (7 / 2 : ℚ)) (toInt (7 / 2 : ℚ)) = some 0 ∧
      ∃ s n, (∀ fuel, mapWidth + mapHeight ≤ fuel →
          ddaLoop (deltaDist (⟨-1, -33 / 50⟩ : Vector2 ℚ)) (stepOf ⟨-1, -33 / 50⟩) fuel 0
            (ddaInit ⟨7 / 2, 7 / 2⟩ ⟨-1, -33 / 50⟩) = .hit s n) ∧
        (s.side = 0 ∨ s.side = 1) ∧
        (s.side = 0 → (-1 : ℚ) ≠ 0 ∧
          perpWallDist (⟨7 / 2, 7 / 2⟩ : Vector2 ℚ) ⟨-1, -33 / 50⟩ (stepOf ⟨-1, -33 / 50⟩) s =
            FloatVal.sub s.sideDistX (deltaDist (⟨-1, -33 / 50⟩ : Vector2 ℚ)).x) ∧
        (s.side = 1 → (-33 / 50 : ℚ) ≠ 0 →
          perpWallDist (⟨7 / 2, 7 / 2⟩ : Vector2 ℚ) ⟨-1, -33 / 50⟩ (stepOf ⟨-1, -33 / 50⟩) s =
            FloatVal.sub s.sideDistY (deltaDist (⟨-1, -33 / 50⟩ : Vector2 ℚ)).y) :=
  ⟨by decide!,
    perpWallDist_eq_sideDist_sub (⟨7 / 2, 7 / 2⟩ : Vector2 ℚ) ⟨-1, -33 / 50⟩ (by decide!)⟩

end HitResults

/-! ## The wall slice -/

section SliceFacts

variable {α : Type} [LinearOrderedField α] [FloorRing α]

/-- The cast `(int)` is monotone. -/
theorem toInt_mono (a b : α) (h : a ≤ b) : toInt a ≤ toInt b := by
  unfold toInt
  by_cases ha : 0 ≤ a
  · rw [if_pos ha, if_pos (le_trans ha h)]
    exact Int.floor_le_floor h
  · rw [if_neg ha]
    by_cases hb : 0 ≤ b
    · rw [if_pos hb]
      have h1 : ⌈a⌉ ≤ 0 := Int.ceil_le.2 (by exact_mod_cast le_of_lt (not_le.1 ha))
      have h2 : 0 ≤ ⌊b⌋ := Int.floor_nonneg.2 hb
      omega
    · rw [if_neg hb]
      exact Int.ceil_le_ceil h

theorem toInt_zero : toInt (0 : α) = 0 := by
  have h := toInt_intCast (α := α) 0
  simpa using h

end SliceFacts

/-- C13, as stated, fails: for `lineHeight = -2000` and `screenHeight = 600`
the code gives `drawStart = 1300` and `drawEnd = -700`, not the clamped values
`599` and `0`: `drawStart` is only clamped from below and `drawEnd` only from
above. -/
theorem slice_not_clamped_on_both_sides :
    drawStart (-2000) 600 = 1300 ∧
    clamp (Int.tdiv (- -2000) 2 + Int.tdiv 600 2) 0 (600 - 1) = 599 ∧
    drawEnd (-2000) 600 = -700 ∧
    clamp (Int.tdiv (-2000) 2 + Int.tdiv 600 2) 0 (600 - 1) = 0 := by
  decide

/-- C13, amended: for every `lineHeight ≥ 0` (all the ray caster produces) and
every `screenHeight ≥ 1`, `drawStart` equals
`clamp(-lineHeight/2 + screenHeight/2, 0, screenHeight-1)` and `drawEnd`
equals `clamp(lineHeight/2 + screenHeight/2, 0, screenHeight-1)`, with C
integer division. -/
theorem slice_eq_clamp (lineHeight screenHeight : Int) (hl : 0 ≤ lineHeight)
    (hs : 1 ≤ screenHeight) :
    drawStart lineHeight screenHeight =
      clamp (Int.tdiv (-lineHeight) 2 + Int.tdiv screenHeight 2) 0 (screenHeight - 1) ∧
    drawEnd lineHeight screenHeight =
      clamp (Int.tdiv lineHeight 2 + Int.tdiv screenHeight 2) 0 (screenHeight - 1) := by
  unfold drawStart drawEnd clamp
  rw [Int.neg_tdiv, Int.tdiv_eq_ediv hl (by decide), Int.tdiv_eq_ediv (by omega) (by decide)]
  constructor
  · simp only
    split_ifs <;> omega
  · simp only
    split_ifs <;> omega

theorem slice_eq_clamp_witness :
    (0 : Int) ≤ 240 ∧ (1 : Int) ≤ 600 ∧
    drawStart 240 600 = clamp (Int.tdiv (-240) 2 + Int.tdiv 600 2) 0 (600 - 1) ∧
    drawEnd 240 600 = clamp (Int.tdiv 240 2 + Int.tdiv 600 2) 0 (600 - 1) :=
  ⟨by decide, by decide, slice_eq_clamp 240 600 (by decide) (by decide)⟩

/-- C19: for every `lineHeight ≥ 0` and every `screenHeight ≥ 1` the slice
satisfies `0 ≤ drawStart ≤ drawEnd ≤ screenHeight - 1`. -/
theorem slice_bounds (lineHeight screenHeight : Int) (hl : 0 ≤ lineHeight)
    (hs : 1 ≤ screenHeight) :
    0 ≤ drawStart lineHeight screenHeight ∧
    drawStart lineHeight screenHeight ≤ drawEnd lineHeight screenHeight ∧
    drawEnd lineHeight screenHeight ≤ screenHeight - 1 := by
  unfold drawStart drawEnd
  rw [Int.neg_tdiv, Int.tdiv_eq_ediv hl (by decide), Int.tdiv_eq_ediv (by omega) (by decide)]
  simp only
  split_ifs <;> omega

theorem slice_bounds_witness :
    (0 : Int) ≤ 240 ∧ (1 : Int) ≤ 600 ∧
    0 ≤ drawStart 240 600 ∧ drawStart 240 600 ≤ drawEnd 240 600 ∧ drawEnd 240 600 ≤ 600 - 1 :=
  ⟨by decide, by decide, slice_bounds 240 600 (by decide) (by decide)⟩

/-! ## One iteration of the loop, the player's cell, rotation invariants -/

section StepResults

variable {α : Type} [LinearOrderedField α] [FloorRing α]

/-- C16: the tie-break of one DDA iteration.  If `sideDist.x < sideDist.y`
strictly, only `mapX` changes, by `step.x` (which is `-1` or `1`),
`sideDist.x` grows by `deltaDist.x` and `side` becomes 0; otherwise, in
particular when `sideDist.x = sideDist.y`, only `mapY` changes, by `step.y`,
`sideDist.y` grows by `deltaDist.y` and `side` becomes 1. -/
theorem dda_step_tie_break (rayDir : Vector2 α) (s : DDAState α) :
    (FloatVal.lt s.sideDistX s.sideDistY = true →
      ddaStep (deltaDist rayDir) (stepOf rayDir) s =
        { sideDistX := FloatVal.add s.sideDistX (deltaDist rayDir).x
          sideDistY := s.sideDistY
          mapX := s.mapX + (if rayDir.x < 0 then -1 else 1)
          mapY := s.mapY
          side := 0 } ∧
      (((ddaStep (deltaDist rayDir) (stepOf rayDir) s).mapX : Int) : α) =
        (s.mapX : α) + (stepOf rayDir).x) ∧
    (FloatVal.lt s.sideDistX s.sideDistY = false →
      ddaStep (deltaDist rayDir) (stepOf rayDir) s =
        { sideDistX := s.sideDistX
          sideDistY := FloatVal.add s.sideDistY (deltaDist rayDir).y
          mapX := s.mapX
          mapY := s.mapY + (if rayDir.y < 0 then -1 else 1)
          side := 1 } ∧
      (((ddaStep (deltaDist rayDir) (stepOf rayDir) s).mapY : Int) : α) =
        (s.mapY : α) + (stepOf rayDir).y) ∧
    (s.sideDistX = s.sideDistY → FloatVal.lt s.sideDistX s.sideDistY = false) := by
  refine ⟨?_, ?_, ?_⟩
  · intro h
    refine ⟨ddaStep_of_lt rayDir s h, ?_⟩
    rw [ddaStep_of_lt rayDir s h]
    unfold stepOf
    by_cases hneg : rayDir.x < 0
    · simp only [if_pos hneg]
      push_cast
      ring
    · simp only [if_neg hneg]
      push_cast
      ring
  · intro h
    refine ⟨ddaStep_of_not_lt rayDir s h, ?_⟩
    rw [ddaStep_of_not_lt rayDir s h]
    unfold stepOf
    by_cases hneg : rayDir.y < 0
    · simp only [if_pos hneg]
      push_cast
      ring
    · simp only [if_neg hneg]
      push_cast
      ring
  · intro h
    rw [h]
    exact FloatVal.lt_irrefl _

theorem dda_step_tie_break_witness :
    (⟨.fin 1, .fin 1, 3, 3, 0⟩ : DDAState ℚ).sideDistX =
        (⟨.fin 1, .fin 1, 3, 3, 0⟩ : DDAState ℚ).sideDistY ∧
      FloatVal.lt (⟨.fin 1, .fin 1, 3, 3, 0⟩ : DDAState ℚ).sideDistX
        (⟨.fin 1, .fin 1, 3, 3, 0⟩ : DDAState ℚ).sideDistY = false ∧
      ddaStep (deltaDist (⟨1, 1⟩ : Vector2 ℚ)) (stepOf ⟨1, 1⟩) ⟨.fin 1, .fin 1, 3, 3, 0⟩ =
        { sideDistX := .fin 1
          sideDistY := FloatVal.add (.fin 1) (deltaDist (⟨1, 1⟩ : Vector2 ℚ)).y
          mapX := 3
          mapY := 3 + (if (1 : ℚ) < 0 then -1 else 1)
          side := 1 } :=
  ⟨rfl,
    (dda_step_tie_break (⟨1, 1⟩ : Vector2 ℚ) ⟨.fin 1, .fin 1, 3, 3, 0⟩).2.2 rfl,
    ((dda_step_tie_break (⟨1, 1⟩ : Vector2 ℚ) ⟨.fin 1, .fin 1, 3, 3, 0⟩).2.1
      ((dda_step_tie_break (⟨1, 1⟩ : Vector2 ℚ) ⟨.fin 1, .fin 1, 3, 3, 0⟩).2.2 rfl)).1⟩

/-- The W branch keeps the player in an empty cell, whatever the step. -/
theorem moveForward_cell (st st1 : PlayerState α) (moveSpeed : α)
    (hcell : worldMapAt (toInt st.position.x) (toInt st.position.y) = some 0)
    (h : moveForward st moveSpeed = some st1) :
    worldMapAt (toInt st1.position.x) (toInt st1.position.y) = some 0 := by
  cases hcx : worldMapAt (toInt (st.position.x + st.direction.x * moveSpeed))
      (toInt st.position.y) with
  | none =>
    unfold moveForward at h
    simp [hcx] at h
  | some cx =>
    have hcell1 : worldMapAt
        (toInt (if cx = 0 then st.position.x + st.direction.x * moveSpeed else st.position.x))
        (toInt st.position.y) = some 0 := by
      by_cases h0 : cx = 0
      · simp only [if_pos h0]
        rw [hcx, h0]
      · simp only [if_neg h0]
        exact hcell
    cases hcy : worldMapAt
        (toInt (if cx = 0 then st.position.x + st.direction.x * moveSpeed else st.position.x))
        (toInt (st.position.y + st.direction.y * moveSpeed)) with
    | none =>
      unfold moveForward at h
      by_cases h0 : cx = 0
      · simp [hcx, h0] at h hcy
        simp [hcy] at h
      · simp [hcx, h0] at h hcy
        simp [hcy] at h
    | some cy =>
      rw [moveForward_eq st moveSpeed cx cy hcx hcy] at h
      injection h with h
      subst h
      by_cases h1 : cy = 0
      · simp only [if_pos h1]
        rw [hcy, h1]
      · simp only [if_neg h1]
        exact hcell1

/-- The S branch keeps the player in an empty cell, whatever the step. -/
theorem moveBackward_cell (st st1 : PlayerState α) (moveSpeed : α)
    (hcell : worldMapAt (toInt st.position.x) (toInt st.position.y) = some 0)
    (h : moveBackward st moveSpeed = some st1) :
    worldMapAt (toInt st1.position.x) (toInt st1.position.y) = some 0 := by
  cases hcx : worldMapAt (toInt (st.position.x - st.direction.x * moveSpeed))
      (toInt st.position.y) with
  | none =>
    unfold moveBackward at h
    simp [hcx] at h
  | some cx =>
    have hcell1 : worldMapAt
        (toInt (if cx = 0 then st.position.x - st.direction.x * moveSpeed else st.position.x))
        (toInt st.position.y) = some 0 := by
      by_cases h0 : cx = 0
      · simp only [if_pos h0]
        rw [hcx, h0]
      · simp only [if_neg h0]
        exact hcell
    cases hcy : worldMapAt
        (toInt (if cx = 0 then st.position.x - st.direction.x * moveSpeed else st.position.x))
        (toInt (st.position.y - st.direction.y * moveSpeed)) with
    | none =>
      unfold moveBackward at h
      by_cases h0 : cx = 0
      · simp [hcx, h0] at h hcy
        simp [hcy] at h
      · simp [hcx, h0] at h hcy
        simp [hcy] at h
    | some cy =>
      rw [moveBackward_eq st moveSpeed cx cy hcx hcy] at h
      injection h with h
      subst h
      by_cases h1 : cy = 0
      · simp only [if_pos h1]
        rw [hcy, h1]
      · simp only [if_neg h1]
        exact hcell1

/-- C17: the player never enters a wall.  If the player's cell is empty and a
call of `HandlePlayerMovement` makes all its reads inside the array (it returns
a state), then the cell of the new position is empty again, for every
combination of held keys (W alone, S alone, both), every direction and every
`deltaTime`. -/
theorem player_stays_in_empty_cell (cos sin : α → α) (keys : Keys) (st st1 : PlayerState α)
    (deltaTime : α)
    (hcell : worldMapAt (toInt st.position.x) (toInt st.position.y) = some 0)
    (hrun : HandlePlayerMovement cos sin keys st deltaTime = some st1) :
    worldMapAt (toInt st1.position.x) (toInt st1.position.y) = some 0 := by
  unfold HandlePlayerMovement at hrun
  simp only at hrun
  cases hw : (if keys.w = true then moveForward st (3 * deltaTime) else some st) with
  | none => simp [hw] at hrun
  | some sw =>
    have hcellw : worldMapAt (toInt sw.position.x) (toInt sw.position.y) = some 0 := by
      by_cases hk : keys.w = true
      · rw [if_pos hk] at hw
        exact moveForward_cell st sw _ hcell hw
      · rw [if_neg hk] at hw
        injection hw with hw
        subst hw
        exact hcell
    simp only [hw] at hrun
    cases hs : (if keys.s = true then moveBackward sw (3 * deltaTime) else some sw) with
    | none => simp [hs] at hrun
    | some ss =>
      have hcells : worldMapAt (toInt ss.position.x) (toInt ss.position.y) = some 0 := by
        by_cases hk : keys.s = true
        · rw [if_pos hk] at hs
          exact moveBackward_cell sw ss _ hcellw hs
        · rw [if_neg hk] at hs
          injection hs with hs
          subst hs
          exact hcellw
      simp only [hs] at hrun
      injection hrun with hrun
      subst hrun
      by_cases ha : keys.a = true <;> by_cases hd : keys.d = true <;>
        simpa [ha, hd, rotateLeft, rotateRight] using hcells

theorem player_stays_in_empty_cell_witness :
    worldMapAt (toInt (19 / 10 : ℚ)) (toInt (19 / 10 : ℚ)) = some 0 ∧
    HandlePlayerMovement (fun _ => (1 : ℚ)) (fun _ => (0 : ℚ)) ⟨true, false, false, false⟩
        ⟨⟨19 / 10, 19 / 10⟩, ⟨3 / 5, 4 / 5⟩, ⟨0, 33 / 50⟩⟩ (1 / 12) =
      some ⟨⟨41 / 20, 19 / 10⟩, ⟨3 / 5, 4 / 5⟩, ⟨0, 33 / 50⟩⟩ ∧
    worldMapAt (toInt (41 / 20 : ℚ)) (toInt (19 / 10 : ℚ)) = some 0 :=
  ⟨by decide!, by decide!,
    player_stays_in_empty_cell (fun _ => (1 : ℚ)) (fun _ => (0 : ℚ)) ⟨true, false, false, false⟩
      ⟨⟨19 / 10, 19 / 10⟩, ⟨3 / 5, 4 / 5⟩, ⟨0, 33 / 50⟩⟩
      ⟨⟨41 / 20, 19 / 10⟩, ⟨3 / 5, 4 / 5⟩, ⟨0, 33 / 50⟩⟩ (1 / 12) (by decide!) (by decide!)⟩

end StepResults

/-- C20: rotation preserves the camera geometry.  Over the reals, the
rotate-left and the rotate-right update leave the squared length of
`direction`, the squared length of `cameraPlane` and their dot product
unchanged, and leave `position` unchanged, for every `rotSpeed`. -/
theorem rotation_preserves_geometry (st : PlayerState ℝ) (rotSpeed : ℝ) :
    ((rotateLeft Real.cos Real.sin st rotSpeed).direction.x ^ 2 +
        (rotateLeft Real.cos Real.sin st rotSpeed).direction.y ^ 2 =
        st.direction.x ^ 2 + st.direction.y ^ 2 ∧
      (rotateLeft Real.cos Real.sin st rotSpeed).cameraPlane.x ^ 2 +
        (rotateLeft Real.cos Real.sin st rotSpeed).cameraPlane.y ^ 2 =
        st.cameraPlane.x ^ 2 + st.cameraPlane.y ^ 2 ∧
      (rotateLeft Real.cos Real.sin st rotSpeed).direction.x *
          (rotateLeft Real.cos Real.sin st rotSpeed).cameraPlane.x +
        (rotateLeft Real.cos Real.sin st rotSpeed).direction.y *
          (rotateLeft Real.cos Real.sin st rotSpeed).cameraPlane.y =
        st.direction.x * st.cameraPlane.x + st.direction.y * st.cameraPlane.y ∧
      (rotateLeft Real.cos Real.sin st rotSpeed).position = st.position) ∧
    ((rotateRight Real.cos Real.sin st rotSpeed).direction.x ^ 2 +
        (rotateRight Real.cos Real.sin st rotSpeed).direction.y ^ 2 =
        st.direction.x ^ 2 + st.direction.y ^ 2 ∧
      (rotateRight Real.cos Real.sin st rotSpeed).cameraPlane.x ^ 2 +
        (rotateRight Real.cos Real.sin st rotSpeed).cameraPlane.y ^ 2 =
        st.cameraPlane.x ^ 2 + st.cameraPlane.y ^ 2 ∧
      (rotateRight Real.cos Real.sin st rotSpeed).direction.x *
          (rotateRight Real.cos Real.sin st rotSpeed).cameraPlane.x +
        (rotateRight Real.cos Real.sin st rotSpeed).direction.y *
          (rotateRight Real.cos Real.sin st rotSpeed).cameraPlane.y =
        st.direction.x * st.cameraPlane.x + st.direction.y * st.cameraPlane.y ∧
      (rotateRight Real.cos Real.sin st rotSpeed).position = st.position) := by
  have hcs := Real.cos_sq_add_sin_sq rotSpeed
  refine ⟨⟨?_, ?_, ?_, rfl⟩, ?_, ?_, ?_, rfl⟩
  · simp only [rotateLeft]
    linear_combination (st.direction.x ^ 2 + st.direction.y ^ 2) * hcs
  · simp only [rotateLeft]
    linear_combination (st.cameraPlane.x ^ 2 + st.cameraPlane.y ^ 2) * hcs
  · simp only [rotateLeft]
    linear_combination
      (st.direction.x * st.cameraPlane.x + st.direction.y * st.cameraPlane.y) * hcs
  · simp only [rotateRight, Real.cos_neg, Real.sin_neg]
    linear_combination (st.direction.x ^ 2 + st.direction.y ^ 2) * hcs
  · simp only [rotateRight, Real.cos_neg, Real.sin_neg]
    linear_combination (st.cameraPlane.x ^ 2 + st.cameraPlane.y ^ 2) * hcs
  · simp only [rotateRight, Real.cos_neg, Real.sin_neg]
    linear_combination
      (st.direction.x * st.cameraPlane.x + st.direction.y * st.cameraPlane.y) * hcs

/-! ## Binary32: rounding, the DDA loop and the perpendicular distance -/

namespace Binary32

theorem log2Fuel_spec : ∀ (fuel n : Nat), 1 ≤ n → n ≤ fuel →
    2 ^ log2Fuel fuel n ≤ n ∧ n < 2 ^ (log2Fuel fuel n + 1) := by
  intro fuel
  induction fuel with
  | zero =>
    intro n h1 h0
    omega
  | succ fuel ih =>
    intro n h1 hf
    unfold log2Fuel
    by_cases h2 : 2 ≤ n
    · rw [if_pos h2]
      obtain ⟨ih1, ih2⟩ := ih (n / 2) (by omega) (by omega)
      rw [pow_succ, pow_succ]
      constructor
      · omega
      · rw [pow_succ] at ih2
        omega
    · rw [if_neg h2]
      have : n = 1 := by omega
      subst this
      decide

theorem natLog2_spec (n : Nat) (h : 1 ≤ n) :
    2 ^ natLog2 n ≤ n ∧ n < 2 ^ (natLog2 n + 1) :=
  log2Fuel_spec n n h le_rfl

theorem pow2_eq_zpow (e : Int) : pow2 e = (2 : ℚ) ^ e := by
  unfold pow2
  by_cases h : 0 ≤ e
  · rw [if_pos h]
    obtain ⟨n, rfl⟩ := Int.eq_ofNat_of_zero_le h
    simp
  · rw [if_neg h]
    obtain ⟨n, hn⟩ : ∃ n : Nat, e = -(n : Int) := ⟨(-e).toNat, by omega⟩
    subst hn
    simp

theorem pow2_pos (e : Int) : 0 < pow2 e := by
  rw [pow2_eq_zpow]
  exact zpow_pos (by norm_num) e

theorem pow2_le_pow2 (a b : Int) (h : a ≤ b) : pow2 a ≤ pow2 b := by
  rw [pow2_eq_zpow, pow2_eq_zpow]
  exact zpow_le_zpow_right₀ (by norm_num) h

theorem pow2_lt_pow2_iff (a b : Int) : pow2 a < pow2 b ↔ a < b := by
  rw [pow2_eq_zpow, pow2_eq_zpow]
  exact zpow_lt_zpow_iff_right₀ (by norm_num)

theorem pow2_add (a b : Int) : pow2 (a + b) = pow2 a * pow2 b := by
  rw [pow2_eq_zpow, pow2_eq_zpow, pow2_eq_zpow]
  exact zpow_add₀ (by norm_num) a b

theorem pow2_natCast (n : Nat) : pow2 (n : Int) = ((2 ^ n : Nat) : ℚ) := by
  rw [pow2_eq_zpow]
  simp

/-- The exponent found by `floorLog2` brackets the magnitude. -/
theorem floorLog2_spec (m : ℚ) (hm : 0 < m) :
    pow2 (floorLog2 m) ≤ m ∧ m < pow2 (floorLog2 m + 1) := by
  have hnum : 0 < m.num := Rat.num_pos.2 hm
  have hden : 1 ≤ m.den := m.den_pos
  have ha1 : 1 ≤ m.num.toNat := by omega
  obtain ⟨a1, a2⟩ := natLog2_spec m.num.toNat ha1
  obtain ⟨b1, b2⟩ := natLog2_spec m.den hden
  have hmeq : m = (m.num.toNat : ℚ) / (m.den : ℚ) := by
    have h1 : ((m.num.toNat : Nat) : ℚ) = (m.num : ℚ) := by
      have : ((m.num.toNat : Nat) : Int) = m.num := Int.toNat_of_nonneg (le_of_lt hnum)
      exact_mod_cast congrArg (Int.cast : Int → ℚ) this
    rw [h1]
    exact (Rat.num_div_den m).symm
  have hbpos : (0 : ℚ) < (m.den : ℚ) := by exact_mod_cast hden
  have a1q : ((2 ^ natLog2 m.num.toNat : Nat) : ℚ) ≤ (m.num.toNat : ℚ) := by exact_mod_cast a1
  have a2q : (m.num.toNat : ℚ) < ((2 ^ (natLog2 m.num.toNat + 1) : Nat) : ℚ) := by exact_mod_cast a2
  have b1q : ((2 ^ natLog2 m.den : Nat) : ℚ) ≤ (m.den : ℚ) := by exact_mod_cast b1
  have b2q : (m.den : ℚ) < ((2 ^ (natLog2 m.den + 1) : Nat) : ℚ) := by exact_mod_cast b2
  rw [← pow2_natCast] at a1q a2q b1q b2q
  -- the two candidate exponents
  have lo : pow2 ((natLog2 m.num.toNat : Int) - (natLog2 m.den : Int) - 1) ≤ m := by
    have e : pow2 (natLog2 m.num.toNat : Int) =
        pow2 ((natLog2 m.num.toNat : Int) - (natLog2 m.den : Int) - 1) *
          pow2 (((natLog2 m.den + 1 : Nat) : Int)) := by
      rw [← pow2_add]
      congr 1
      push_cast
      ring
    have hp := pow2_pos ((natLog2 m.num.toNat : Int) - (natLog2 m.den : Int) - 1)
    refine le_trans ((le_div_iff₀ hbpos).2 ?_) (le_of_eq hmeq.symm)
    calc pow2 ((natLog2 m.num.toNat : Int) - (natLog2 m.den : Int) - 1) * (m.den : ℚ)
        ≤ pow2 ((natLog2 m.num.toNat : Int) - (natLog2 m.den : Int) - 1) *
          pow2 (((natLog2 m.den + 1 : Nat) : Int)) :=
          mul_le_mul_of_nonneg_left (le_of_lt b2q) (le_of_lt hp)
      _ = pow2 (natLog2 m.num.toNat : Int) := e.symm
      _ ≤ (m.num.toNat : ℚ) := a1q
  have hi : m < pow2 ((natLog2 m.num.toNat : Int) - (natLog2 m.den : Int) + 1) := by
    have e : pow2 (((natLog2 m.num.toNat + 1 : Nat) : Int)) =
        pow2 ((natLog2 m.num.toNat : Int) - (natLog2 m.den : Int) + 1) *
          pow2 (natLog2 m.den : Int) := by
      rw [← pow2_add]
      congr 1
      push_cast
      ring
    have hp := pow2_pos ((natLog2 m.num.toNat : Int) - (natLog2 m.den : Int) + 1)
    refine lt_of_eq_of_lt hmeq ((div_lt_iff₀ hbpos).2 ?_)
    calc (m.num.toNat : ℚ) < pow2 (((natLog2 m.num.toNat + 1 : Nat) : Int)) := a2q
      _ = pow2 ((natLog2 m.num.toNat : Int) - (natLog2 m.den : Int) + 1) *
          pow2 (natLog2 m.den : Int) := e
      _ ≤ pow2 ((natLog2 m.num.toNat : Int) - (natLog2 m.den : Int) + 1) * (m.den : ℚ) :=
          mul_le_mul_of_nonneg_left b1q (le_of_lt hp)
  unfold floorLog2
  simp only
  by_cases hc : pow2 ((natLog2 m.num.toNat : Int) - (natLog2 m.den : Int)) ≤ m
  · rw [if_pos hc]
    exact ⟨hc, hi⟩
  · rw [if_neg hc]
    refine ⟨lo, ?_⟩
    rw [sub_add_cancel]
    exact not_le.1 hc

/-- The exponent is monotone in the magnitude. -/
theorem floorLog2_mono (m n : ℚ) (hm : 0 < m) (hmn : m ≤ n) : floorLog2 m ≤ floorLog2 n := by
  obtain ⟨h1, -⟩ := floorLog2_spec m hm
  obtain ⟨-, h2⟩ := floorLog2_spec n (lt_of_lt_of_le hm hmn)
  have : pow2 (floorLog2 m) < pow2 (floorLog2 n + 1) := lt_of_le_of_lt (le_trans h1 hmn) h2
  have := (pow2_lt_pow2_iff _ _).1 this
  omega

theorem roundHalfEven_bounds (n : ℚ) :
    ⌊n⌋ ≤ roundHalfEven n ∧ roundHalfEven n ≤ ⌊n⌋ + 1 := by
  unfold roundHalfEven
  simp only
  split_ifs <;> omega

theorem roundHalfEven_intCast (k : Int) : roundHalfEven (k : ℚ) = k := by
  unfold roundHalfEven
  simp

theorem roundHalfEven_mono (n n' : ℚ) (h : n ≤ n') : roundHalfEven n ≤ roundHalfEven n' := by
  have hf : ⌊n⌋ ≤ ⌊n'⌋ := Int.floor_le_floor h
  by_cases hlt : ⌊n⌋ < ⌊n'⌋
  · have h1 := (roundHalfEven_bounds n).2
    have h2 := (roundHalfEven_bounds n').1
    omega
  · have heq : ⌊n'⌋ = ⌊n⌋ := by omega
    unfold roundHalfEven
    simp only [heq]
    split_ifs <;> first | omega | (exfalso; linarith)

theorem roundHalfEven_nonneg (n : ℚ) (h : 0 ≤ n) : 0 ≤ roundHalfEven n := by
  have := roundHalfEven_mono 0 n h
  have h0 : roundHalfEven (0 : ℚ) = 0 := by
    have := roundHalfEven_intCast 0
    simpa using this
  omega

/-- Rounding keeps the order of magnitudes: below a magnitude whose rounding
does not overflow, every magnitude rounds to a smaller or equal value. -/
theorem roundMag_mono (fmt : Format) (hp : 1 ≤ fmt.prec) (m m' r' : ℚ) (hm : 0 ≤ m)
    (hmm : m ≤ m') (hr : roundMag fmt m' = some r') :
    ∃ r, roundMag fmt m = some r ∧ r ≤ r' ∧ 0 ≤ r := by
  -- the rounded value before the overflow test
  have key : ∀ x : ℚ, 0 < x →
      0 ≤ (roundHalfEven (x / pow2 (max (floorLog2 x) fmt.emin - ((fmt.prec : Int) - 1))) : ℚ) *
        pow2 (max (floorLog2 x) fmt.emin - ((fmt.prec : Int) - 1)) := by
    intro x hx
    have hq := pow2_pos (max (floorLog2 x) fmt.emin - ((fmt.prec : Int) - 1))
    have : (0 : ℚ) ≤ (roundHalfEven
        (x / pow2 (max (floorLog2 x) fmt.emin - ((fmt.prec : Int) - 1))) : ℚ) := by
      exact_mod_cast roundHalfEven_nonneg _ (div_nonneg (le_of_lt hx) (le_of_lt hq))
    exact mul_nonneg this (le_of_lt hq)
  by_cases hm'0 : m' = 0
  · have hm0 : m = 0 := le_antisymm (hm'0 ▸ hmm) hm
    subst hm0
    subst hm'0
    exact ⟨r', hr, le_rfl, by simp [roundMag] at hr; rw [← hr]⟩
  have hm'pos : 0 < m' := lt_of_le_of_ne (le_trans hm hmm) (Ne.symm hm'0)
  have hr'eq : r' = (roundHalfEven
      (m' / pow2 (max (floorLog2 m') fmt.emin - ((fmt.prec : Int) - 1))) : ℚ) *
        pow2 (max (floorLog2 m') fmt.emin - ((fmt.prec : Int) - 1)) ∧
      r' < pow2 (fmt.emax + 1) := by
    unfold roundMag at hr
    rw [if_neg hm'0] at hr
    simp only at hr
    split_ifs at hr with hov
    exact ⟨(Option.some.inj hr).symm, (Option.some.inj hr) ▸ hov⟩
  obtain ⟨hr'val, hr'lt⟩ := hr'eq
  by_cases hm0 : m = 0
  · subst hm0
    refine ⟨0, by simp [roundMag], ?_, le_rfl⟩
    rw [hr'val]
    exact key m' hm'pos
  have hmpos : 0 < m := lt_of_le_of_ne hm (Ne.symm hm0)
  have hval : (roundHalfEven
      (m / pow2 (max (floorLog2 m) fmt.emin - ((fmt.prec : Int) - 1))) : ℚ) *
        pow2 (max (floorLog2 m) fmt.emin - ((fmt.prec : Int) - 1)) ≤ r' := by
    rw [hr'val]
    have hfl := floorLog2_mono m m' hmpos hmm
    have he : max (floorLog2 m) fmt.emin ≤ max (floorLog2 m') fmt.emin := max_le_max hfl le_rfl
    by_cases heq : max (floorLog2 m) fmt.emin = max (floorLog2 m') fmt.emin
    · rw [heq]
      have hq := pow2_pos (max (floorLog2 m') fmt.emin - ((fmt.prec : Int) - 1))
      have hdiv : m / pow2 (max (floorLog2 m') fmt.emin - ((fmt.prec : Int) - 1)) ≤
          m' / pow2 (max (floorLog2 m') fmt.emin - ((fmt.prec : Int) - 1)) :=
        div_le_div_of_nonneg_right hmm (le_of_lt hq)
      have : (roundHalfEven (m / pow2 (max (floorLog2 m') fmt.emin - ((fmt.prec : Int) - 1))) : ℚ)
          ≤ (roundHalfEven
            (m' / pow2 (max (floorLog2 m') fmt.emin - ((fmt.prec : Int) - 1))) : ℚ) := by
        exact_mod_cast roundHalfEven_mono _ _ hdiv
      exact mul_le_mul_of_nonneg_right this (le_of_lt hq)
    · have hlt : max (floorLog2 m) fmt.emin < max (floorLog2 m') fmt.emin :=
        lt_of_le_of_ne he heq
      -- the pivot: the power of two between the two binades
      have hfl' : max (floorLog2 m') fmt.emin = floorLog2 m' := by
        have : fmt.emin ≤ max (floorLog2 m) fmt.emin := le_max_right _ _
        rcases max_cases (floorLog2 m') fmt.emin with ⟨h1, -⟩ | ⟨h1, -⟩
        · exact h1
        · omega
      have hlow : (roundHalfEven
          (m / pow2 (max (floorLog2 m) fmt.emin - ((fmt.prec : Int) - 1))) : ℚ) *
            pow2 (max (floorLog2 m) fmt.emin - ((fmt.prec : Int) - 1)) ≤
          pow2 (max (floorLog2 m) fmt.emin + 1) := by
        have hq := pow2_pos (max (floorLog2 m) fmt.emin - ((fmt.prec : Int) - 1))
        have hmlt : m ≤ pow2 (max (floorLog2 m) fmt.emin + 1) :=
          le_trans (le_of_lt (floorLog2_spec m hmpos).2)
            (pow2_le_pow2 _ _ (by have := le_max_left (floorLog2 m) fmt.emin; omega))
        have hsplit : pow2 (max (floorLog2 m) fmt.emin + 1) =
            pow2 ((fmt.prec : Nat) : Int) *
              pow2 (max (floorLog2 m) fmt.emin - ((fmt.prec : Int) - 1)) := by
          rw [← pow2_add]
          congr 1
          ring
        have hdiv : m / pow2 (max (floorLog2 m) fmt.emin - ((fmt.prec : Int) - 1)) ≤
            (((2 ^ fmt.prec : Nat) : Int) : ℚ) := by
          rw [div_le_iff₀ hq]
          rw [hsplit, pow2_natCast] at hmlt
          exact_mod_cast hmlt
        have hr := roundHalfEven_mono _ _ hdiv
        rw [roundHalfEven_intCast] at hr
        have hrq : (roundHalfEven
            (m / pow2 (max (floorLog2 m) fmt.emin - ((fmt.prec : Int) - 1))) : ℚ) ≤
            (((2 ^ fmt.prec : Nat) : Int) : ℚ) := by exact_mod_cast hr
        rw [hsplit, pow2_natCast]
        have := mul_le_mul_of_nonneg_right hrq (le_of_lt hq)
        exact_mod_cast this
      have hhigh : pow2 (max (floorLog2 m') fmt.emin) ≤
          (roundHalfEven
            (m' / pow2 (max (floorLog2 m') fmt.emin - ((fmt.prec : Int) - 1))) : ℚ) *
            pow2 (max (floorLog2 m') fmt.emin - ((fmt.prec : Int) - 1)) := by
        have hq := pow2_pos (max (floorLog2 m') fmt.emin - ((fmt.prec : Int) - 1))
        have hmge : pow2 (max (floorLog2 m') fmt.emin) ≤ m' := by
          rw [hfl']
          exact (floorLog2_spec m' hm'pos).1
        have hsplit : pow2 (max (floorLog2 m') fmt.emin) =
            pow2 ((fmt.prec - 1 : Nat) : Int) *
              pow2 (max (floorLog2 m') fmt.emin - ((fmt.prec : Int) - 1)) := by
          rw [← pow2_add]
          congr 1
          have : ((fmt.prec - 1 : Nat) : Int) = (fmt.prec : Int) - 1 := by omega
          rw [this]
          ring
        have hdiv : (((2 ^ (fmt.prec - 1) : Nat) : Int) : ℚ) ≤
            m' / pow2 (max (floorLog2 m') fmt.emin - ((fmt.prec : Int) - 1)) := by
          rw [le_div_iff₀ hq]
          rw [hsplit, pow2_natCast] at hmge
          exact_mod_cast hmge
        have hr := roundHalfEven_mono _ _ hdiv
        rw [roundHalfEven_intCast] at hr
        have hrq : (((2 ^ (fmt.prec - 1) : Nat) : Int) : ℚ) ≤ (roundHalfEven
            (m' / pow2 (max (floorLog2 m') fmt.emin - ((fmt.prec : Int) - 1))) : ℚ) := by
          exact_mod_cast hr
        rw [hsplit, pow2_natCast]
        have := mul_le_mul_of_nonneg_right hrq (le_of_lt hq)
        exact_mod_cast this
      exact le_trans hlow (le_trans (pow2_le_pow2 _ _ (by omega)) hhigh)
  refine ⟨_, ?_, hval, key m hmpos⟩
  unfold roundMag
  rw [if_neg hm0]
  simp only
  rw [if_pos (lt_of_le_of_lt hval hr'lt)]

theorem ofInt_zero : ofInt binary32 0 = .num false 0 := by decide!

theorem val_false (m : ℚ) : val false m = m := rfl

theorem val_true (m : ℚ) : val true m = -m := rfl

/-- A datum above `+0` is a positive magnitude or `+∞`. -/
theorem pos_cases (d : Fp) (hf : IsFloat d) (hpos : lt (ofInt binary32 0) d = true) :
    (∃ m, d = .num false m ∧ 0 < m) ∨ d = .inf false := by
  rw [ofInt_zero] at hpos
  cases d with
  | num s m =>
    left
    have h0 : (0 : ℚ) ≤ m := hf.1
    cases s with
    | false =>
      refine ⟨m, rfl, ?_⟩
      simpa [lt, val] using hpos
    | true =>
      exfalso
      have : (0 : ℚ) < -m := by simpa [lt, val] using hpos
      linarith
  | inf s =>
    right
    cases s with
    | false => rfl
    | true => simp [lt] at hpos
  | nan => simp [lt] at hpos

/-- The conversion of a non-negative `int`: a magnitude or `+∞`. -/
theorem ofInt_nonneg_cases (h : Int) (hh : 0 ≤ h) :
    (∃ m, ofInt binary32 h = .num false m ∧ 0 ≤ m) ∨ ofInt binary32 h = .inf false := by
  have hq : (0 : ℚ) ≤ (h : ℚ) := by exact_mod_cast hh
  unfold ofInt ofRat round
  rw [abs_of_nonneg hq, decide_eq_false (not_lt.2 hq)]
  cases hr : roundMag binary32 (h : ℚ) with
  | none => right; rfl
  | some r =>
    left
    obtain ⟨r0, hr0, -, hnn⟩ := roundMag_mono binary32 (by decide) _ _ r hq le_rfl hr
    rw [hr] at hr0
    exact ⟨r, rfl, (Option.some.inj hr0) ▸ hnn⟩

theorem toInt_num_false (r : ℚ) (l : Int) (h : toInt (.num false r) = some l) :
    l = Adventure.toInt r ∧ Adventure.toInt r ≤ 2147483647 := by
  simp only [toInt, val, Bool.false_eq_true, if_false] at h
  split_ifs at h with hc
  refine ⟨(Option.some.inj h).symm, ?_⟩
  omega

theorem toInt_num_false_of_le (r : ℚ) (hr : 0 ≤ r) (hle : Adventure.toInt r ≤ 2147483647) :
    toInt (.num false r) = some (Adventure.toInt r) := by
  simp only [toInt, val, Bool.false_eq_true, if_false]
  have h0 : 0 ≤ Adventure.toInt r := by
    have := toInt_mono 0 r hr
    rwa [toInt_zero] at this
  rw [if_neg (by omega)]

/-! ### The binary32 DDA loop: control flow -/

theorem toInt_add_one (m : Int) (h : 0 ≤ m ∧ m ≤ 7) :
    toInt (add binary32 (ofInt binary32 m) (ofInt binary32 1)) = some (m + 1) := by
  obtain ⟨h0, h7⟩ := h
  interval_cases m <;> decide!

theorem toInt_add_neg_one (m : Int) (h : 0 ≤ m ∧ m ≤ 7) :
    toInt (add binary32 (ofInt binary32 m) (ofInt binary32 (-1))) = some (m + -1) := by
  obtain ⟨h0, h7⟩ := h
  interval_cases m <;> decide!

/-- The x branch of one DDA step. -/
theorem ddaStep_of_lt_float (rayDir : Vector2 Fp) (s : DDAState) (hx : 0 ≤ s.mapX ∧ s.mapX ≤ 7)
    (h : lt s.sideDistX s.sideDistY = true) :
    ddaStep (deltaDist rayDir) (stepOf rayDir) s = some
      { sideDistX := add binary32 s.sideDistX (deltaDist rayDir).x
        sideDistY := s.sideDistY
        mapX := s.mapX + (if lt rayDir.x (ofInt binary32 0) then -1 else 1)
        mapY := s.mapY
        side := 0 } := by
  unfold ddaStep stepOf
  rw [if_pos h]
  by_cases hneg : lt rayDir.x (ofInt binary32 0) = true
  · simp only [if_pos hneg, toInt_add_neg_one s.mapX hx]
  · simp only [if_neg hneg, toInt_add_one s.mapX hx]

/-- The y branch of one DDA step. -/
theorem ddaStep_of_not_lt_float (rayDir : Vector2 Fp) (s : DDAState) (hy : 0 ≤ s.mapY ∧ s.mapY ≤ 7)
    (h : lt s.sideDistX s.sideDistY = false) :
    ddaStep (deltaDist rayDir) (stepOf rayDir) s = some
      { sideDistX := s.sideDistX
        sideDistY := add binary32 s.sideDistY (deltaDist rayDir).y
        mapX := s.mapX
        mapY := s.mapY + (if lt rayDir.y (ofInt binary32 0) then -1 else 1)
        side := 1 } := by
  unfold ddaStep stepOf
  rw [if_neg (by simp [h])]
  by_cases hneg : lt rayDir.y (ofInt binary32 0) = true
  · simp only [if_pos hneg, toInt_add_neg_one s.mapY hy]
  · simp only [if_neg hneg, toInt_add_one s.mapY hy]

/-- One step from an interior cell is defined, stays inside the array and
moves one cell closer to the border. -/
theorem ddaStep_travel_float (rayDir : Vector2 Fp) (s : DDAState) (hs : Interior s) :
    ∃ s1, ddaStep (deltaDist rayDir) (stepOf rayDir) s = some s1 ∧
      ((0 ≤ s1.mapX ∧ s1.mapX ≤ 7) ∧ (0 ≤ s1.mapY ∧ s1.mapY ≤ 7)) ∧
      travel rayDir s1 = travel rayDir s - 1 := by
  obtain ⟨⟨hx1, hx6⟩, hy1, hy6⟩ := hs
  cases h : lt s.sideDistX s.sideDistY
  · refine ⟨_, ddaStep_of_not_lt_float rayDir s ⟨by omega, by omega⟩ h, ?_⟩
    unfold travel
    by_cases hy : lt rayDir.y (ofInt binary32 0) = true
    · simp only [if_pos hy]
      refine ⟨⟨⟨by omega, by omega⟩, by omega, by omega⟩, by omega⟩
    · simp only [if_neg hy]
      refine ⟨⟨⟨by omega, by omega⟩, by omega, by omega⟩, by omega⟩
  · refine ⟨_, ddaStep_of_lt_float rayDir s ⟨by omega, by omega⟩ h, ?_⟩
    unfold travel
    by_cases hx : lt rayDir.x (ofInt binary32 0) = true
    · simp only [if_pos hx]
      refine ⟨⟨⟨by omega, by omega⟩, by omega, by omega⟩, by omega⟩
    · simp only [if_neg hx]
      refine ⟨⟨⟨by omega, by omega⟩, by omega, by omega⟩, by omega⟩

theorem travel_ge_two_float (rayDir : Vector2 Fp) (s : DDAState) (hs : Interior s) :
    2 ≤ travel rayDir s ∧ travel rayDir s ≤ 12 := by
  obtain ⟨⟨hx1, hx6⟩, hy1, hy6⟩ := hs
  unfold travel
  split <;> split <;> omega

/-- The binary32 DDA loop from an interior cell, with enough fuel: it stops at
a wall, after at most `travel - 1` further iterations, and the state it stops
in is one step after an interior state that satisfies any given step
invariant. -/
theorem ddaLoop_hit_float (rayDir : Vector2 Fp) (Inv : DDAState → Prop)
    (hstep : ∀ s s1, Interior s → Inv s →
      ddaStep (deltaDist rayDir) (stepOf rayDir) s = some s1 → Inv s1) :
    ∀ (fuel iters : Nat) (s : DDAState), Interior s → Inv s →
      travel rayDir s ≤ (fuel : Int) + 1 →
      ∃ s0 s1 n c, Interior s0 ∧ Inv s0 ∧
        ddaStep (deltaDist rayDir) (stepOf rayDir) s0 = some s1 ∧
        ddaLoop (deltaDist rayDir) (stepOf rayDir) fuel iters s = .hit s1 n ∧
        worldMapAt s1.mapX s1.mapY = some c ∧ 0 < c ∧
        iters < n ∧ (n : Int) ≤ (iters : Int) + travel rayDir s - 1 := by
  intro fuel
  induction fuel with
  | zero =>
    intro iters s hs _ ht
    have := (travel_ge_two_float rayDir s hs).1
    omega
  | succ fuel ih =>
    intro iters s hs hinv ht
    obtain ⟨s1, hs1, ⟨hbx, hby⟩, htr⟩ := ddaStep_travel_float rayDir s hs
    obtain ⟨c, hc⟩ := (worldMapAt_eq_some_iff_inBounds _ _).2 ⟨hbx, hby⟩
    have h2 := (travel_ge_two_float rayDir s hs).1
    by_cases hpos : 0 < c
    · refine ⟨s, s1, iters + 1, c, hs, hinv, hs1, ?_, hc, hpos, by omega, by push_cast; omega⟩
      simp only [ddaLoop, hs1, hc, if_pos (show c > 0 from hpos)]
    · have hint : Interior s1 := interior_of_worldMapAt_le _ _ c hc (by omega)
      obtain ⟨s0, s2, n, c0, hs0, hinv0, hstep0, hrun, hc0, hc0pos, hlt, hle⟩ :=
        ih (iters + 1) s1 hint (hstep s s1 hs hinv hs1) (by push_cast at ht ⊢; omega)
      refine ⟨s0, s2, n, c0, hs0, hinv0, hstep0, ?_, hc0, hc0pos, by omega,
        by push_cast at hle; omega⟩
      simp only [ddaLoop, hs1, hc, if_neg (show ¬ c > 0 from hpos)]
      exact hrun

/-- More fuel does not change a binary32 run that has hit a wall. -/
theorem ddaLoop_fuel_mono_float (dd step : Vector2 Fp) (extra : Nat) :
    ∀ (fuel iters : Nat) (s r : DDAState) (n : Nat),
      ddaLoop dd step fuel iters s = .hit r n →
      ddaLoop dd step (fuel + extra) iters s = .hit r n := by
  intro fuel
  induction fuel with
  | zero =>
    intro iters s r n h
    simp [ddaLoop] at h
  | succ fuel ih =>
    intro iters s r n h
    rw [Nat.add_right_comm]
    simp only [ddaLoop] at h ⊢
    cases hs : ddaStep dd step s with
    | none => simp [hs] at h
    | some s1 =>
      simp only [hs] at h ⊢
      cases hc : worldMapAt s1.mapX s1.mapY with
      | none => simp [hc] at h
      | some c =>
        simp only [hc] at h ⊢
        by_cases hpos : c > 0
        · simpa only [if_pos hpos] using h
        · simp only [if_neg hpos] at h ⊢
          exact ih _ _ _ _ h

/-! ### Bounds that rounding keeps -/

/-- A magnitude between two magnitudes that round without overflow rounds to a
value between their roundings. -/
theorem roundMag_between (fmt : Format) (hp : 1 ≤ fmt.prec) (m c1 c2 c1' c2' : ℚ)
    (h0 : 0 ≤ c1) (h1 : c1 ≤ m) (h2 : m ≤ c2)
    (hc1 : roundMag fmt c1 = some c1') (hc2 : roundMag fmt c2 = some c2') :
    ∃ r, roundMag fmt m = some r ∧ c1' ≤ r ∧ r ≤ c2' := by
  obtain ⟨r, hr, hle, -⟩ := roundMag_mono fmt hp m c2 c2' (le_trans h0 h1) h2 hc2
  obtain ⟨r1, hr1, hle1, -⟩ := roundMag_mono fmt hp c1 m r h0 h1 hr
  rw [hc1] at hr1
  exact ⟨r, hr, (Option.some.inj hr1) ▸ hle1, hle⟩

/-- A magnitude above a magnitude that rounds to a positive value rounds to a
datum above zero (a positive number or `+∞`). -/
theorem lt_zero_round (fmt : Format) (hp : 1 ≤ fmt.prec) (m c c' : ℚ) (hc : 0 ≤ c)
    (hcm : c ≤ m) (hr : roundMag fmt c = some c') (hc' : 0 < c') :
    lt (.num false 0) (round fmt false m) = true := by
  unfold round
  cases hm : roundMag fmt m with
  | none => rfl
  | some r =>
    obtain ⟨r1, hr1, hle1, -⟩ := roundMag_mono fmt hp c m r hc hcm hm
    rw [hr] at hr1
    have : c' ≤ r := (Option.some.inj hr1) ▸ hle1
    simp only [lt, val, Bool.false_eq_true, if_false, decide_eq_true_eq]
    linarith

/-- The rounding of a positive exact value between two bounds. -/
theorem ofRat_pos_between (fmt : Format) (hp : 1 ≤ fmt.prec) (v c1 c2 c1' c2' : ℚ)
    (h0 : 0 < c1) (h1 : c1 ≤ v) (h2 : v ≤ c2)
    (hc1 : roundMag fmt c1 = some c1') (hc2 : roundMag fmt c2 = some c2') :
    ∃ r, ofRat fmt v = .num false r ∧ c1' ≤ r ∧ r ≤ c2' := by
  have hv : 0 < v := lt_of_lt_of_le h0 h1
  obtain ⟨r, hr, hb1, hb2⟩ := roundMag_between fmt hp v c1 c2 c1' c2' (le_of_lt h0) h1 h2 hc1 hc2
  refine ⟨r, ?_, hb1, hb2⟩
  unfold ofRat round
  rw [abs_of_pos hv, decide_eq_false (not_lt.2 (le_of_lt hv)), hr]

/-- The rounding of a negative exact value between two bounds. -/
theorem ofRat_neg_between (fmt : Format) (hp : 1 ≤ fmt.prec) (v c1 c2 c1' c2' : ℚ)
    (h0 : 0 < c1) (h1 : v ≤ -c1) (h2 : -c2 ≤ v)
    (hc1 : roundMag fmt c1 = some c1') (hc2 : roundMag fmt c2 = some c2') :
    ∃ r, ofRat fmt v = .num true r ∧ c1' ≤ r ∧ r ≤ c2' := by
  have hv : v < 0 := by linarith
  obtain ⟨r, hr, hb1, hb2⟩ := roundMag_between fmt hp (-v) c1 c2 c1' c2' (le_of_lt h0)
    (by linarith) (by linarith) hc1 hc2
  refine ⟨r, ?_, hb1, hb2⟩
  unfold ofRat round
  rw [abs_of_neg hv, decide_eq_true hv, hr]

/-- The conversion of a small `int` is exact. -/
theorem ofInt_small (k : Int) (h : 0 ≤ k ∧ k ≤ 8) : ofInt binary32 k = .num false (k : ℚ) := by
  obtain ⟨h0, h8⟩ := h
  interval_cases k <;> decide!

/-- A `float` of magnitude at least 1 is a multiple of `2^-23`. -/
theorem float_multiple (s : Bool) (p : ℚ) (hf : IsFloat (.num s p)) (hp : 1 ≤ p) :
    ∃ K : Int, p = (K : ℚ) / 8388608 := by
  obtain ⟨-, hr⟩ := hf
  have hpos : 0 < p := by linarith
  have hfl : 0 ≤ floorLog2 p := by
    have h2 := (floorLog2_spec p hpos).2
    have h1 : pow2 0 < pow2 (floorLog2 p + 1) := by
      have e : pow2 0 = 1 := by decide!
      rw [e]
      linarith
    have := (pow2_lt_pow2_iff _ _).1 h1
    omega
  unfold roundMag at hr
  rw [if_neg (ne_of_gt hpos)] at hr
  simp only at hr
  split_ifs at hr with hov
  have hval := Option.some.inj hr
  have hmax : max (floorLog2 p) binary32.emin = floorLog2 p := by
    apply max_eq_left
    have : binary32.emin = -126 := rfl
    omega
  rw [hmax] at hval
  obtain ⟨n, hn⟩ := Int.eq_ofNat_of_zero_le hfl
  have hq : pow2 (floorLog2 p - ((binary32.prec : Int) - 1)) = ((2 ^ n : Nat) : ℚ) / 8388608 := by
    have e1 : floorLog2 p - ((binary32.prec : Int) - 1) = (n : Int) + (-23) := by
      have : (binary32.prec : Int) = 24 := rfl
      omega
    rw [e1, pow2_add, pow2_natCast]
    have e2 : pow2 (-23) = 1 / 8388608 := by decide!
    rw [e2]
    ring
  rw [hq] at hval
  generalize roundHalfEven (p / (((2 ^ n : Nat) : ℚ) / 8388608)) = R at hval
  refine ⟨R * ((2 ^ n : Nat) : Int), ?_⟩
  rw [← hval]
  push_cast
  ring

/-- A `float` above an integer is above it by at least `2^-23`, when the float
is at least 1. -/
theorem float_gap_above (s : Bool) (p : ℚ) (i : Int) (hf : IsFloat (.num s p)) (hp : 1 ≤ p)
    (h : (i : ℚ) < p) : 1 / 8388608 ≤ p - i := by
  obtain ⟨K, hK⟩ := float_multiple s p hf hp
  have h1 : (i : ℚ) * 8388608 < K := by
    rw [hK] at h
    have := (lt_div_iff₀ (by norm_num : (0 : ℚ) < 8388608)).1 h
    exact this
  have h2 : i * 8388608 + 1 ≤ K := by
    have : (i * 8388608 : Int) < K := by exact_mod_cast h1
    omega
  have h3 : ((i * 8388608 + 1 : Int) : ℚ) ≤ (K : ℚ) := by exact_mod_cast h2
  rw [hK]
  push_cast at h3
  rw [le_sub_iff_add_le, le_div_iff₀ (by norm_num : (0 : ℚ) < 8388608)]
  linarith

/-- A `float` below an integer is below it by at least `2^-23`, when the float
is at least 1. -/
theorem float_gap_below (s : Bool) (p : ℚ) (i : Int) (hf : IsFloat (.num s p)) (hp : 1 ≤ p)
    (h : p < (i : ℚ)) : 1 / 8388608 ≤ (i : ℚ) - p := by
  obtain ⟨K, hK⟩ := float_multiple s p hf hp
  have h1 : (K : ℚ) < (i : ℚ) * 8388608 := by
    rw [hK] at h
    exact (div_lt_iff₀ (by norm_num : (0 : ℚ) < 8388608)).1 h
  have h2 : K + 1 ≤ i * 8388608 := by
    have : K < (i * 8388608 : Int) := by exact_mod_cast h1
    omega
  have h3 : ((K + 1 : Int) : ℚ) ≤ ((i * 8388608 : Int) : ℚ) := by exact_mod_cast h2
  rw [hK]
  push_cast at h3
  rw [le_sub_iff_add_le, add_comm, ← le_sub_iff_add_le, div_le_iff₀ (by norm_num : (0 : ℚ) < 8388608)]
  linarith

/-! ### A binary32 run from a position in an empty cell -/

/-- A float position with cast `i ≥ 1` is a positive number in `[i, i + 1)`. -/
theorem position_cases (a : Fp) (i : Int) (hf : IsFloat a) (hi : toInt a = some i)
    (h1 : 1 ≤ i) : ∃ p, a = .num false p ∧ (i : ℚ) ≤ p ∧ p < (i : ℚ) + 1 ∧ 1 ≤ p := by
  cases a with
  | num s m =>
    have hm : (0 : ℚ) ≤ m := hf.1
    simp only [toInt] at hi
    split_ifs at hi with hc
    have hcast : Adventure.toInt (val s m) = i := Option.some.inj hi
    cases s with
    | true =>
      exfalso
      rw [val_true] at hcast
      have := toInt_mono (-m) 0 (by linarith)
      rw [toInt_zero] at this
      omega
    | false =>
      rw [val_false] at hcast
      obtain ⟨b1, b2⟩ := toInt_bounds_of_pos m (by omega)
      rw [hcast] at b1 b2
      have : (1 : ℚ) ≤ (i : ℚ) := by exact_mod_cast h1
      exact ⟨m, rfl, b1, b2, by linarith⟩
  | inf s => simp [toInt] at hi
  | nan => simp [toInt] at hi

/-- The sign test `r < 0` on a ray component. -/
theorem ray_sign_cases (r : Fp) (h : RayComponent r) :
    (lt r (ofInt binary32 0) = true ∧ ∃ m, r = .num true m ∧ 0 < m ∧ m ≤ 2 ^ 125) ∨
    (lt r (ofInt binary32 0) = false ∧ ∃ m, r = .num false m ∧ 0 ≤ m ∧ m ≤ 2 ^ 125) := by
  rw [ofInt_zero]
  cases r with
  | num s m =>
    obtain ⟨h0, h1, h2⟩ := h
    cases s with
    | true =>
      left
      have hm : m ≠ 0 := fun h => Bool.noConfusion (h2 h)
      have hpos : 0 < m := lt_of_le_of_ne h0 (Ne.symm hm)
      exact ⟨by simp [lt, val, hpos], m, rfl, hpos, h1⟩
    | false =>
      right
      exact ⟨by simp [lt, val, h0], m, rfl, h0, h1⟩
  | inf s => exact absurd h id
  | nan => exact absurd h id

/-- The sign test `r < 0` is false on a zero. -/
theorem lt_zero_of_isZero (r : Fp) (h : IsZero r) : lt r (ofInt binary32 0) = false := by
  rw [ofInt_zero]
  cases r with
  | num s m =>
    have hm : m = 0 := h
    subst hm
    cases s <;> simp [lt, val]
  | inf s => exact absurd h id
  | nan => exact absurd h id

/-- The `deltaDist` of a zero ray component is `+∞`. -/
theorem deltaDist_of_isZero (r : Fp) (h : IsZero r) :
    fabs (div binary32 (ofInt binary32 1) r) = .inf false := by
  have h1 : ofInt binary32 1 = .num false 1 := by decide!
  rw [h1]
  cases r with
  | num s m =>
    have hm : m = 0 := h
    subst hm
    simp [div, fabs]
  | inf s => exact absurd h id
  | nan => exact absurd h id

theorem lt_inf_left (a : Fp) : lt (.inf false) a = false := by
  cases a <;> simp [lt]

theorem add_int_one_double (i : Int) (h : 1 ≤ i ∧ i ≤ 6) :
    add binary64 (ofInt binary64 i) (ofRat binary64 1) = .num false ((i : ℚ) + 1) := by
  obtain ⟨h1, h6⟩ := h
  interval_cases i <;> decide!

/-- The initial side distance of an axis with a zero ray component is `+∞`. -/
theorem sideDistInit_of_isZero (r : Fp) (p : ℚ) (i : Int) (hr : IsZero r)
    (hf : IsFloat (.num false p)) (hi : 1 ≤ i ∧ i ≤ 6) (hp1 : 1 ≤ p) (hlt : p < (i : ℚ) + 1) :
    sideDistInit r (.num false p) (fabs (div binary32 (ofInt binary32 1) r)) i = .inf false := by
  unfold sideDistInit
  rw [lt_zero_of_isZero r hr, deltaDist_of_isZero r hr, add_int_one_double i hi]
  simp only [Bool.false_eq_true, if_false]
  have hgap : 1 / 8388608 ≤ ((i + 1 : Int) : ℚ) - p :=
    float_gap_below false p (i + 1) hf hp1 (by push_cast; exact hlt)
  push_cast at hgap
  have hv : (i : ℚ) + 1 - p ≠ 0 := by
    intro h
    rw [h] at hgap
    norm_num at hgap
  have hi6 : (i : ℚ) ≤ 6 := by exact_mod_cast hi.2
  obtain ⟨q, hq, hq1, -⟩ := ofRat_pos_between binary64 (by decide) ((i : ℚ) + 1 - p)
    (1 / 8388608) 8 (1 / 8388608) 8 (by norm_num) hgap (by linarith) (by decide!) (by decide!)
  have hqne : q ≠ 0 := by
    intro h
    rw [h] at hq1
    norm_num at hq1
  simp only [sub, neg, add, val, Bool.not_false, if_true, Bool.false_eq_true, if_false]
  rw [if_neg (by rw [← sub_eq_add_neg]; exact hv), ← sub_eq_add_neg, hq]
  simp [mul, hqne, toFloat]

/-! ### The run invariant and the sign of the perpendicular distance -/

/-- The loop variables on entry, for a position with casts `i` and `j`. -/
theorem ddaInit_eq (playerPosition rayDir : Vector2 Fp) (i j : Int)
    (hi : toInt playerPosition.x = some i) (hj : toInt playerPosition.y = some j) :
    ddaInit playerPosition rayDir = some
      { sideDistX := sideDistInit rayDir.x playerPosition.x (deltaDist rayDir).x i
        sideDistY := sideDistInit rayDir.y playerPosition.y (deltaDist rayDir).y j
        mapX := i
        mapY := j
        side := 0 } := by
  unfold ddaInit
  rw [hi, hj]

theorem add_inf_deltaDist (r : Fp) (h : IsZero r) :
    add binary32 (.inf false) (fabs (div binary32 (ofInt binary32 1) r)) = .inf false := by
  rw [deltaDist_of_isZero r h]
  rfl

/-- One run of the loop body keeps the run invariant. -/
theorem ddaStep_runInv (rayDir : Vector2 Fp) (i j : Int) (s s1 : DDAState) (hs : Interior s)
    (h : RunInv rayDir i j s) (hs1 : ddaStep (deltaDist rayDir) (stepOf rayDir) s = some s1) :
    RunInv rayDir i j s1 := by
  obtain ⟨⟨hx1, hx6⟩, hy1, hy6⟩ := hs
  obtain ⟨⟨h1, h2⟩, ⟨h3, h4⟩, h5, h6⟩ := h
  cases hlt : lt s.sideDistX s.sideDistY
  · rw [ddaStep_of_not_lt_float rayDir s ⟨by omega, by omega⟩ hlt] at hs1
    have := Option.some.inj hs1
    subst this
    refine ⟨⟨h1, h2⟩, ⟨?_, ?_⟩, h5, ?_⟩
    · intro hn
      have := h3 hn
      simp only [hn, if_true]
      omega
    · intro hn
      have := h4 hn
      simp only [hn, Bool.false_eq_true, if_false]
      omega
    · intro hz
      show add binary32 s.sideDistY (deltaDist rayDir).y = .inf false
      rw [h6 hz]
      exact add_inf_deltaDist _ hz
  · rw [ddaStep_of_lt_float rayDir s ⟨by omega, by omega⟩ hlt] at hs1
    have := Option.some.inj hs1
    subst this
    refine ⟨⟨?_, ?_⟩, ⟨h3, h4⟩, ?_, h6⟩
    · intro hn
      have := h1 hn
      simp only [hn, if_true]
      omega
    · intro hn
      have := h2 hn
      simp only [hn, Bool.false_eq_true, if_false]
      omega
    · intro hz
      show add binary32 s.sideDistX (deltaDist rayDir).x = .inf false
      rw [h5 hz]
      exact add_inf_deltaDist _ hz

/-- A run that hits a wall, as iterations of the loop body: the final state is
the `n - iters`-th iterate, and every iterate up to it satisfies any invariant
that the loop body keeps on interior cells. -/
theorem ddaLoop_iterates (rayDir : Vector2 Fp) (Inv : DDAState → Prop)
    (hstep : ∀ s s1, Interior s → Inv s →
      ddaStep (deltaDist rayDir) (stepOf rayDir) s = some s1 → Inv s1) :
    ∀ (fuel iters : Nat) (s r : DDAState) (n : Nat), Interior s → Inv s →
      ddaLoop (deltaDist rayDir) (stepOf rayDir) fuel iters s = .hit r n →
      ∀ k, iters + k ≤ n →
        ∃ sk, ddaIter (deltaDist rayDir) (stepOf rayDir) k s = some sk ∧ Inv sk := by
  intro fuel
  induction fuel with
  | zero =>
    intro iters s r n _ _ h
    simp [ddaLoop] at h
  | succ fuel ih =>
    intro iters s r n hs hinv h k hk
    cases k with
    | zero => exact ⟨s, rfl, hinv⟩
    | succ k =>
      simp only [ddaLoop] at h
      cases hs1 : ddaStep (deltaDist rayDir) (stepOf rayDir) s with
      | none => simp [hs1] at h
      | some s1 =>
        simp only [hs1] at h
        have hinv1 := hstep s s1 hs hinv hs1
        cases hc : worldMapAt s1.mapX s1.mapY with
        | none => simp [hc] at h
        | some c =>
          simp only [hc] at h
          by_cases hpos : c > 0
          · rw [if_pos hpos] at h
            injection h with h1 h2
            have hk0 : k = 0 := by omega
            subst hk0
            exact ⟨s1, by simp [ddaIter, hs1], hinv1⟩
          · rw [if_neg hpos] at h
            have hint : Interior s1 := interior_of_worldMapAt_le _ _ c hc (by omega)
            obtain ⟨sk, hsk, hinvk⟩ := ih (iters + 1) s1 r n hint hinv1 h k (by omega)
            exact ⟨sk, by simp only [ddaIter, hs1]; exact hsk, hinvk⟩

theorem half_one_sub_one :
    div binary32 (sub binary32 (ofInt binary32 1) (ofInt binary32 1)) (ofInt binary32 2) =
      .num false 0 := by decide!

theorem half_one_sub_neg_one :
    div binary32 (sub binary32 (ofInt binary32 1) (ofInt binary32 (-1))) (ofInt binary32 2) =
      .num false 1 := by decide!

/-- The numerator of `perpWallDist` on an axis with step `+1`: the hit cell is
beyond the position, so the numerator is at least `2^-23`. -/
theorem numerator_step_pos (p : ℚ) (i m : Int) (hf : IsFloat (.num false p)) (hp1 : 1 ≤ p)
    (hpi : p < (i : ℚ) + 1) (hm : i + 1 ≤ m ∧ m ≤ 7) (hi : 0 ≤ i) :
    ∃ r, add binary32 (sub binary32 (ofInt binary32 m) (.num false p))
        (div binary32 (sub binary32 (ofInt binary32 1) (ofInt binary32 1)) (ofInt binary32 2)) =
          .num false r ∧ 1 / 8388608 ≤ r ∧ r ≤ 8 := by
  rw [half_one_sub_one, ofInt_small m ⟨by omega, by omega⟩]
  have hmq : (i : ℚ) + 1 ≤ (m : ℚ) := by exact_mod_cast hm.1
  have hm7 : (m : ℚ) ≤ 7 := by exact_mod_cast hm.2
  have hgap : 1 / 8388608 ≤ (m : ℚ) - p :=
    float_gap_below false p m hf hp1 (by linarith)
  obtain ⟨r1, hr1, hb1, hb2⟩ := ofRat_pos_between binary32 (by decide) ((m : ℚ) - p)
    (1 / 8388608) 8 (1 / 8388608) 8 (by norm_num) hgap (by linarith) (by decide!) (by decide!)
  have hsub : sub binary32 (.num false (m : ℚ)) (.num false p) = .num false r1 := by
    simp only [sub, neg, add, val, Bool.not_false, if_true, Bool.false_eq_true, if_false]
    rw [← sub_eq_add_neg, if_neg (by linarith), hr1]
  rw [hsub]
  obtain ⟨r, hr, hc1, hc2⟩ := ofRat_pos_between binary32 (by decide) (r1 + 0)
    (1 / 8388608) 8 (1 / 8388608) 8 (by norm_num) (by linarith) (by linarith) (by decide!)
    (by decide!)
  refine ⟨r, ?_, hc1, hc2⟩
  simp only [add, val, Bool.false_eq_true, if_false]
  rw [if_neg (by linarith), hr]

/-- The numerator of `perpWallDist` on an axis with step `-1`, for a position
off the grid line: the hit cell is before the position, so the numerator is at
most `-2^-23`. -/
theorem numerator_step_neg (p : ℚ) (i m : Int) (hf : IsFloat (.num false p)) (hp1 : 1 ≤ p)
    (hip : (i : ℚ) < p) (hpi : p < (i : ℚ) + 1) (hm : 0 ≤ m ∧ m ≤ i - 1) (hi : i ≤ 6) :
    ∃ r, add binary32 (sub binary32 (ofInt binary32 m) (.num false p))
        (div binary32 (sub binary32 (ofInt binary32 1) (ofInt binary32 (-1)))
          (ofInt binary32 2)) = .num true r ∧ 1 / 8388608 ≤ r ∧ r ≤ 8 := by
  rw [half_one_sub_neg_one, ofInt_small m ⟨by omega, by omega⟩]
  have hmq : (m : ℚ) ≤ (i : ℚ) - 1 := by exact_mod_cast hm.2
  have hm0 : (0 : ℚ) ≤ (m : ℚ) := by exact_mod_cast hm.1
  have hi6 : (i : ℚ) ≤ 6 := by exact_mod_cast hi
  have hgap : 1 / 8388608 ≤ p - (i : ℚ) := float_gap_above false p i hf hp1 hip
  obtain ⟨r1, hr1, hb1, hb2⟩ := ofRat_neg_between binary32 (by decide) ((m : ℚ) - p)
    (1 + 1 / 8388608) 8 (1 + 1 / 8388608) 8 (by norm_num) (by linarith) (by linarith)
    (by decide!) (by decide!)
  have hsub : sub binary32 (.num false (m : ℚ)) (.num false p) = .num true r1 := by
    simp only [sub, neg, add, val, Bool.not_false, if_true, Bool.false_eq_true, if_false]
    rw [← sub_eq_add_neg, if_neg (by linarith), hr1]
  rw [hsub]
  obtain ⟨r, hr, hc1, hc2⟩ := ofRat_neg_between binary32 (by decide) (-r1 + 1)
    (1 / 8388608) 8 (1 / 8388608) 8 (by norm_num) (by linarith) (by linarith) (by decide!)
    (by decide!)
  refine ⟨r, ?_, hc1, hc2⟩
  simp only [add, val, if_true, Bool.false_eq_true, if_false]
  rw [if_neg (by linarith), hr]

/-- A quotient of two data of the same sign, the numerator of magnitude at
least `2^-23` and the denominator at most `2^125`, is above `+0`. -/
theorem div_same_sign_pos (s : Bool) (r m : ℚ) (hr : 1 / 8388608 ≤ r) (hm0 : 0 ≤ m)
    (hm : m ≤ 2 ^ 125) : lt (ofInt binary32 0) (div binary32 (.num s r) (.num s m)) = true := by
  rw [ofInt_zero]
  have hr0 : r ≠ 0 := by
    intro h
    rw [h] at hr
    norm_num at hr
  have hxor : xor s s = false := by cases s <;> rfl
  by_cases hz : m = 0
  · simp [div, hz, hr0, lt]
  · have hmpos : 0 < m := lt_of_le_of_ne hm0 (Ne.symm hz)
    simp only [div, if_neg hz, hxor]
    refine lt_zero_round binary32 (by decide) (r / m) (1 / 2 ^ 148) (1 / 2 ^ 148) (by norm_num)
      ?_ (by decide!) (by norm_num)
    rw [le_div_iff₀ hmpos]
    calc (1 : ℚ) / 2 ^ 148 * m ≤ 1 / 2 ^ 148 * 2 ^ 125 :=
          mul_le_mul_of_nonneg_left hm (by norm_num)
      _ = 1 / 8388608 := by norm_num
      _ ≤ r := hr

/-- The perpendicular distance after a last step along y is above `+0`. -/
theorem perpWallDist_pos_after_y (px ry : Fp) (rx : Fp) (q : ℚ) (j : Int) (s0 : DDAState)
    (hfy : IsFloat (.num false q)) (hq1 : 1 ≤ q) (hjq : (j : ℚ) ≤ q) (hqj : q < (j : ℚ) + 1)
    (hj : 1 ≤ j ∧ j ≤ 6) (hry : RayComponent ry)
    (hgy : lt ry (ofInt binary32 0) = true → (.num false q : Fp) ≠ ofInt binary32 j)
    (hs0 : 1 ≤ s0.mapY ∧ s0.mapY ≤ 6)
    (h3 : lt ry (ofInt binary32 0) = true → s0.mapY ≤ j)
    (h4 : lt ry (ofInt binary32 0) = false → j ≤ s0.mapY) :
    lt (ofInt binary32 0)
      (perpWallDist ⟨px, .num false q⟩ ⟨rx, ry⟩ (stepOf ⟨rx, ry⟩)
        { sideDistX := s0.sideDistX
          sideDistY := add binary32 s0.sideDistY (deltaDist ⟨rx, ry⟩).y
          mapX := s0.mapX
          mapY := s0.mapY + (if lt ry (ofInt binary32 0) then -1 else 1)
          side := 1 }) = true := by
  have hside : ¬ ((1 : Int) = 0) := by decide
  simp only [perpWallDist, stepOf, if_neg hside]
  rcases ray_sign_cases ry hry with ⟨hlt, m, rfl, hm0, hm⟩ | ⟨hlt, m, rfl, hm0, hm⟩
  · simp only [hlt, if_true]
    have hne : (j : ℚ) ≠ q := by
      intro h
      apply hgy hlt
      rw [ofInt_small j ⟨by omega, by omega⟩, h]
    have := h3 hlt
    obtain ⟨r, hr, hr1, -⟩ := numerator_step_neg q j (s0.mapY + -1) hfy hq1
      (lt_of_le_of_ne hjq hne) hqj ⟨by omega, by omega⟩ hj.2
    rw [hr]
    exact div_same_sign_pos true r m hr1 (le_of_lt hm0) hm
  · simp only [hlt, Bool.false_eq_true, if_false]
    have := h4 hlt
    obtain ⟨r, hr, hr1, -⟩ := numerator_step_pos q j (s0.mapY + 1) hfy hq1 hqj
      ⟨by omega, by omega⟩ (by omega)
    rw [hr]
    exact div_same_sign_pos false r m hr1 hm0 hm

/-- The perpendicular distance after a last step along x is above `+0`. -/
theorem perpWallDist_pos_after_x (py rx : Fp) (ry : Fp) (p : ℚ) (i : Int) (s0 : DDAState)
    (hfx : IsFloat (.num false p)) (hp1 : 1 ≤ p) (hip : (i : ℚ) ≤ p) (hpi : p < (i : ℚ) + 1)
    (hi : 1 ≤ i ∧ i ≤ 6) (hrx : RayComponent rx)
    (hgx : lt rx (ofInt binary32 0) = true → (.num false p : Fp) ≠ ofInt binary32 i)
    (hs0 : 1 ≤ s0.mapX ∧ s0.mapX ≤ 6)
    (h1 : lt rx (ofInt binary32 0) = true → s0.mapX ≤ i)
    (h2 : lt rx (ofInt binary32 0) = false → i ≤ s0.mapX) :
    lt (ofInt binary32 0)
      (perpWallDist ⟨.num false p, py⟩ ⟨rx, ry⟩ (stepOf ⟨rx, ry⟩)
        { sideDistX := add binary32 s0.sideDistX (deltaDist ⟨rx, ry⟩).x
          sideDistY := s0.sideDistY
          mapX := s0.mapX + (if lt rx (ofInt binary32 0) then -1 else 1)
          mapY := s0.mapY
          side := 0 }) = true := by
  simp only [perpWallDist, stepOf, if_true]
  rcases ray_sign_cases rx hrx with ⟨hlt, m, rfl, hm0, hm⟩ | ⟨hlt, m, rfl, hm0, hm⟩
  · simp only [hlt, if_true]
    have hne : (i : ℚ) ≠ p := by
      intro h
      apply hgx hlt
      rw [ofInt_small i ⟨by omega, by omega⟩, h]
    have := h1 hlt
    obtain ⟨r, hr, hr1, -⟩ := numerator_step_neg p i (s0.mapX + -1) hfx hp1
      (lt_of_le_of_ne hip hne) hpi ⟨by omega, by omega⟩ hi.2
    rw [hr]
    exact div_same_sign_pos true r m hr1 (le_of_lt hm0) hm
  · simp only [hlt, Bool.false_eq_true, if_false]
    have := h2 hlt
    obtain ⟨r, hr, hr1, -⟩ := numerator_step_pos p i (s0.mapX + 1) hfx hp1 hpi
      ⟨by omega, by omega⟩ (by omega)
    rw [hr]
    exact div_same_sign_pos false r m hr1 hm0 hm

/-- The run invariant holds on entry to the loop. -/
theorem ddaInit_runInv (rayDir : Vector2 Fp) (p q : ℚ) (i j : Int)
    (hfx : IsFloat (.num false p)) (hfy : IsFloat (.num false q))
    (hi : 1 ≤ i ∧ i ≤ 6) (hj : 1 ≤ j ∧ j ≤ 6) (hp1 : 1 ≤ p) (hq1 : 1 ≤ q)
    (hpi : p < (i : ℚ) + 1) (hqj : q < (j : ℚ) + 1) :
    RunInv rayDir i j
      { sideDistX := sideDistInit rayDir.x (.num false p) (deltaDist rayDir).x i
        sideDistY := sideDistInit rayDir.y (.num false q) (deltaDist rayDir).y j
        mapX := i
        mapY := j
        side := 0 } :=
  ⟨⟨fun _ => le_refl _, fun _ => le_refl _⟩, ⟨fun _ => le_refl _, fun _ => le_refl _⟩,
    fun hz => sideDistInit_of_isZero rayDir.x p i hz hfx hi hp1 hpi,
    fun hz => sideDistInit_of_isZero rayDir.y q j hz hfy hj hq1 hqj⟩

/-- A binary32 run from a float position in an empty cell: it hits a wall, with
any fuel of 16 or more; the state it stops in is one step after an interior
state that satisfies the run invariant, and so does every iterate on the way. -/
theorem dda_run_float (playerPosition rayDir : Vector2 Fp) (i j : Int)
    (hfx : IsFloat playerPosition.x) (hfy : IsFloat playerPosition.y)
    (hi : toInt playerPosition.x = some i) (hj : toInt playerPosition.y = some j)
    (hcell : worldMapAt i j = some 0) (Inv : DDAState → Prop)
    (hstep : ∀ s s1, Interior s → Inv s →
      ddaStep (deltaDist rayDir) (stepOf rayDir) s = some s1 → Inv s1)
    (hinit : ∀ p q, playerPosition.x = .num false p → playerPosition.y = .num false q →
      (i : ℚ) ≤ p → p < (i : ℚ) + 1 → (j : ℚ) ≤ q → q < (j : ℚ) + 1 → 1 ≤ p → 1 ≤ q →
      ∀ sInit, ddaInit playerPosition rayDir = some sInit →
        RunInv rayDir i j sInit → Inv sInit) :
    ∃ p q sInit s0 s1 n, playerPosition.x = .num false p ∧ playerPosition.y = .num false q ∧
      ((i : ℚ) ≤ p ∧ p < (i : ℚ) + 1 ∧ 1 ≤ p) ∧ ((j : ℚ) ≤ q ∧ q < (j : ℚ) + 1 ∧ 1 ≤ q) ∧
      ddaInit playerPosition rayDir = some sInit ∧
      Interior s0 ∧ RunInv rayDir i j s0 ∧ Inv s0 ∧
      ddaStep (deltaDist rayDir) (stepOf rayDir) s0 = some s1 ∧
      (∀ fuel, 16 ≤ fuel → castRay fuel playerPosition rayDir = some (.hit s1 n)) ∧
      n ≤ 11 ∧
      ∀ k, k ≤ n → ∃ sk, ddaIter (deltaDist rayDir) (stepOf rayDir) k sInit = some sk ∧
        RunInv rayDir i j sk ∧ Inv sk := by
  have hint : (1 ≤ i ∧ i ≤ 6) ∧ (1 ≤ j ∧ j ≤ 6) := interior_of_worldMapAt_le i j 0 hcell (le_refl 0)
  obtain ⟨p, hpx, hip, hpi, hp1⟩ := position_cases playerPosition.x i hfx hi hint.1.1
  obtain ⟨q, hqy, hjq, hqj, hq1⟩ := position_cases playerPosition.y j hfy hj hint.2.1
  have hdi := ddaInit_eq playerPosition rayDir i j hi hj
  rw [hpx] at hfx
  rw [hqy] at hfy
  have hrun0 := ddaInit_runInv rayDir p q i j hfx hfy hint.1 hint.2 hp1 hq1 hpi hqj
  rw [← hpx, ← hqy] at hrun0
  have hinv0 := hinit p q hpx hqy hip hpi hjq hqj hp1 hq1 _ hdi hrun0
  have hInterior : Interior
      { sideDistX := sideDistInit rayDir.x playerPosition.x (deltaDist rayDir).x i
        sideDistY := sideDistInit rayDir.y playerPosition.y (deltaDist rayDir).y j
        mapX := i
        mapY := j
        side := 0 } := hint
  have htr := (travel_ge_two_float rayDir _ hInterior).2
  have hstep2 : ∀ s s1, Interior s → (RunInv rayDir i j s ∧ Inv s) →
      ddaStep (deltaDist rayDir) (stepOf rayDir) s = some s1 → (RunInv rayDir i j s1 ∧ Inv s1) :=
    fun s s1 hs h hs1 => ⟨ddaStep_runInv rayDir i j s s1 hs h.1 hs1, hstep s s1 hs h.2 hs1⟩
  obtain ⟨s0, s1, n, c, hs0, hinv, hs1, hrun, -, -, -, hle⟩ :=
    ddaLoop_hit_float rayDir (fun s => RunInv rayDir i j s ∧ Inv s) hstep2 11 0 _ hInterior
      ⟨hrun0, hinv0⟩ (by push_cast; omega)
  refine ⟨p, q, _, s0, s1, n, hpx, hqy, ⟨hip, hpi, hp1⟩, ⟨hjq, hqj, hq1⟩, hdi, hs0, hinv.1,
    hinv.2, hs1, ?_, by push_cast at hle; omega, ?_⟩
  · intro fuel hfuel
    obtain ⟨extra, rfl⟩ : ∃ extra, fuel = 11 + extra := ⟨fuel - 11, by omega⟩
    unfold castRay
    rw [hdi]
    exact congrArg some (ddaLoop_fuel_mono_float _ _ extra 11 0 _ _ n hrun)
  · intro k hk
    exact ddaLoop_iterates rayDir (fun s => RunInv rayDir i j s ∧ Inv s) hstep2 11 0 _ s1 n
      hInterior ⟨hrun0, hinv0⟩ hrun k (by omega)

/-! ### Rays with a zero component -/

/-- Rounding a value of magnitude at most a representable `c` gives a finite
datum of magnitude at most `c`. -/
theorem round_le (fmt : Format) (hp : 1 ≤ fmt.prec) (t : Bool) (m c : ℚ) (hm : 0 ≤ m)
    (hmc : m ≤ c) (hc : roundMag fmt c = some c) :
    ∃ r, round fmt t m = .num t r ∧ 0 ≤ r ∧ r ≤ c := by
  obtain ⟨r, hr, hle, h0⟩ := roundMag_mono fmt hp m c c hm hmc hc
  exact ⟨r, by unfold round; rw [hr], h0, hle⟩

theorem ofRat_le (fmt : Format) (hp : 1 ≤ fmt.prec) (v c : ℚ) (hv : |v| ≤ c)
    (hc : roundMag fmt c = some c) :
    ∃ t r, ofRat fmt v = .num t r ∧ 0 ≤ r ∧ r ≤ c ∧ (0 ≤ v → t = false) := by
  obtain ⟨r, hr, h0, hle⟩ := round_le fmt hp (decide (v < 0)) |v| c (abs_nonneg v) hv hc
  exact ⟨_, r, hr, h0, hle, fun h => decide_eq_false (not_lt.2 h)⟩

/-- A sum of two finite data of magnitude at most a representable `c` in all
is a finite datum of magnitude at most `c`. -/
theorem add_le (fmt : Format) (hp : 1 ≤ fmt.prec) (a b : Bool) (m n c : ℚ)
    (hv : |val a m + val b n| ≤ c) (hc : roundMag fmt c = some c) :
    ∃ t r, add fmt (.num a m) (.num b n) = .num t r ∧ 0 ≤ r ∧ r ≤ c ∧
      (0 ≤ val a m + val b n → a = false → t = false) := by
  by_cases hz : val a m + val b n = 0
  · refine ⟨a && b, 0, by simp only [add, if_pos hz], le_refl 0, ?_, ?_⟩
    · exact le_trans (abs_nonneg _) hv
    · intro _ ha
      rw [ha]
      rfl
  · obtain ⟨t, r, hr, h0, hle, hs⟩ := ofRat_le fmt hp _ c hv hc
    exact ⟨t, r, by simp only [add, if_neg hz]; exact hr, h0, hle, fun h _ => hs h⟩

/-- The numerator of `perpWallDist` is finite, of magnitude at most 8. -/
theorem numerator_le (p : ℚ) (m : Int) (half : Fp) (hp1 : 1 ≤ p) (hp7 : p < 7)
    (hm : 0 ≤ m ∧ m ≤ 7) (hhalf : half = .num false 0 ∨ half = .num false 1) :
    ∃ t r, add binary32 (sub binary32 (ofInt binary32 m) (.num false p)) half = .num t r ∧
      0 ≤ r ∧ r ≤ 8 := by
  rw [ofInt_small m ⟨by omega, by omega⟩]
  have hm0 : (0 : ℚ) ≤ (m : ℚ) := by exact_mod_cast hm.1
  have hm7 : (m : ℚ) ≤ 7 := by exact_mod_cast hm.2
  obtain ⟨t1, r1, hr1, h0, hle, -⟩ := add_le binary32 (by decide) false true (m : ℚ) p 7
    (by rw [val_false, val_true, abs_le]; constructor <;> linarith) (by decide!)
  have hsub : sub binary32 (.num false (m : ℚ)) (.num false p) = .num t1 r1 := hr1
  rw [hsub]
  have hval : |val t1 r1| ≤ 7 := by
    cases t1
    · rw [val_false, abs_of_nonneg h0]
      exact hle
    · rw [val_true, abs_neg, abs_of_nonneg h0]
      exact hle
  rw [abs_le] at hval
  rcases hhalf with rfl | rfl
  · obtain ⟨t, r, hr, hr0, hr8, -⟩ := add_le binary32 (by decide) t1 false r1 0 8
      (by rw [val_false, abs_le]; constructor <;> linarith) (by decide!)
    exact ⟨t, r, hr, hr0, hr8⟩
  · obtain ⟨t, r, hr, hr0, hr8, -⟩ := add_le binary32 (by decide) t1 false r1 1 8
      (by rw [val_false, abs_le]; constructor <;> linarith) (by decide!)
    exact ⟨t, r, hr, hr0, hr8⟩

theorem half_cases (r : Fp) :
    div binary32 (sub binary32 (ofInt binary32 1)
        (if lt r (ofInt binary32 0) then ofInt binary32 (-1) else ofInt binary32 1))
      (ofInt binary32 2) = .num false 0 ∨
    div binary32 (sub binary32 (ofInt binary32 1)
        (if lt r (ofInt binary32 0) then ofInt binary32 (-1) else ofInt binary32 1))
      (ofInt binary32 2) = .num false 1 := by
  cases lt r (ofInt binary32 0)
  · left
    simp only [Bool.false_eq_true, if_false]
    exact half_one_sub_one
  · right
    simp only [if_true]
    exact half_one_sub_neg_one

/-- A finite datum of magnitude at most 8 divided by a ray component of
magnitude at least `2^-124` is finite. -/
theorem div_large_finite (t : Bool) (r : ℚ) (d : Fp) (hr0 : 0 ≤ r) (hr : r ≤ 8)
    (hd : LargeComponent d) : IsFinite (div binary32 (.num t r) d) := by
  cases d with
  | num s m =>
    have hm : (1 : ℚ) / 2 ^ 124 ≤ m := hd
    have hmpos : 0 < m := lt_of_lt_of_le (by norm_num) hm
    simp only [div, if_neg (ne_of_gt hmpos)]
    obtain ⟨q, hq, -, -⟩ := round_le binary32 (by decide) (xor t s) (r / m) (2 ^ 127)
      (div_nonneg hr0 (le_of_lt hmpos))
      (by
        rw [div_le_iff₀ hmpos]
        calc r ≤ 8 := hr
          _ = 2 ^ 127 * (1 / 2 ^ 124) := by norm_num
          _ ≤ 2 ^ 127 * m := mul_le_mul_of_nonneg_left hm (by norm_num))
      (by decide!)
    rw [hq]
    trivial
  | inf s => exact absurd hd id
  | nan => exact absurd hd id

/-- The `deltaDist` of a ray component of magnitude at least `2^-124` is a
finite datum of magnitude at most `2^124`. -/
theorem deltaDist_of_large (d : Fp) (hd : LargeComponent d) :
    ∃ dd, fabs (div binary32 (ofInt binary32 1) d) = .num false dd ∧ 0 ≤ dd ∧ dd ≤ 2 ^ 124 := by
  have h1 : ofInt binary32 1 = .num false 1 := by decide!
  rw [h1]
  cases d with
  | num s m =>
    have hm : (1 : ℚ) / 2 ^ 124 ≤ m := hd
    have hmpos : 0 < m := lt_of_lt_of_le (by norm_num) hm
    simp only [div, if_neg (ne_of_gt hmpos)]
    obtain ⟨q, hq, hq0, hq1⟩ := round_le binary32 (by decide) (xor false s) (1 / m) (2 ^ 124)
      (div_nonneg (by norm_num) (le_of_lt hmpos))
      (by
        rw [div_le_iff₀ hmpos]
        calc (1 : ℚ) = 2 ^ 124 * (1 / 2 ^ 124) := by norm_num
          _ ≤ 2 ^ 124 * m := mul_le_mul_of_nonneg_left hm (by norm_num))
      (by decide!)
    rw [hq]
    exact ⟨q, rfl, hq0, hq1⟩
  | inf s => exact absurd hd id
  | nan => exact absurd hd id

/-- The initial side distance of an axis whose ray component has magnitude at
least `2^-124` is a finite datum, not negative and at most `2^124`. -/
theorem sideDistInit_of_large (r : Fp) (p : ℚ) (i : Int) (hr : LargeComponent r)
    (hi : 1 ≤ i ∧ i ≤ 6) (hip : (i : ℚ) ≤ p) (hpi : p < (i : ℚ) + 1) :
    ∃ sd, sideDistInit r (.num false p) (fabs (div binary32 (ofInt binary32 1) r)) i =
        .num false sd ∧ 0 ≤ sd ∧ sd ≤ 2 ^ 124 := by
  obtain ⟨dd, hdd, hdd0, hdd1⟩ := deltaDist_of_large r hr
  unfold sideDistInit
  rw [hdd]
  cases hlt : lt r (ofInt binary32 0)
  · simp only [Bool.false_eq_true, if_false]
    rw [add_int_one_double i hi]
    obtain ⟨t1, r1, hr1, h0, hle, hs⟩ := add_le binary64 (by decide) false true ((i : ℚ) + 1) p 1
      (by rw [val_false, val_true, abs_le]; constructor <;> linarith) (by decide!)
    have ht1 : t1 = false := hs (by rw [val_false, val_true]; linarith) rfl
    subst ht1
    have hsub : sub binary64 (.num false ((i : ℚ) + 1)) (.num false p) = .num false r1 := hr1
    rw [hsub]
    obtain ⟨r2, hr2, h20, h21⟩ := round_le binary64 (by decide) false (r1 * dd) (2 ^ 124)
      (mul_nonneg h0 hdd0)
      (by
        calc r1 * dd ≤ 1 * 2 ^ 124 := mul_le_mul hle hdd1 hdd0 (by norm_num)
          _ = 2 ^ 124 := by norm_num)
      (by decide!)
    have hmul : mul binary64 (.num false r1) (.num false dd) = .num false r2 := hr2
    rw [hmul]
    obtain ⟨r3, hr3, h30, h31⟩ := round_le binary32 (by decide) false r2 (2 ^ 124) h20 h21
      (by decide!)
    exact ⟨r3, hr3, h30, h31⟩
  · simp only [if_true]
    rw [ofInt_small i ⟨by omega, by omega⟩]
    obtain ⟨t1, r1, hr1, h0, hle, hs⟩ := add_le binary32 (by decide) false true p (i : ℚ) 1
      (by rw [val_false, val_true, abs_le]; constructor <;> linarith) (by decide!)
    have ht1 : t1 = false := hs (by rw [val_false, val_true]; linarith) rfl
    subst ht1
    have hsub : sub binary32 (.num false p) (.num false (i : ℚ)) = .num false r1 := hr1
    rw [hsub]
    obtain ⟨r2, hr2, h20, h21⟩ := round_le binary32 (by decide) false (r1 * dd) (2 ^ 124)
      (mul_nonneg h0 hdd0)
      (by
        calc r1 * dd ≤ 1 * 2 ^ 124 := mul_le_mul hle hdd1 hdd0 (by norm_num)
          _ = 2 ^ 124 := by norm_num)
      (by decide!)
    exact ⟨r2, hr2, h20, h21⟩

theorem roundMag_multiple (k : Int) (hk : 0 ≤ k ∧ k ≤ 13) :
    roundMag binary32 ((k : ℚ) * 2 ^ 124) = some ((k : ℚ) * 2 ^ 124) := by
  obtain ⟨h0, h13⟩ := hk
  interval_cases k <;> decide!

/-- The state in which a run stops is its `n - iters`-th iterate. -/
theorem ddaLoop_last_iterate (dd step : Vector2 Fp) :
    ∀ (fuel iters : Nat) (s r : DDAState) (n : Nat),
      ddaLoop dd step fuel iters s = .hit r n →
      iters ≤ n ∧ ddaIter dd step (n - iters) s = some r := by
  intro fuel
  induction fuel with
  | zero =>
    intro iters s r n h
    simp [ddaLoop] at h
  | succ fuel ih =>
    intro iters s r n h
    simp only [ddaLoop] at h
    cases hs1 : ddaStep dd step s with
    | none => simp [hs1] at h
    | some s1 =>
      simp only [hs1] at h
      cases hc : worldMapAt s1.mapX s1.mapY with
      | none => simp [hc] at h
      | some c =>
        simp only [hc] at h
        by_cases hpos : c > 0
        · rw [if_pos hpos] at h
          injection h with h1 h2
          subst h1 h2
          refine ⟨by omega, ?_⟩
          rw [show iters + 1 - iters = 0 + 1 by omega]
          simp [ddaIter, hs1]
        · rw [if_neg hpos] at h
          obtain ⟨hle, hit⟩ := ih (iters + 1) s1 r n h
          refine ⟨by omega, ?_⟩
          rw [show n - iters = (n - (iters + 1)) + 1 by omega]
          simp only [ddaIter, hs1]
          exact hit

/-- The perpendicular distance after a last step along y is finite when
`rayDirection.y` has magnitude at least `2^-124`. -/
theorem perpWallDist_finite_after_y (px rx ry : Fp) (q : ℚ) (s : DDAState)
    (hq1 : 1 ≤ q) (hq7 : q < 7) (hm : 0 ≤ s.mapY ∧ s.mapY ≤ 7) (hside : s.side = 1)
    (hry : LargeComponent ry) :
    IsFinite (perpWallDist ⟨px, .num false q⟩ ⟨rx, ry⟩ (stepOf ⟨rx, ry⟩) s) := by
  have hne : ¬ (s.side = 0) := by rw [hside]; decide
  simp only [perpWallDist, stepOf, if_neg hne]
  obtain ⟨t, r, hr, hr0, hr8⟩ := numerator_le q s.mapY _ hq1 hq7 hm (half_cases ry)
  rw [hr]
  exact div_large_finite t r ry hr0 hr8 hry

/-- The perpendicular distance after a last step along x is finite when
`rayDirection.x` has magnitude at least `2^-124`. -/
theorem perpWallDist_finite_after_x (py rx ry : Fp) (p : ℚ) (s : DDAState)
    (hp1 : 1 ≤ p) (hp7 : p < 7) (hm : 0 ≤ s.mapX ∧ s.mapX ≤ 7) (hside : s.side = 0)
    (hrx : LargeComponent rx) :
    IsFinite (perpWallDist ⟨.num false p, py⟩ ⟨rx, ry⟩ (stepOf ⟨rx, ry⟩) s) := by
  simp only [perpWallDist, stepOf, if_pos hside]
  obtain ⟨t, r, hr, hr0, hr8⟩ := numerator_le p s.mapX _ hp1 hp7 hm (half_cases rx)
  rw [hr]
  exact div_large_finite t r rx hr0 hr8 hrx

/-- With `sideDist.x = +∞` the loop body steps along y. -/
theorem ddaStep_of_inf_x (rayDir : Vector2 Fp) (s s1 : DDAState) (hs : Interior s)
    (hx : s.sideDistX = .inf false)
    (hs1 : ddaStep (deltaDist rayDir) (stepOf rayDir) s = some s1) :
    s1.sideDistX = .inf false ∧ s1.mapX = s.mapX ∧ s1.side = 1 := by
  obtain ⟨-, hy1, hy6⟩ := hs
  have hlt : lt s.sideDistX s.sideDistY = false := by
    rw [hx]
    exact lt_inf_left _
  rw [ddaStep_of_not_lt_float rayDir s ⟨by omega, by omega⟩ hlt] at hs1
  have := Option.some.inj hs1
  subst this
  exact ⟨hx, rfl, rfl⟩

/-- With `sideDist.y = +∞` and a finite `sideDist.x` bounded along the run, the
loop body steps along x and keeps the bound. -/
theorem ddaStep_of_inf_y (rayDir : Vector2 Fp) (s s1 : DDAState) (hs : Interior s)
    (hrx : LargeComponent rayDir.x) (hy : s.sideDistY = .inf false)
    (hx : ∃ r, s.sideDistX = .num false r ∧ 0 ≤ r ∧
      r ≤ ((13 - travel rayDir s : Int) : ℚ) * 2 ^ 124)
    (hs1 : ddaStep (deltaDist rayDir) (stepOf rayDir) s = some s1) :
    s1.sideDistY = .inf false ∧ s1.mapY = s.mapY ∧ s1.side = 0 ∧
      ∃ r, s1.sideDistX = .num false r ∧ 0 ≤ r ∧
        r ≤ ((13 - travel rayDir s1 : Int) : ℚ) * 2 ^ 124 := by
  obtain ⟨r, hr, hr0, hrle⟩ := hx
  obtain ⟨s2, hs2, -, htr⟩ := ddaStep_travel_float rayDir s hs
  rw [hs1] at hs2
  have := Option.some.inj hs2
  subst this
  have ht := travel_ge_two_float rayDir s hs
  obtain ⟨⟨hx1, hx6⟩, -⟩ := hs
  have hlt : lt s.sideDistX s.sideDistY = true := by
    rw [hr, hy]
    rfl
  rw [ddaStep_of_lt_float rayDir s ⟨by omega, by omega⟩ hlt] at hs1
  have hs1eq := Option.some.inj hs1
  obtain ⟨dd, hdd, hdd0, hdd1⟩ := deltaDist_of_large rayDir.x hrx
  have hk : (((13 - travel rayDir s1 : Int) : ℚ)) = ((13 - travel rayDir s : Int) : ℚ) + 1 := by
    rw [htr]
    push_cast
    ring
  obtain ⟨t, r2, hr2, h20, h21, hsgn⟩ := add_le binary32 (by decide) false false r dd
    (((13 - travel rayDir s1 : Int) : ℚ) * 2 ^ 124)
    (by
      rw [val_false, val_false, abs_of_nonneg (add_nonneg hr0 hdd0), hk]
      linarith)
    (roundMag_multiple _ ⟨by omega, by omega⟩)
  have ht : t = false := hsgn (by rw [val_false, val_false]; exact add_nonneg hr0 hdd0) rfl
  subst ht
  have hsx : s1.sideDistX = add binary32 (.num false r) (.num false dd) := by
    rw [← hs1eq, ← hdd, ← hr]
    rfl
  refine ⟨?_, ?_, ?_, r2, ?_, h20, h21⟩
  · rw [← hs1eq]
    exact hy
  · rw [← hs1eq]
  · rw [← hs1eq]
  · rw [hsx, hr2]

/-! ### The relative error of rounding -/

theorem roundHalfEven_abs (n : ℚ) : |(roundHalfEven n : ℚ) - n| ≤ 1 / 2 := by
  have h1 : (⌊n⌋ : ℚ) ≤ n := Int.floor_le n
  have h2 : n < (⌊n⌋ : ℚ) + 1 := Int.lt_floor_add_one n
  unfold roundHalfEven
  simp only
  rw [abs_le]
  split_ifs with ha hb hc
  · constructor <;> linarith
  · push_cast
    constructor <;> linarith
  · have : n - ⌊n⌋ = 1 / 2 := le_antisymm (not_lt.1 hb) (not_lt.1 ha)
    constructor <;> linarith
  · have : n - ⌊n⌋ = 1 / 2 := le_antisymm (not_lt.1 hb) (not_lt.1 ha)
    push_cast
    constructor <;> linarith

/-- Rounding a magnitude in the normal range moves it by at most the relative
error `2^-prec`, and not beyond a representable bound. -/
theorem roundMag_rel (fmt : Format) (hp : 1 ≤ fmt.prec) (m c : ℚ) (hlo : pow2 fmt.emin ≤ m)
    (hmc : m ≤ c) (hc : roundMag fmt c = some c) :
    ∃ r, roundMag fmt m = some r ∧ |r - m| ≤ m * pow2 (-(fmt.prec : Int)) ∧ 0 ≤ r ∧ r ≤ c := by
  have hm : 0 < m := lt_of_lt_of_le (pow2_pos _) hlo
  obtain ⟨r, hr, hle, h0⟩ := roundMag_mono fmt hp m c c (le_of_lt hm) hmc hc
  refine ⟨r, hr, ?_, h0, hle⟩
  obtain ⟨hs1, hs2⟩ := floorLog2_spec m hm
  have he : fmt.emin ≤ floorLog2 m := by
    have : pow2 fmt.emin < pow2 (floorLog2 m + 1) := lt_of_le_of_lt hlo hs2
    have := (pow2_lt_pow2_iff _ _).1 this
    omega
  unfold roundMag at hr
  rw [if_neg (ne_of_gt hm)] at hr
  simp only [max_eq_left he] at hr
  split_ifs at hr with hov
  have hreq := Option.some.inj hr
  have hq : 0 < pow2 (floorLog2 m - ((fmt.prec : Int) - 1)) := pow2_pos _
  have hqe : pow2 (floorLog2 m - ((fmt.prec : Int) - 1)) =
      2 * (pow2 (floorLog2 m) * pow2 (-(fmt.prec : Int))) := by
    have e1 : floorLog2 m - ((fmt.prec : Int) - 1) = (floorLog2 m + -(fmt.prec : Int)) + 1 := by
      ring
    have e2 : pow2 1 = 2 := by decide!
    rw [e1, pow2_add, pow2_add, e2]
    ring
  have hR := roundHalfEven_abs (m / pow2 (floorLog2 m - ((fmt.prec : Int) - 1)))
  generalize roundHalfEven (m / pow2 (floorLog2 m - ((fmt.prec : Int) - 1))) = R at hR hreq
  generalize pow2 (floorLog2 m - ((fmt.prec : Int) - 1)) = q at hq hqe hR hreq
  have hpp : 0 < pow2 (-(fmt.prec : Int)) := pow2_pos _
  have habs : |r - m| = |(R : ℚ) - m / q| * q := by
    rw [← hreq, ← abs_of_pos hq, ← abs_mul, abs_of_pos hq]
    congr 1
    field_simp
  rw [habs]
  calc |(R : ℚ) - m / q| * q ≤ 1 / 2 * q := mul_le_mul_of_nonneg_right hR (le_of_lt hq)
    _ = pow2 (floorLog2 m) * pow2 (-(fmt.prec : Int)) := by rw [hqe]; ring
    _ ≤ m * pow2 (-(fmt.prec : Int)) := mul_le_mul_of_nonneg_right hs1 (le_of_lt hpp)

/-- Rounding to binary32 or to binary64, for a magnitude between `2^-126` and
a representable bound: the relative error is at most `2^-24`. -/
theorem roundMag_rel_float (fmt : Format) (hf : fmt = binary32 ∨ fmt = binary64) (m c : ℚ)
    (hlo : 1 / 2 ^ 126 ≤ m) (hmc : m ≤ c) (hc : roundMag fmt c = some c) :
    ∃ r, roundMag fmt m = some r ∧ |r - m| ≤ m / 2 ^ 24 ∧ 0 ≤ r ∧ r ≤ c := by
  have hm : 0 < m := lt_of_lt_of_le (by norm_num) hlo
  rcases hf with rfl | rfl
  · obtain ⟨r, hr, he, h0, hle⟩ := roundMag_rel binary32 (by decide) m c
      (le_trans (le_of_eq (by decide!)) hlo) hmc hc
    refine ⟨r, hr, le_trans he (le_of_eq ?_), h0, hle⟩
    have : pow2 (-((binary32.prec : Nat) : Int)) = 1 / 2 ^ 24 := by decide!
    rw [this]
    ring
  · obtain ⟨r, hr, he, h0, hle⟩ := roundMag_rel binary64 (by decide) m c
      (le_trans (by
        have : pow2 binary64.emin ≤ 1 / 2 ^ 126 := by decide!
        exact this) hlo) hmc hc
    refine ⟨r, hr, le_trans he ?_, h0, hle⟩
    have : pow2 (-((binary64.prec : Nat) : Int)) ≤ 1 / 2 ^ 24 := by decide!
    calc m * pow2 (-((binary64.prec : Nat) : Int)) ≤ m * (1 / 2 ^ 24) :=
          mul_le_mul_of_nonneg_left this (le_of_lt hm)
      _ = m / 2 ^ 24 := by ring

/-! ### Relative closeness -/

theorem close_refl (c t : ℚ) (hc : 0 ≤ c) (ht : 0 ≤ t) : Close c t t := by
  unfold Close
  rw [sub_self, abs_zero]
  positivity

theorem close_mono (c c' x t : ℚ) (h : Close c x t) (hcc : c ≤ c') (ht : 0 ≤ t) :
    Close c' x t := by
  unfold Close at h ⊢
  refine le_trans h ?_
  have : c * t ≤ c' * t := mul_le_mul_of_nonneg_right hcc ht
  exact div_le_div_of_nonneg_right this (by norm_num)

/-- A close value lies between half and twice its target. -/
theorem close_bounds (c x t : ℚ) (h : Close c x t) (hc : c ≤ 64) (ht : 0 ≤ t) :
    t / 2 ≤ x ∧ x ≤ 2 * t ∧ x ≤ t + c * t / 2 ^ 24 ∧ t - c * t / 2 ^ 24 ≤ x := by
  unfold Close at h
  rw [abs_le] at h
  have h64 : c * t / 2 ^ 24 ≤ 64 * t / 2 ^ 24 :=
    div_le_div_of_nonneg_right (mul_le_mul_of_nonneg_right hc ht) (by norm_num)
  have : 64 * t / 2 ^ 24 ≤ t / 2 := by linarith
  refine ⟨by linarith, by linarith, by linarith, by linarith⟩

theorem close_zero (c x : ℚ) (h : Close c x 0) : x = 0 := by
  unfold Close at h
  simp only [sub_zero, mul_zero, zero_div] at h
  exact abs_eq_zero.1 (le_antisymm h (abs_nonneg x))

theorem close_add (a b c x y t s : ℚ) (hx : Close a x t) (hy : Close b y s) (ht : 0 ≤ t)
    (hs : 0 ≤ s) (hac : a ≤ c) (hbc : b ≤ c) : Close c (x + y) (t + s) := by
  have hx' := close_mono a c x t hx hac ht
  have hy' := close_mono b c y s hy hbc hs
  unfold Close at hx' hy' ⊢
  have e : x + y - (t + s) = (x - t) + (y - s) := by ring
  rw [e]
  refine le_trans (abs_add _ _) ?_
  have e2 : c * (t + s) / 2 ^ 24 = c * t / 2 ^ 24 + c * s / 2 ^ 24 := by ring
  rw [e2]
  exact add_le_add hx' hy'

theorem close_mul (a b x y t s : ℚ) (hx : Close a x t) (hy : Close b y s) (ha0 : 0 ≤ a)
    (ha : a ≤ 64) (hb0 : 0 ≤ b) (hb : b ≤ 64) (ht : 0 ≤ t) (hs : 0 ≤ s) :
    Close (a + b + 1) (x * y) (t * s) := by
  obtain ⟨-, -, hyu, -⟩ := close_bounds b y s hy hb hs
  obtain ⟨hyl, -, -, -⟩ := close_bounds b y s hy hb hs
  have hy0 : 0 ≤ y := le_trans (by positivity) hyl
  unfold Close at hx hy ⊢
  have e : x * y - t * s = (x - t) * y + t * (y - s) := by ring
  rw [e]
  refine le_trans (abs_add _ _) ?_
  rw [abs_mul, abs_mul, abs_of_nonneg hy0, abs_of_nonneg ht]
  have h1 : |x - t| * y ≤ a * t / 2 ^ 24 * (s + b * s / 2 ^ 24) :=
    mul_le_mul hx hyu hy0 (by positivity)
  have h2 : t * |y - s| ≤ t * (b * s / 2 ^ 24) := mul_le_mul_of_nonneg_left hy ht
  have hts : 0 ≤ t * s := mul_nonneg ht hs
  have hab : a * b ≤ 64 * 64 := mul_le_mul ha hb hb0 (by norm_num)
  have h3 : a * t / 2 ^ 24 * (s + b * s / 2 ^ 24) + t * (b * s / 2 ^ 24) =
      (a + b + a * b / 2 ^ 24) * (t * s) / 2 ^ 24 := by ring
  have h4 : (a + b + a * b / 2 ^ 24) * (t * s) / 2 ^ 24 ≤ (a + b + 1) * (t * s) / 2 ^ 24 := by
    apply div_le_div_of_nonneg_right _ (by norm_num)
    apply mul_le_mul_of_nonneg_right _ hts
    have : a * b / 2 ^ 24 ≤ 1 := by
      rw [div_le_one (by norm_num)]
      linarith
    linarith
  linarith

/-- Rounding a close value keeps it close, two units further. -/
theorem close_roundMag (fmt : Format) (hf : fmt = binary32 ∨ fmt = binary64) (c x t cb : ℚ)
    (h : Close c x t) (hc0 : 0 ≤ c) (hc : c ≤ 62) (ht : t = 0 ∨ 1 / 2 ^ 125 ≤ t)
    (hb : 2 * t ≤ cb) (hcb : roundMag fmt cb = some cb) :
    ∃ r, roundMag fmt x = some r ∧ Close (c + 2) r t ∧ 0 ≤ r ∧ r ≤ cb := by
  rcases ht with rfl | ht
  · have hx := close_zero c x h
    subst hx
    refine ⟨0, by simp [roundMag], close_refl _ _ (by linarith) le_rfl, le_rfl, by linarith⟩
  · have ht0 : 0 ≤ t := le_trans (by norm_num) ht
    obtain ⟨hxl, hxu, hxu2, -⟩ := close_bounds c x t h (by linarith) ht0
    obtain ⟨r, hr, he, h0, hle⟩ := roundMag_rel_float fmt hf x cb
      (by linarith) (by linarith) hcb
    refine ⟨r, hr, ?_, h0, hle⟩
    unfold Close at h ⊢
    have e : r - t = (r - x) + (x - t) := by ring
    rw [e]
    refine le_trans (abs_add _ _) ?_
    have h1 : x / 2 ^ 24 ≤ (t + c * t / 2 ^ 24) / 2 ^ 24 :=
      div_le_div_of_nonneg_right hxu2 (by norm_num)
    have h2 : (t + c * t / 2 ^ 24) / 2 ^ 24 + c * t / 2 ^ 24 =
        (c + 1 + c / 2 ^ 24) * t / 2 ^ 24 := by ring
    have h3 : (c + 1 + c / 2 ^ 24) * t / 2 ^ 24 ≤ (c + 2) * t / 2 ^ 24 := by
      apply div_le_div_of_nonneg_right _ (by norm_num)
      apply mul_le_mul_of_nonneg_right _ ht0
      have : c / 2 ^ 24 ≤ 1 := by
        rw [div_le_one (by norm_num)]
        linarith
      linarith
    linarith

/-! ### The side distances follow the exact distances to the grid lines -/

theorem round_close (fmt : Format) (hf : fmt = binary32 ∨ fmt = binary64) (c x t cb : ℚ)
    (h : Close c x t) (hc0 : 0 ≤ c) (hc : c ≤ 62) (ht : t = 0 ∨ 1 / 2 ^ 125 ≤ t)
    (hb : 2 * t ≤ cb) (hcb : roundMag fmt cb = some cb) (s : Bool) :
    ∃ r, round fmt s x = .num s r ∧ Close (c + 2) r t ∧ 0 ≤ r ∧ r ≤ cb := by
  obtain ⟨r, hr, hcl, h0, hle⟩ := close_roundMag fmt hf c x t cb h hc0 hc ht hb hcb
  exact ⟨r, by unfold round; rw [hr], hcl, h0, hle⟩

theorem roundMag_pow2_101 : roundMag binary32 (2 ^ 101) = some (2 ^ 101) := by decide!

theorem roundMag_pow2_105 : roundMag binary32 (2 ^ 105) = some (2 ^ 105) := by decide!

theorem roundMag64_pow2_101 : roundMag binary64 (2 ^ 101) = some (2 ^ 101) := by decide!

theorem roundMag64_two : roundMag binary64 2 = some 2 := by decide!

theorem roundMag_two : roundMag binary32 2 = some 2 := by decide!

theorem roundMag_sixteen : roundMag binary32 16 = some 16 := by decide!

/-- The bounds on `1 / m` for a magnitude between `2^-100` and `2^100`. -/
theorem one_div_mid (m : ℚ) (h1 : 1 / 2 ^ 100 ≤ m) (h2 : m ≤ 2 ^ 100) :
    0 < m ∧ 1 / 2 ^ 100 ≤ 1 / m ∧ 1 / m ≤ 2 ^ 100 := by
  have hm : 0 < m := lt_of_lt_of_le (by norm_num) h1
  refine ⟨hm, ?_, ?_⟩
  · rw [div_le_div_iff₀ (by norm_num) hm]
    linarith
  · rw [div_le_iff₀ hm]
    calc (1 : ℚ) = 2 ^ 100 * (1 / 2 ^ 100) := by norm_num
      _ ≤ 2 ^ 100 * m := mul_le_mul_of_nonneg_left h1 (by norm_num)

/-- The `deltaDist` of a ray component of magnitude between `2^-100` and
`2^100` is `1 / |r|` up to one rounding. -/
theorem deltaDist_close (r : Fp) (hr : MidComponent r) :
    ∃ d, fabs (div binary32 (ofInt binary32 1) r) = .num false d ∧ Close 2 d (1 / mag r) ∧
      0 ≤ d := by
  have h1 : ofInt binary32 1 = .num false 1 := by decide!
  rw [h1]
  cases r with
  | num s m =>
    obtain ⟨hm1, hm2⟩ := hr
    obtain ⟨hm, hl, hu⟩ := one_div_mid m hm1 hm2
    simp only [div, if_neg (ne_of_gt hm), mag]
    obtain ⟨d, hd, hcl, hd0, -⟩ := round_close binary32 (Or.inl rfl) 0 (1 / m) (1 / m) (2 ^ 101)
      (close_refl 0 _ le_rfl (by positivity)) le_rfl (by norm_num)
      (Or.inr (le_trans (by norm_num) hl)) (by linarith) roundMag_pow2_101 (xor false s)
    rw [hd]
    exact ⟨d, rfl, by simpa using hcl, hd0⟩
  | inf s => exact absurd hr id
  | nan => exact absurd hr id

theorem frac_bounds (r : Fp) (p : ℚ) (i : Int) (hf : IsFloat (.num false p)) (hp1 : 1 ≤ p)
    (hip : (i : ℚ) ≤ p) (hpi : p < (i : ℚ) + 1) :
    (frac r p i = 0 ∨ 1 / 8388608 ≤ frac r p i) ∧ 0 ≤ frac r p i ∧ frac r p i ≤ 1 := by
  unfold frac
  cases lt r (ofInt binary32 0)
  · simp only [Bool.false_eq_true, if_false]
    have := float_gap_below false p (i + 1) hf hp1 (by push_cast; exact hpi)
    push_cast at this
    exact ⟨Or.inr this, by linarith, by linarith⟩
  · simp only [if_true]
    refine ⟨?_, by linarith, by linarith⟩
    rcases eq_or_lt_of_le hip with h | h
    · left
      rw [h]
      ring
    · right
      exact float_gap_above false p i hf hp1 h

/-- The initial side distance of an axis is the exact distance to the first
grid line up to rounding. -/
theorem sideDistInit_close (r : Fp) (p : ℚ) (i : Int) (hr : MidComponent r)
    (hf : IsFloat (.num false p)) (hp1 : 1 ≤ p) (hi : 1 ≤ i ∧ i ≤ 6) (hip : (i : ℚ) ≤ p)
    (hpi : p < (i : ℚ) + 1) :
    ∃ b, sideDistInit r (.num false p) (fabs (div binary32 (ofInt binary32 1) r)) i =
        .num false b ∧ Close 9 b (frac r p i / mag r) := by
  obtain ⟨d, hd, hdc, hd0⟩ := deltaDist_close r hr
  obtain ⟨hfz, hf0, hf1⟩ := frac_bounds r p i hf hp1 hip hpi
  have hmag : 0 < mag r ∧ 1 / 2 ^ 100 ≤ 1 / mag r ∧ 1 / mag r ≤ 2 ^ 100 := by
    cases r with
    | num s m => exact one_div_mid m hr.1 hr.2
    | inf s => exact absurd hr id
    | nan => exact absurd hr id
  obtain ⟨hm, hl, hu⟩ := hmag
  have hD0 : (0 : ℚ) ≤ 1 / mag r := by positivity
  have htgt : frac r p i / mag r = frac r p i * (1 / mag r) := by ring
  have ht : frac r p i * (1 / mag r) = 0 ∨ 1 / 2 ^ 125 ≤ frac r p i * (1 / mag r) := by
    rcases hfz with h | h
    · left
      rw [h, zero_mul]
    · right
      calc (1 : ℚ) / 2 ^ 125 ≤ 1 / 8388608 * (1 / 2 ^ 100) := by norm_num
        _ ≤ frac r p i * (1 / mag r) := mul_le_mul h hl (by norm_num) hf0
  have hb : 2 * (frac r p i * (1 / mag r)) ≤ 2 ^ 101 := by
    have : frac r p i * (1 / mag r) ≤ 1 * 2 ^ 100 := mul_le_mul hf1 hu hD0 (by norm_num)
    linarith
  have hfz' : frac r p i = 0 ∨ 1 / 2 ^ 125 ≤ frac r p i := by
    rcases hfz with h | h
    · exact Or.inl h
    · exact Or.inr (le_trans (by norm_num) h)
  rw [htgt]
  unfold sideDistInit
  rw [hd]
  unfold frac at *
  cases hlt : lt r (ofInt binary32 0)
  · simp only [hlt, Bool.false_eq_true, if_false] at hfz hf0 hf1 ht hb hfz' ⊢
    rw [add_int_one_double i hi]
    have hne : (i : ℚ) + 1 - p ≠ 0 := by
      rcases hfz with h | h
      · linarith
      · intro h0
        rw [h0] at h
        norm_num at h
    obtain ⟨g, hg, hgc, hg0, -⟩ := round_close binary64 (Or.inr rfl) 0 ((i : ℚ) + 1 - p)
      ((i : ℚ) + 1 - p) 2 (close_refl 0 _ le_rfl hf0) le_rfl (by norm_num) hfz' (by linarith)
      roundMag64_two false
    have hsub : sub binary64 (.num false ((i : ℚ) + 1)) (.num false p) = .num false g := by
      simp only [sub, neg, add, val, Bool.not_false, if_true, Bool.false_eq_true, if_false]
      rw [← sub_eq_add_neg, if_neg hne]
      unfold ofRat
      rw [abs_of_nonneg hf0, decide_eq_false (not_lt.2 hf0)]
      exact hg
    rw [hsub]
    have hmc := close_mul (0 + 2) 2 g d _ _ hgc hdc (by norm_num) (by norm_num) (by norm_num)
      (by norm_num) hf0 hD0
    obtain ⟨g2, hg2, hg2c, hg20, -⟩ := round_close binary64 (Or.inr rfl) _ (g * d) _ (2 ^ 101)
      hmc (by norm_num) (by norm_num) ht hb roundMag64_pow2_101 false
    have hmul : mul binary64 (.num false g) (.num false d) = .num false g2 := hg2
    rw [hmul]
    obtain ⟨b, hb1, hbc, -, -⟩ := round_close binary32 (Or.inl rfl) _ g2 _ (2 ^ 101)
      hg2c (by norm_num) (by norm_num) ht hb roundMag_pow2_101 false
    refine ⟨b, hb1, ?_⟩
    norm_num at hbc ⊢
    exact hbc
  · simp only [hlt, if_true] at hfz hf0 hf1 ht hb hfz' ⊢
    rw [ofInt_small i ⟨by omega, by omega⟩]
    obtain ⟨g, hg, hgc, hg0, -⟩ := round_close binary32 (Or.inl rfl) 0 (p - (i : ℚ))
      (p - (i : ℚ)) 2 (close_refl 0 _ le_rfl hf0) le_rfl (by norm_num) hfz' (by linarith)
      roundMag_two false
    have hsub : ∃ g', sub binary32 (.num false p) (.num false (i : ℚ)) = .num false g' ∧
        Close 2 g' (p - (i : ℚ)) := by
      simp only [sub, neg, add, val, Bool.not_false, if_true, Bool.false_eq_true, if_false]
      rw [← sub_eq_add_neg]
      by_cases hz : p - (i : ℚ) = 0
      · rw [if_pos hz, hz]
        exact ⟨0, rfl, close_refl _ _ (by norm_num) le_rfl⟩
      · rw [if_neg hz]
        unfold ofRat
        rw [abs_of_nonneg hf0, decide_eq_false (not_lt.2 hf0)]
        exact ⟨g, hg, by simpa using hgc⟩
    obtain ⟨g', hg', hgc'⟩ := hsub
    rw [hg']
    have hmc := close_mul 2 2 g' d _ _ hgc' hdc (by norm_num) (by norm_num) (by norm_num)
      (by norm_num) hf0 hD0
    obtain ⟨b, hb1, hbc, -, -⟩ := round_close binary32 (Or.inl rfl) _ (g' * d) _ (2 ^ 101)
      hmc (by norm_num) (by norm_num) ht hb roundMag_pow2_101 false
    have hmul : mul binary32 (.num false g') (.num false d) = .num false b := hb1
    refine ⟨b, hmul, ?_⟩
    exact close_mono _ _ _ _ hbc (by norm_num) (mul_nonneg hf0 hD0)

theorem mag_mid (r : Fp) (hr : MidComponent r) :
    0 < mag r ∧ 1 / 2 ^ 100 ≤ 1 / mag r ∧ 1 / mag r ≤ 2 ^ 100 ∧ 1 / 2 ^ 100 ≤ mag r ∧
      mag r ≤ 2 ^ 100 := by
  cases r with
  | num s m =>
    obtain ⟨h1, h2, h3⟩ := one_div_mid m hr.1 hr.2
    exact ⟨h1, h2, h3, hr.1, hr.2⟩
  | inf s => exact absurd hr id
  | nan => exact absurd hr id

theorem stepsTo_self (r : Fp) (i : Int) : stepsTo r i i = 0 := by
  unfold stepsTo
  split <;> omega

theorem stepsTo_step (r : Fp) (i m : Int) :
    stepsTo r i (m + (if lt r (ofInt binary32 0) then -1 else 1)) = stepsTo r i m + 1 := by
  unfold stepsTo
  cases lt r (ofInt binary32 0)
  · simp only [Bool.false_eq_true, if_false]
    omega
  · simp only [if_true]
    omega

/-- The side distance on entry to the loop satisfies the accumulator
invariant. -/
theorem accInv_init (r : Fp) (p : ℚ) (i : Int) (hr : MidComponent r)
    (hf : IsFloat (.num false p)) (hp1 : 1 ≤ p) (hi : 1 ≤ i ∧ i ≤ 6) (hip : (i : ℚ) ≤ p)
    (hpi : p < (i : ℚ) + 1) :
    AccInv r p i (sideDistInit r (.num false p) (fabs (div binary32 (ofInt binary32 1) r)) i)
      i := by
  obtain ⟨b, hb, hc⟩ := sideDistInit_close r p i hr hf hp1 hi hip hpi
  refine ⟨by rw [stepsTo_self], b, hb, ?_⟩
  unfold lineDist
  rw [stepsTo_self]
  simpa using hc

/-- Adding `deltaDist` to the side distance of an axis keeps the accumulator
invariant, for the map coordinate one step further. -/
theorem accInv_step (r : Fp) (p : ℚ) (i m : Int) (sd : Fp) (hr : MidComponent r)
    (hf0 : 0 ≤ frac r p i) (hf1 : frac r p i ≤ 1) (hk : stepsTo r i m ≤ 6)
    (h : AccInv r p i sd m) :
    AccInv r p i (add binary32 sd (fabs (div binary32 (ofInt binary32 1) r)))
      (m + (if lt r (ofInt binary32 0) then -1 else 1)) := by
  obtain ⟨hk0, b, hb, hc⟩ := h
  obtain ⟨d, hd, hdc, hd0⟩ := deltaDist_close r hr
  obtain ⟨hm, hl, hu, -, -⟩ := mag_mid r hr
  have hkq0 : (0 : ℚ) ≤ (stepsTo r i m : ℚ) := by exact_mod_cast hk0
  have hkq6 : (stepsTo r i m : ℚ) ≤ 6 := by exact_mod_cast hk
  have hD0 : (0 : ℚ) ≤ 1 / mag r := by positivity
  have hT0 : 0 ≤ lineDist r p i m := by
    unfold lineDist
    exact div_nonneg (by linarith) (le_of_lt hm)
  have hT : lineDist r p i m = (frac r p i + stepsTo r i m) * (1 / mag r) := by
    unfold lineDist
    ring
  have hTu : lineDist r p i m ≤ 7 * 2 ^ 100 := by
    rw [hT]
    have h7 : frac r p i + (stepsTo r i m : ℚ) ≤ 7 := by linarith
    have h70 : (0 : ℚ) ≤ 7 := by norm_num
    exact mul_le_mul h7 hu hD0 h70
  have hnext : lineDist r p i (m + (if lt r (ofInt binary32 0) then -1 else 1)) =
      lineDist r p i m + 1 / mag r := by
    unfold lineDist
    rw [stepsTo_step]
    push_cast
    ring
  have hsum := close_add (9 + 2 * (stepsTo r i m : ℚ)) 2 (9 + 2 * (stepsTo r i m : ℚ)) b d _ _
    hc hdc hT0 hD0 le_rfl (by linarith)
  obtain ⟨hbl, -, -, -⟩ := close_bounds _ b _ hc (by linarith) hT0
  obtain ⟨hdl, -, -, -⟩ := close_bounds _ d _ hdc (by norm_num) hD0
  have hb0 : 0 ≤ b := le_trans (by linarith) hbl
  have hDpos : (0 : ℚ) < 1 / mag r := lt_of_lt_of_le (by norm_num) hl
  have hdpos : 0 < d := lt_of_lt_of_le (by linarith) hdl
  obtain ⟨b', hb', hbc', -, -⟩ := round_close binary32 (Or.inl rfl) _ (b + d) _ (2 ^ 105)
    hsum (by linarith) (by linarith)
    (Or.inr (by
      calc (1 : ℚ) / 2 ^ 125 ≤ 1 / 2 ^ 100 := by norm_num
        _ ≤ 1 / mag r := hl
        _ ≤ lineDist r p i m + 1 / mag r := by linarith))
    (by linarith) roundMag_pow2_105 false
  refine ⟨by rw [stepsTo_step]; omega, b', ?_, ?_⟩
  · rw [hb, hd]
    simp only [add, val, Bool.false_eq_true, if_false]
    rw [if_neg (by linarith)]
    unfold ofRat
    rw [abs_of_nonneg (by linarith), decide_eq_false (not_lt.2 (by linarith))]
    exact hb'
  · rw [hnext, stepsTo_step]
    push_cast
    have e : 9 + 2 * ((stepsTo r i m : ℚ) + 1) = 9 + 2 * (stepsTo r i m : ℚ) + 2 := by ring
    rw [e]
    exact hbc'

/-! ### The closed form of the perpendicular distance, up to rounding -/

/-- A magnitude of at least 1 rounds to a multiple of `2^-23`. -/
theorem roundMag_multiple_of (m r : ℚ) (hm : 1 ≤ m) (hr : roundMag binary32 m = some r) :
    ∃ K : Int, r = (K : ℚ) / 8388608 := by
  have hpos : 0 < m := by linarith
  have hfl : 0 ≤ floorLog2 m := by
    have h2 := (floorLog2_spec m hpos).2
    have h1 : pow2 0 < pow2 (floorLog2 m + 1) := by
      have e : pow2 0 = 1 := by decide!
      rw [e]
      linarith
    have := (pow2_lt_pow2_iff _ _).1 h1
    omega
  unfold roundMag at hr
  rw [if_neg (ne_of_gt hpos)] at hr
  simp only at hr
  split_ifs at hr with hov
  have hval := Option.some.inj hr
  have hmax : max (floorLog2 m) binary32.emin = floorLog2 m := by
    apply max_eq_left
    have : binary32.emin = -126 := rfl
    omega
  rw [hmax] at hval
  obtain ⟨n, hn⟩ := Int.eq_ofNat_of_zero_le hfl
  have hq : pow2 (floorLog2 m - ((binary32.prec : Int) - 1)) = ((2 ^ n : Nat) : ℚ) / 8388608 := by
    have e1 : floorLog2 m - ((binary32.prec : Int) - 1) = (n : Int) + (-23) := by
      have : (binary32.prec : Int) = 24 := rfl
      omega
    rw [e1, pow2_add, pow2_natCast]
    have e2 : pow2 (-23) = 1 / 8388608 := by decide!
    rw [e2]
    ring
  rw [hq] at hval
  generalize roundHalfEven (m / (((2 ^ n : Nat) : ℚ) / 8388608)) = R at hval
  refine ⟨R * ((2 ^ n : Nat) : Int), ?_⟩
  rw [← hval]
  push_cast
  ring

theorem roundMag_one : roundMag binary32 1 = some 1 := by decide!

theorem roundMag_eight : roundMag binary32 8 = some 8 := by decide!

theorem close_div (c x t m : ℚ) (h : Close c x t) (hm : 0 < m) : Close c (x / m) (t / m) := by
  unfold Close at h ⊢
  have e : x / m - t / m = (x - t) / m := by ring
  rw [e, abs_div, abs_of_pos hm]
  have e2 : c * (t / m) / 2 ^ 24 = c * t / 2 ^ 24 / m := by ring
  rw [e2]
  exact div_le_div_of_nonneg_right h (le_of_lt hm)

/-- The sign test on a ray component that is not zero reads its sign. -/
theorem lt_zero_of_mid (s : Bool) (m : ℚ) (hm : 0 < m) :
    lt (.num s m) (ofInt binary32 0) = s := by
  rw [ofInt_zero]
  cases s
  · simp [lt, val, le_of_lt hm]
  · simp [lt, val, hm]

/-- The closed form of `perpWallDist` along an axis with step `+1`: it is the
exact ray parameter of the grid line that was crossed last, up to rounding. -/
theorem perp_close_pos (m p : ℚ) (i m0 : Int) (hm : 1 / 2 ^ 100 ≤ m ∧ m ≤ 2 ^ 100)
    (hf : IsFloat (.num false p)) (hp1 : 1 ≤ p) (hpi : p < (i : ℚ) + 1)
    (hm0 : 1 ≤ m0 ∧ m0 ≤ 6) (hk0 : i ≤ m0) :
    ∃ a, div binary32
        (add binary32 (sub binary32 (ofInt binary32 (m0 + 1)) (.num false p))
          (div binary32 (sub binary32 (ofInt binary32 1) (ofInt binary32 1)) (ofInt binary32 2)))
        (.num false m) = .num false a ∧
      Close 6 a (((m0 : ℚ) + 1 - p) / m) := by
  obtain ⟨hmpos, hl, hu⟩ := one_div_mid m hm.1 hm.2
  rw [half_one_sub_one, ofInt_small (m0 + 1) ⟨by omega, by omega⟩]
  push_cast
  have hiq : (i : ℚ) ≤ (m0 : ℚ) := by exact_mod_cast hk0
  have hm6 : (m0 : ℚ) ≤ 6 := by exact_mod_cast hm0.2
  have hgap : 1 / 8388608 ≤ (m0 : ℚ) + 1 - p := by
    have := float_gap_below false p (m0 + 1) hf hp1 (by push_cast; linarith)
    push_cast at this
    exact this
  have ht0 : 0 ≤ (m0 : ℚ) + 1 - p := le_trans (by norm_num) hgap
  obtain ⟨n1, hn1, hc1, h10, -⟩ := round_close binary32 (Or.inl rfl) 0 ((m0 : ℚ) + 1 - p)
    ((m0 : ℚ) + 1 - p) 16 (close_refl 0 _ le_rfl ht0) le_rfl (by norm_num)
    (Or.inr (le_trans (by norm_num) hgap)) (by linarith) roundMag_sixteen false
  obtain ⟨hn1l, -, -, -⟩ := close_bounds _ n1 _ hc1 (by norm_num) ht0
  have hn1pos : 0 < n1 := lt_of_lt_of_le (by linarith) hn1l
  have hsub : sub binary32 (.num false ((m0 : ℚ) + 1)) (.num false p) = .num false n1 := by
    simp only [sub, neg, add, val, Bool.not_false, if_true, Bool.false_eq_true, if_false]
    rw [← sub_eq_add_neg, if_neg (by linarith)]
    unfold ofRat
    rw [abs_of_nonneg ht0, decide_eq_false (not_lt.2 ht0)]
    exact hn1
  rw [hsub]
  obtain ⟨n2, hn2, hc2, h20, -⟩ := round_close binary32 (Or.inl rfl) (0 + 2) n1
    ((m0 : ℚ) + 1 - p) 16 hc1 (by norm_num) (by norm_num)
    (Or.inr (le_trans (by norm_num) hgap)) (by linarith) roundMag_sixteen false
  have hadd : add binary32 (.num false n1) (.num false 0) = .num false n2 := by
    simp only [add, val, Bool.false_eq_true, if_false, add_zero]
    rw [if_neg (ne_of_gt hn1pos)]
    unfold ofRat
    rw [abs_of_pos hn1pos, decide_eq_false (not_lt.2 (le_of_lt hn1pos))]
    exact hn2
  rw [hadd]
  have hc3 := close_div _ n2 _ m hc2 hmpos
  have hT : ((m0 : ℚ) + 1 - p) / m = ((m0 : ℚ) + 1 - p) * (1 / m) := by ring
  have hTl : 1 / 2 ^ 125 ≤ ((m0 : ℚ) + 1 - p) / m := by
    rw [hT]
    calc (1 : ℚ) / 2 ^ 125 ≤ 1 / 8388608 * (1 / 2 ^ 100) := by norm_num
      _ ≤ ((m0 : ℚ) + 1 - p) * (1 / m) := mul_le_mul hgap hl (by norm_num) ht0
  have hTu : ((m0 : ℚ) + 1 - p) / m ≤ 7 * 2 ^ 100 := by
    rw [hT]
    have h7 : (m0 : ℚ) + 1 - p ≤ 7 := by linarith
    have h70 : (0 : ℚ) ≤ 7 := by norm_num
    have hD0 : (0 : ℚ) ≤ 1 / m := by positivity
    exact mul_le_mul h7 hu hD0 h70
  obtain ⟨a, ha, hca, -, -⟩ := round_close binary32 (Or.inl rfl) _ (n2 / m) _ (2 ^ 105)
    hc3 (by norm_num) (by norm_num) (Or.inr hTl) (by linarith) roundMag_pow2_105 false
  refine ⟨a, ?_, by norm_num at hca ⊢; exact hca⟩
  simp only [div, if_neg (ne_of_gt hmpos)]
  exact ha

/-! ### Differences that binary32 represents exactly -/

theorem pow2_of_nonneg (e : Int) (h : 0 ≤ e) : pow2 e = ((2 ^ e.toNat : Nat) : ℚ) := by
  unfold pow2
  rw [if_pos h]

theorem floorLog2_nonneg (x : ℚ) (h : 1 ≤ x) : 0 ≤ floorLog2 x := by
  have h2 := (floorLog2_spec x (by linarith)).2
  have h1 : pow2 0 < pow2 (floorLog2 x + 1) := by
    have e : pow2 0 = 1 := by decide!
    rw [e]
    linarith
  have := (pow2_lt_pow2_iff _ _).1 h1
  omega

theorem floorLog2_lt_three (x : ℚ) (h0 : 0 < x) (h : x < 8) : floorLog2 x < 3 := by
  have h1 := (floorLog2_spec x h0).1
  have h2 : pow2 (floorLog2 x) < pow2 3 := by
    have e : pow2 3 = 8 := by decide!
    rw [e]
    linarith
  exact (pow2_lt_pow2_iff _ _).1 h2

/-- A magnitude of at least 1 that is an integer multiple of the spacing of
its binade rounds to itself. -/
theorem roundMag_of_multiple (x : ℚ) (Z : Int) (h1 : 1 ≤ x) (h8 : x < 8)
    (hZ : x = (Z : ℚ) * pow2 (floorLog2 x - 23)) : roundMag binary32 x = some x := by
  have hpos : 0 < x := by linarith
  have hfl := floorLog2_nonneg x h1
  unfold roundMag
  rw [if_neg (ne_of_gt hpos)]
  have hmax : max (floorLog2 x) binary32.emin = floorLog2 x := by
    apply max_eq_left
    have : binary32.emin = -126 := rfl
    omega
  have hprec : ((binary32.prec : Nat) : Int) - 1 = 23 := rfl
  simp only [hmax, hprec]
  have hq : 0 < pow2 (floorLog2 x - 23) := pow2_pos _
  have hdiv : x / pow2 (floorLog2 x - 23) = (Z : ℚ) := by
    rw [div_eq_iff (ne_of_gt hq)]
    exact hZ
  rw [hdiv, roundHalfEven_intCast, ← hZ]
  have hov : x < pow2 (binary32.emax + 1) := by
    have : (8 : ℚ) ≤ pow2 (binary32.emax + 1) := by decide!
    linarith
  rw [if_pos hov]

/-- A `float` of magnitude at least 1 is an integer multiple of the spacing of
its binade. -/
theorem float_multiple_binade (p : ℚ) (hf : IsFloat (.num false p)) (hp : 1 ≤ p) :
    ∃ R : Int, p = (R : ℚ) * pow2 (floorLog2 p - 23) := by
  obtain ⟨-, hr⟩ := hf
  have hpos : 0 < p := by linarith
  have hfl := floorLog2_nonneg p hp
  unfold roundMag at hr
  rw [if_neg (ne_of_gt hpos)] at hr
  have hmax : max (floorLog2 p) binary32.emin = floorLog2 p := by
    apply max_eq_left
    have : binary32.emin = -126 := rfl
    omega
  have hprec : ((binary32.prec : Nat) : Int) - 1 = 23 := rfl
  simp only [hmax, hprec] at hr
  split_ifs at hr with hov
  exact ⟨_, (Option.some.inj hr).symm⟩

/-- The difference of a `float` below 8 and an integer that leaves at least 1
is a `float`: the subtraction is exact. -/
theorem float_sub_int (p : ℚ) (K : Int) (hf : IsFloat (.num false p)) (hK : 0 ≤ K)
    (h1 : 1 ≤ p - (K : ℚ)) (h8 : p < 8) : roundMag binary32 (p - (K : ℚ)) = some (p - (K : ℚ)) := by
  have hKq : (0 : ℚ) ≤ (K : ℚ) := by exact_mod_cast hK
  have hp1 : 1 ≤ p := by linarith
  obtain ⟨R, hR⟩ := float_multiple_binade p hf hp1
  have hx0 : 0 < p - (K : ℚ) := by linarith
  have he0 := floorLog2_nonneg _ h1
  have he3 := floorLog2_lt_three _ hx0 (by linarith)
  have hep := floorLog2_mono (p - (K : ℚ)) p hx0 (by linarith)
  have hep3 := floorLog2_lt_three p (by linarith) h8
  obtain ⟨e, he⟩ : ∃ e, e = floorLog2 (p - (K : ℚ)) := ⟨_, rfl⟩
  rw [← he] at he0 he3 hep
  have key : ∃ Z : Int, p - (K : ℚ) = (Z : ℚ) * pow2 (e - 23) := by
    refine ⟨R * ((2 ^ (floorLog2 p - e).toNat : Nat) : Int) -
      K * ((2 ^ (23 - e).toNat : Nat) : Int), ?_⟩
    have e1 : pow2 (floorLog2 p - 23) = pow2 (floorLog2 p - e) * pow2 (e - 23) := by
      rw [← pow2_add]
      congr 1
      ring
    have e2 : (1 : ℚ) = pow2 (23 - e) * pow2 (e - 23) := by
      rw [← pow2_add]
      have : (23 - e + (e - 23) : Int) = 0 := by ring
      rw [this]
      decide!
    have e3 := pow2_of_nonneg (floorLog2 p - e) (by omega)
    have e4 := pow2_of_nonneg (23 - e) (by omega)
    push_cast at e3 e4 ⊢
    rw [← e3, ← e4]
    calc p - (K : ℚ) = (R : ℚ) * pow2 (floorLog2 p - 23) - (K : ℚ) * 1 := by rw [← hR]; ring
      _ = (R : ℚ) * (pow2 (floorLog2 p - e) * pow2 (e - 23)) -
          (K : ℚ) * (pow2 (23 - e) * pow2 (e - 23)) := by rw [← e1, ← e2]
      _ = ((R : ℚ) * pow2 (floorLog2 p - e) - (K : ℚ) * pow2 (23 - e)) * pow2 (e - 23) := by ring
  obtain ⟨Z, hZ⟩ := key
  rw [he] at hZ
  exact roundMag_of_multiple _ Z h1 (by linarith) hZ

/-- The closed form of `perpWallDist` along an axis with step `-1`: it is the
exact ray parameter of the grid line that was crossed last, up to rounding. -/
theorem perp_close_neg (m p : ℚ) (i m0 : Int) (hm : 1 / 2 ^ 100 ≤ m ∧ m ≤ 2 ^ 100)
    (hf : IsFloat (.num false p)) (hip : (i : ℚ) ≤ p) (hpi : p < (i : ℚ) + 1)
    (hm0 : 1 ≤ m0 ∧ m0 ≤ 6) (hk0 : m0 ≤ i) (hi6 : i ≤ 6) :
    ∃ t a, div binary32
        (add binary32 (sub binary32 (ofInt binary32 (m0 + -1)) (.num false p))
          (div binary32 (sub binary32 (ofInt binary32 1) (ofInt binary32 (-1)))
            (ofInt binary32 2)))
        (.num true m) = .num t a ∧
      Close 4 (val t a) ((p - (m0 : ℚ)) / m) := by
  obtain ⟨hmpos, hl, hu⟩ := one_div_mid m hm.1 hm.2
  rw [half_one_sub_neg_one, ofInt_small (m0 + -1) ⟨by omega, by omega⟩]
  have hiq : (m0 : ℚ) ≤ (i : ℚ) := by exact_mod_cast hk0
  have hi6q : (i : ℚ) ≤ 6 := by exact_mod_cast hi6
  have hm1q : (1 : ℚ) ≤ (m0 : ℚ) := by exact_mod_cast hm0.1
  have hp1 : (1 : ℚ) ≤ p := by linarith
  have hD0 : (0 : ℚ) ≤ 1 / m := by positivity
  -- the subtraction `mapX - position` is exact
  have hn1 := float_sub_int p (m0 + -1) hf (by omega) (by push_cast; linarith) (by linarith)
  have hsub : sub binary32 (.num false ((m0 + -1 : Int) : ℚ)) (.num false p) =
      .num true (p - ((m0 + -1 : Int) : ℚ)) := by
    simp only [sub, neg, add, val, Bool.not_false, if_true, Bool.false_eq_true, if_false]
    have hv : ((m0 + -1 : Int) : ℚ) + -p < 0 := by push_cast; linarith
    rw [if_neg (ne_of_lt hv)]
    unfold ofRat round
    have e : |((m0 + -1 : Int) : ℚ) + -p| = p - ((m0 + -1 : Int) : ℚ) := by
      rw [abs_of_neg hv]
      ring
    rw [e, hn1, decide_eq_true hv]
  rw [hsub]
  have hval : -(p - ((m0 + -1 : Int) : ℚ)) + 1 = -(p - (m0 : ℚ)) := by
    push_cast
    ring
  have ht0 : 0 ≤ p - (m0 : ℚ) := by linarith
  by_cases hz : p - (m0 : ℚ) = 0
  · -- the numerator is zero
    refine ⟨true, 0, ?_, ?_⟩
    · have hadd : add binary32 (.num true (p - ((m0 + -1 : Int) : ℚ))) (.num false 1) =
          .num false 0 := by
        simp only [add, val, if_true, Bool.false_eq_true, if_false]
        rw [hval, hz, neg_zero, if_pos rfl]
        rfl
      rw [hadd]
      simp only [div, if_neg (ne_of_gt hmpos), zero_div]
      simp [round, roundMag]
    · rw [hz, zero_div, val_true, neg_zero]
      exact close_refl _ _ (by norm_num) le_rfl
  · have htpos : 0 < p - (m0 : ℚ) := lt_of_le_of_ne ht0 (Ne.symm hz)
    have hgap : 1 / 8388608 ≤ p - (m0 : ℚ) := float_gap_above false p m0 hf hp1 (by linarith)
    obtain ⟨n2, hn2, hc2, h20, -⟩ := round_close binary32 (Or.inl rfl) 0 (p - (m0 : ℚ))
      (p - (m0 : ℚ)) 16 (close_refl 0 _ le_rfl ht0) le_rfl (by norm_num)
      (Or.inr (le_trans (by norm_num) hgap)) (by linarith) roundMag_sixteen true
    have hadd : add binary32 (.num true (p - ((m0 + -1 : Int) : ℚ))) (.num false 1) =
        .num true n2 := by
      simp only [add, val, if_true, Bool.false_eq_true, if_false]
      rw [hval]
      have hv : -(p - (m0 : ℚ)) < 0 := by linarith
      rw [if_neg (ne_of_lt hv)]
      unfold ofRat
      rw [abs_neg, abs_of_pos htpos, decide_eq_true hv]
      exact hn2
    rw [hadd]
    have hc3 := close_div _ n2 _ m hc2 hmpos
    have hT : (p - (m0 : ℚ)) / m = (p - (m0 : ℚ)) * (1 / m) := by ring
    have hTl : 1 / 2 ^ 125 ≤ (p - (m0 : ℚ)) / m := by
      rw [hT]
      calc (1 : ℚ) / 2 ^ 125 ≤ 1 / 8388608 * (1 / 2 ^ 100) := by norm_num
        _ ≤ (p - (m0 : ℚ)) * (1 / m) := mul_le_mul hgap hl (by norm_num) ht0
    have hTu : (p - (m0 : ℚ)) / m ≤ 7 * 2 ^ 100 := by
      rw [hT]
      have h7 : p - (m0 : ℚ) ≤ 7 := by linarith
      have h70 : (0 : ℚ) ≤ 7 := by norm_num
      exact mul_le_mul h7 hu hD0 h70
    obtain ⟨a, ha, hca, -, -⟩ := round_close binary32 (Or.inl rfl) _ (n2 / m) _ (2 ^ 105)
      hc3 (by norm_num) (by norm_num) (Or.inr hTl) (by linarith) roundMag_pow2_105 false
    refine ⟨false, a, ?_, by rw [val_false]; norm_num at hca ⊢; exact hca⟩
    simp only [div, if_neg (ne_of_gt hmpos)]
    exact ha

theorem lineDist_step (r : Fp) (p : ℚ) (i m : Int) :
    lineDist r p i (m + (if lt r (ofInt binary32 0) then -1 else 1)) =
      lineDist r p i m + 1 / mag r := by
  unfold lineDist
  rw [stepsTo_step]
  push_cast
  ring

theorem lineDist_nonneg (r : Fp) (p : ℚ) (i m : Int) (hr : MidComponent r)
    (hf0 : 0 ≤ frac r p i) (hk : 0 ≤ stepsTo r i m) : 0 ≤ lineDist r p i m := by
  obtain ⟨hm, -⟩ := mag_mid r hr
  have hkq : (0 : ℚ) ≤ (stepsTo r i m : ℚ) := by exact_mod_cast hk
  unfold lineDist
  exact div_nonneg (by linarith) (le_of_lt hm)

/-- The closed form of `perpWallDist` after a step from the map coordinate
`m0`: it is the exact ray parameter of the grid line that was crossed, up to
rounding. -/
theorem perp_close (r : Fp) (p : ℚ) (i m0 : Int) (hr : MidComponent r)
    (hf : IsFloat (.num false p)) (hp1 : 1 ≤ p) (hi : 1 ≤ i ∧ i ≤ 6) (hip : (i : ℚ) ≤ p)
    (hpi : p < (i : ℚ) + 1) (hm0 : 1 ≤ m0 ∧ m0 ≤ 6) (hk0 : 0 ≤ stepsTo r i m0) :
    ∃ t a, div binary32
        (add binary32
          (sub binary32 (ofInt binary32 (m0 + (if lt r (ofInt binary32 0) then -1 else 1)))
            (.num false p))
          (div binary32
            (sub binary32 (ofInt binary32 1)
              (if lt r (ofInt binary32 0) then ofInt binary32 (-1) else ofInt binary32 1))
            (ofInt binary32 2)))
        r = .num t a ∧
      Close 6 (val t a) (lineDist r p i m0) := by
  cases r with
  | num s m =>
    obtain ⟨hm1, hm2⟩ := hr
    obtain ⟨hmpos, -, -⟩ := one_div_mid m hm1 hm2
    have hlt := lt_zero_of_mid s m hmpos
    unfold lineDist frac stepsTo at *
    rw [hlt] at hk0 ⊢
    cases s
    · simp only [Bool.false_eq_true, if_false, mag] at hk0 ⊢
      obtain ⟨a, ha, hca⟩ := perp_close_pos m p i m0 ⟨hm1, hm2⟩ hf hp1 hpi hm0 (by omega)
      refine ⟨false, a, ha, ?_⟩
      have e : ((i : ℚ) + 1 - p + ((m0 - i : Int) : ℚ)) / m = ((m0 : ℚ) + 1 - p) / m := by
        push_cast
        ring
      rw [e, val_false]
      exact hca
    · simp only [if_true, mag] at hk0 ⊢
      obtain ⟨t, a, ha, hca⟩ := perp_close_neg m p i m0 ⟨hm1, hm2⟩ hf hip hpi hm0 (by omega) hi.2
      refine ⟨t, a, ha, ?_⟩
      have e : (p - (i : ℚ) + ((i - m0 : Int) : ℚ)) / m = (p - (m0 : ℚ)) / m := by
        push_cast
        ring
      rw [e]
      have hT0 : 0 ≤ (p - (m0 : ℚ)) / m := by
        have hiq : (m0 : ℚ) ≤ (i : ℚ) := by exact_mod_cast (show m0 ≤ i by omega)
        exact div_nonneg (by linarith) (le_of_lt hmpos)
      exact close_mono _ _ _ _ hca (by norm_num) hT0
  | inf s => exact absurd hr id
  | nan => exact absurd hr id

/-- The closed form and the accumulator: if the accumulator is close to
`T + D`, `deltaDist` to `D` and the closed form to `T`, then the closed form
is the accumulator minus `deltaDist` up to `2^-19` of the accumulator. -/
theorem perp_near_acc (T D b d pv c : ℚ) (hc : c ≤ 21) (hT : 0 ≤ T) (hD : 0 ≤ D)
    (hb : Close c b (T + D)) (hd : Close 2 d D) (hp : Close 6 pv T) :
    |pv - (b - d)| ≤ b / 2 ^ 19 := by
  have hb' := close_mono c 21 b (T + D) hb hc (by linarith)
  unfold Close at hb' hd hp
  rw [abs_le] at hb' hd hp ⊢
  constructor <;> linarith

/-! ### The error invariant of a run -/

theorem stepsTo_le (r : Fp) (i m : Int) (hi : 1 ≤ i ∧ i ≤ 6) (hm : 1 ≤ m ∧ m ≤ 6) :
    stepsTo r i m ≤ 5 := by
  unfold stepsTo
  split <;> omega

/-- What the accumulator invariant gives at an interior cell: the side
distance is within 21 units of `2^-24` of the exact distance, which is not
negative. -/
theorem accInv_bounds (r : Fp) (p : ℚ) (i m : Int) (sd : Fp) (hr : MidComponent r)
    (hf0 : 0 ≤ frac r p i) (hi : 1 ≤ i ∧ i ≤ 6) (hm : 1 ≤ m ∧ m ≤ 6)
    (h : AccInv r p i sd m) :
    ∃ b, sd = .num false b ∧ 0 ≤ lineDist r p i m ∧
      lineDist r p i m - 21 * lineDist r p i m / 2 ^ 24 ≤ b ∧
      b ≤ lineDist r p i m + 21 * lineDist r p i m / 2 ^ 24 ∧ 0 < 1 / mag r := by
  obtain ⟨hk0, b, hb, hc⟩ := h
  have hk5 := stepsTo_le r i m hi hm
  have hkq : (stepsTo r i m : ℚ) ≤ 5 := by exact_mod_cast hk5
  have hT0 := lineDist_nonneg r p i m hr hf0 hk0
  have hc' := close_mono _ 21 b _ hc (by linarith) hT0
  unfold Close at hc'
  rw [abs_le] at hc'
  obtain ⟨hm0, hl, -⟩ := mag_mid r hr
  exact ⟨b, hb, hT0, by linarith, by linarith, lt_of_lt_of_le (by norm_num) hl⟩

/-- The error invariant holds on entry to the loop. -/
theorem errInv_init (rayDir : Vector2 Fp) (p q : ℚ) (i j : Int)
    (hfx : IsFloat (.num false p)) (hfy : IsFloat (.num false q))
    (hi : 1 ≤ i ∧ i ≤ 6) (hj : 1 ≤ j ∧ j ≤ 6) (hp1 : 1 ≤ p) (hq1 : 1 ≤ q)
    (hip : (i : ℚ) ≤ p) (hpi : p < (i : ℚ) + 1) (hjq : (j : ℚ) ≤ q) (hqj : q < (j : ℚ) + 1) :
    ErrInv rayDir p q i j
      { sideDistX := sideDistInit rayDir.x (.num false p) (deltaDist rayDir).x i
        sideDistY := sideDistInit rayDir.y (.num false q) (deltaDist rayDir).y j
        mapX := i
        mapY := j
        side := 0 } := by
  refine ⟨fun hmx => accInv_init rayDir.x p i hmx hfx hp1 hi hip hpi,
    fun hmy => accInv_init rayDir.y q j hmy hfy hq1 hj hjq hqj, ?_⟩
  intro hmx hmy
  obtain ⟨-, hx0, hx1⟩ := frac_bounds rayDir.x p i hfx hp1 hip hpi
  obtain ⟨-, hy0, hy1⟩ := frac_bounds rayDir.y q j hfy hq1 hjq hqj
  obtain ⟨hmxpos, -⟩ := mag_mid rayDir.x hmx
  obtain ⟨hmypos, -⟩ := mag_mid rayDir.y hmy
  have hTX := lineDist_nonneg rayDir.x p i i hmx hx0 (by rw [stepsTo_self])
  have hTY := lineDist_nonneg rayDir.y q j j hmy hy0 (by rw [stepsTo_self])
  have hpx : lineDist rayDir.x p i i - 1 / mag rayDir.x ≤ 0 := by
    unfold lineDist
    rw [stepsTo_self, ← sub_div]
    apply div_nonpos_of_nonpos_of_nonneg _ (le_of_lt hmxpos)
    push_cast
    linarith
  have hpy : lineDist rayDir.y q j j - 1 / mag rayDir.y ≤ 0 := by
    unfold lineDist
    rw [stepsTo_self, ← sub_div]
    apply div_nonpos_of_nonpos_of_nonneg _ (le_of_lt hmypos)
    push_cast
    linarith
  constructor
  · show lineDist rayDir.x p i i - 1 / mag rayDir.x ≤ lineDist rayDir.y q j j * (1 + 1 / 2 ^ 18)
    have : 0 ≤ lineDist rayDir.y q j j * (1 + 1 / 2 ^ 18) := mul_nonneg hTY (by norm_num)
    linarith
  · show lineDist rayDir.y q j j - 1 / mag rayDir.y ≤ lineDist rayDir.x p i i * (1 + 1 / 2 ^ 18)
    have : 0 ≤ lineDist rayDir.x p i i * (1 + 1 / 2 ^ 18) := mul_nonneg hTX (by norm_num)
    linarith

/-- What the comparison `sideDist.x < sideDist.y` says of the exact distances
to the next grid lines. -/
theorem lineDist_order (rayDir : Vector2 Fp) (p q : ℚ) (i j : Int) (s : DDAState)
    (hs : Interior s) (hi : 1 ≤ i ∧ i ≤ 6) (hj : 1 ≤ j ∧ j ≤ 6)
    (hfx0 : 0 ≤ frac rayDir.x p i) (hfy0 : 0 ≤ frac rayDir.y q j)
    (hmx : MidComponent rayDir.x) (hmy : MidComponent rayDir.y)
    (hax : AccInv rayDir.x p i s.sideDistX s.mapX) (hay : AccInv rayDir.y q j s.sideDistY s.mapY) :
    (lt s.sideDistX s.sideDistY = true →
      lineDist rayDir.x p i s.mapX ≤ lineDist rayDir.y q j s.mapY * (1 + 1 / 2 ^ 18)) ∧
    (lt s.sideDistX s.sideDistY = false →
      lineDist rayDir.y q j s.mapY ≤ lineDist rayDir.x p i s.mapX * (1 + 1 / 2 ^ 18)) := by
  obtain ⟨bx, hbx, hTX, hxl, hxu, -⟩ := accInv_bounds rayDir.x p i s.mapX s.sideDistX hmx hfx0 hi
    hs.1 hax
  obtain ⟨by', hby, hTY, hyl, hyu, -⟩ := accInv_bounds rayDir.y q j s.mapY s.sideDistY hmy hfy0 hj
    hs.2 hay
  rw [hbx, hby]
  constructor
  · intro hlt
    have h : bx < by' := by simpa [lt, val] using hlt
    linarith
  · intro hlt
    have h : by' ≤ bx := by simpa [lt, val] using hlt
    linarith

/-- One run of the loop body keeps the error invariant. -/
theorem errInv_step (rayDir : Vector2 Fp) (p q : ℚ) (i j : Int) (s s1 : DDAState)
    (hs : Interior s) (hi : 1 ≤ i ∧ i ≤ 6) (hj : 1 ≤ j ∧ j ≤ 6)
    (hfx0 : 0 ≤ frac rayDir.x p i) (hfx1 : frac rayDir.x p i ≤ 1)
    (hfy0 : 0 ≤ frac rayDir.y q j) (hfy1 : frac rayDir.y q j ≤ 1)
    (h : ErrInv rayDir p q i j s)
    (hs1 : ddaStep (deltaDist rayDir) (stepOf rayDir) s = some s1) :
    ErrInv rayDir p q i j s1 := by
  obtain ⟨hax, hay, hord⟩ := h
  have hkx := stepsTo_le rayDir.x i s.mapX hi hs.1
  have hky := stepsTo_le rayDir.y j s.mapY hj hs.2
  obtain ⟨⟨hx1, hx6⟩, hy1, hy6⟩ := hs
  cases hlt : lt s.sideDistX s.sideDistY
  · rw [ddaStep_of_not_lt_float rayDir s ⟨by omega, by omega⟩ hlt] at hs1
    have := Option.some.inj hs1
    subst this
    refine ⟨hax, fun hmy => ?_, fun hmx hmy => ?_⟩
    · exact accInv_step rayDir.y q j s.mapY s.sideDistY hmy hfy0 hfy1 (by omega) (hay hmy)
    · obtain ⟨-, h2⟩ := lineDist_order rayDir p q i j s ⟨⟨hx1, hx6⟩, hy1, hy6⟩ hi hj hfx0 hfy0
        hmx hmy (hax hmx) (hay hmy)
      have h2' := h2 hlt
      obtain ⟨ho1, ho2⟩ := hord hmx hmy
      obtain ⟨-, -, -, -, -, hDy⟩ := accInv_bounds rayDir.y q j s.mapY s.sideDistY hmy hfy0 hj
        ⟨hy1, hy6⟩ (hay hmy)
      constructor
      · show lineDist rayDir.x p i s.mapX - 1 / mag rayDir.x ≤
          lineDist rayDir.y q j (s.mapY + (if lt rayDir.y (ofInt binary32 0) then -1 else 1)) *
            (1 + 1 / 2 ^ 18)
        rw [lineDist_step]
        linarith
      · show lineDist rayDir.y q j (s.mapY + (if lt rayDir.y (ofInt binary32 0) then -1 else 1)) -
          1 / mag rayDir.y ≤ lineDist rayDir.x p i s.mapX * (1 + 1 / 2 ^ 18)
        rw [lineDist_step]
        linarith
  · rw [ddaStep_of_lt_float rayDir s ⟨by omega, by omega⟩ hlt] at hs1
    have := Option.some.inj hs1
    subst this
    refine ⟨fun hmx => ?_, hay, fun hmx hmy => ?_⟩
    · exact accInv_step rayDir.x p i s.mapX s.sideDistX hmx hfx0 hfx1 (by omega) (hax hmx)
    · obtain ⟨h1, -⟩ := lineDist_order rayDir p q i j s ⟨⟨hx1, hx6⟩, hy1, hy6⟩ hi hj hfx0 hfy0
        hmx hmy (hax hmx) (hay hmy)
      have h1' := h1 hlt
      obtain ⟨ho1, ho2⟩ := hord hmx hmy
      obtain ⟨-, -, -, -, -, hDx⟩ := accInv_bounds rayDir.x p i s.mapX s.sideDistX hmx hfx0 hi
        ⟨hx1, hx6⟩ (hax hmx)
      constructor
      · show lineDist rayDir.x p i (s.mapX + (if lt rayDir.x (ofInt binary32 0) then -1 else 1)) -
          1 / mag rayDir.x ≤ lineDist rayDir.y q j s.mapY * (1 + 1 / 2 ^ 18)
        rw [lineDist_step]
        linarith
      · show lineDist rayDir.y q j s.mapY - 1 / mag rayDir.y ≤
          lineDist rayDir.x p i (s.mapX + (if lt rayDir.x (ofInt binary32 0) then -1 else 1)) *
            (1 + 1 / 2 ^ 18)
        rw [lineDist_step]
        linarith

/-- A run that hits a wall reads a wall in the state it stops in, and an empty
cell after each earlier iteration. -/
theorem ddaLoop_cells (dd step : Vector2 Fp) :
    ∀ (fuel iters : Nat) (s r : DDAState) (n : Nat),
      ddaLoop dd step fuel iters s = .hit r n →
      (∃ c, worldMapAt r.mapX r.mapY = some c ∧ 0 < c) ∧
        ∀ k, 1 ≤ k → iters + k < n →
          ∃ sk, ddaIter dd step k s = some sk ∧ worldMapAt sk.mapX sk.mapY = some 0 := by
  intro fuel
  induction fuel with
  | zero =>
    intro iters s r n h
    simp [ddaLoop] at h
  | succ fuel ih =>
    intro iters s r n h
    simp only [ddaLoop] at h
    cases hs1 : ddaStep dd step s with
    | none => simp [hs1] at h
    | some s1 =>
      simp only [hs1] at h
      cases hc : worldMapAt s1.mapX s1.mapY with
      | none => simp [hc] at h
      | some c =>
        simp only [hc] at h
        by_cases hpos : c > 0
        · rw [if_pos hpos] at h
          injection h with h1 h2
          subst h1 h2
          refine ⟨⟨c, hc, hpos⟩, ?_⟩
          intro k hk1 hk
          omega
        · rw [if_neg hpos] at h
          obtain ⟨hwall, hcells⟩ := ih (iters + 1) s1 r n h
          refine ⟨hwall, ?_⟩
          intro k hk1 hk
          have hc0 : c = 0 := by
            rcases worldMapAt_zero_or_one _ _ c hc with h0 | h1
            · exact h0
            · omega
          cases k with
          | zero => omega
          | succ k =>
            cases k with
            | zero => exact ⟨s1, by simp [ddaIter, hs1], by rw [hc, hc0]⟩
            | succ k =>
              obtain ⟨sk, hsk, hck⟩ := hcells (k + 1) (by omega) (by omega)
              exact ⟨sk, by simp only [ddaIter, hs1] at hsk ⊢; exact hsk, hck⟩

/-- A binary32 run from a float position `(p, q)` in an empty cell, with the
error invariant: it hits a wall with any fuel of 16 or more, and the state it
stops in is one step after an interior state that satisfies the run invariant
and the error invariant; the cell read there is a wall and the cells read
before are empty. -/
theorem dda_run_err (rayDir : Vector2 Fp) (p q : ℚ) (i j : Int)
    (hfx : IsFloat (.num false p)) (hfy : IsFloat (.num false q))
    (hi : toInt (.num false p) = some i) (hj : toInt (.num false q) = some j)
    (hcell : worldMapAt i j = some 0) :
    ∃ sInit s0 s1 n, ddaInit ⟨.num false p, .num false q⟩ rayDir = some sInit ∧
      ((i : ℚ) ≤ p ∧ p < (i : ℚ) + 1 ∧ 1 ≤ p) ∧ ((j : ℚ) ≤ q ∧ q < (j : ℚ) + 1 ∧ 1 ≤ q) ∧
      Interior s0 ∧ RunInv rayDir i j s0 ∧ ErrInv rayDir p q i j s0 ∧
      ddaStep (deltaDist rayDir) (stepOf rayDir) s0 = some s1 ∧
      (∀ fuel, 16 ≤ fuel →
        castRay fuel ⟨.num false p, .num false q⟩ rayDir = some (.hit s1 n)) ∧
      ddaLoop (deltaDist rayDir) (stepOf rayDir) 16 0 sInit = .hit s1 n ∧
      (∃ c, worldMapAt s1.mapX s1.mapY = some c ∧ 0 < c) ∧
      ∀ k, 1 ≤ k → k < n → ∃ sk,
        ddaIter (deltaDist rayDir) (stepOf rayDir) k sInit = some sk ∧
          worldMapAt sk.mapX sk.mapY = some 0 := by
  have hint : (1 ≤ i ∧ i ≤ 6) ∧ (1 ≤ j ∧ j ≤ 6) := interior_of_worldMapAt_le i j 0 hcell (le_refl 0)
  obtain ⟨p', hp', hip, hpi, hp1⟩ := position_cases (.num false p) i hfx hi hint.1.1
  obtain ⟨q', hq', hjq, hqj, hq1⟩ := position_cases (.num false q) j hfy hj hint.2.1
  injection hp' with _ hp'
  injection hq' with _ hq'
  subst hp' hq'
  obtain ⟨-, hx0, hx1⟩ := frac_bounds rayDir.x p i hfx hp1 hip hpi
  obtain ⟨-, hy0, hy1⟩ := frac_bounds rayDir.y q j hfy hq1 hjq hqj
  have hdi := ddaInit_eq ⟨.num false p, .num false q⟩ rayDir i j hi hj
  obtain ⟨p2, q2, sInit, s0, s1, n, -, -, -, -, hinit, hs0, hrinv, hinv, hs1, hrun, -, -⟩ :=
    dda_run_float ⟨.num false p, .num false q⟩ rayDir i j hfx hfy hi hj hcell
      (ErrInv rayDir p q i j)
      (fun s s1 hs h hs1 => errInv_step rayDir p q i j s s1 hs hint.1 hint.2 hx0 hx1 hy0 hy1 h hs1)
      (fun _ _ _ _ _ _ _ _ _ _ sInit hsInit _ => by
        rw [hdi] at hsInit
        rw [← Option.some.inj hsInit]
        exact errInv_init rayDir p q i j hfx hfy hint.1 hint.2 hp1 hq1 hip hpi hjq hqj)
  have h16 := hrun 16 (le_refl 16)
  unfold castRay at h16
  rw [hinit] at h16
  have hloop := Option.some.inj h16
  obtain ⟨hwall, hcells⟩ := ddaLoop_cells _ _ 16 0 sInit s1 n hloop
  exact ⟨sInit, s0, s1, n, hinit, ⟨hip, hpi, hp1⟩, ⟨hjq, hqj, hq1⟩, hs0, hrinv, hinv, hs1, hrun,
    hloop, hwall, fun k hk1 hk => hcells k hk1 (by omega)⟩

/-- The closed form and the accumulator after a last step along x. -/
theorem perp_near_acc_x (q : Fp) (rayDir : Vector2 Fp) (p : ℚ) (i : Int) (s0 : DDAState)
    (hf : IsFloat (.num false p)) (hp1 : 1 ≤ p) (hi : 1 ≤ i ∧ i ≤ 6) (hip : (i : ℚ) ≤ p)
    (hpi : p < (i : ℚ) + 1) (hm0 : 1 ≤ s0.mapX ∧ s0.mapX ≤ 6) (hmx : MidComponent rayDir.x)
    (hacc : AccInv rayDir.x p i s0.sideDistX s0.mapX) :
    ∃ t a b d,
      perpWallDist ⟨.num false p, q⟩ rayDir (stepOf rayDir)
        { sideDistX := add binary32 s0.sideDistX (deltaDist rayDir).x
          sideDistY := s0.sideDistY
          mapX := s0.mapX + (if lt rayDir.x (ofInt binary32 0) then -1 else 1)
          mapY := s0.mapY
          side := 0 } = .num t a ∧
      add binary32 s0.sideDistX (deltaDist rayDir).x = .num false b ∧
      (deltaDist rayDir).x = .num false d ∧
      |val t a - (b - d)| ≤ b / 2 ^ 19 ∧
      Close 6 (val t a) (lineDist rayDir.x p i s0.mapX) := by
  obtain ⟨-, hf0, hf1⟩ := frac_bounds rayDir.x p i hf hp1 hip hpi
  have hk5 := stepsTo_le rayDir.x i s0.mapX hi hm0
  obtain ⟨hk1, b, hb, hcb⟩ := accInv_step rayDir.x p i s0.mapX s0.sideDistX hmx hf0 hf1
    (by omega) hacc
  obtain ⟨d, hd, hcd, -⟩ := deltaDist_close rayDir.x hmx
  obtain ⟨t, a, ha, hca⟩ := perp_close rayDir.x p i s0.mapX hmx hf hp1 hi hip hpi hm0 hacc.1
  have hT0 := lineDist_nonneg rayDir.x p i s0.mapX hmx hf0 hacc.1
  obtain ⟨hmpos, -⟩ := mag_mid rayDir.x hmx
  have hD0 : (0 : ℚ) ≤ 1 / mag rayDir.x := by positivity
  rw [lineDist_step, stepsTo_step] at hcb
  have hc21 : 9 + 2 * (((stepsTo rayDir.x i s0.mapX + 1 : Int)) : ℚ) ≤ 21 := by
    have : ((stepsTo rayDir.x i s0.mapX + 1 : Int) : ℚ) ≤ 6 := by
      exact_mod_cast (show stepsTo rayDir.x i s0.mapX + 1 ≤ 6 by omega)
    linarith
  exact ⟨t, a, b, d, ha, hb, hd, perp_near_acc _ _ b d (val t a) _ hc21 hT0 hD0 hcb hcd hca, hca⟩

/-- The closed form and the accumulator after a last step along y. -/
theorem perp_near_acc_y (p : Fp) (rayDir : Vector2 Fp) (q : ℚ) (j : Int) (s0 : DDAState)
    (hf : IsFloat (.num false q)) (hq1 : 1 ≤ q) (hj : 1 ≤ j ∧ j ≤ 6) (hjq : (j : ℚ) ≤ q)
    (hqj : q < (j : ℚ) + 1) (hm0 : 1 ≤ s0.mapY ∧ s0.mapY ≤ 6) (hmy : MidComponent rayDir.y)
    (hacc : AccInv rayDir.y q j s0.sideDistY s0.mapY) :
    ∃ t a b d,
      perpWallDist ⟨p, .num false q⟩ rayDir (stepOf rayDir)
        { sideDistX := s0.sideDistX
          sideDistY := add binary32 s0.sideDistY (deltaDist rayDir).y
          mapX := s0.mapX
          mapY := s0.mapY + (if lt rayDir.y (ofInt binary32 0) then -1 else 1)
          side := 1 } = .num t a ∧
      add binary32 s0.sideDistY (deltaDist rayDir).y = .num false b ∧
      (deltaDist rayDir).y = .num false d ∧
      |val t a - (b - d)| ≤ b / 2 ^ 19 ∧
      Close 6 (val t a) (lineDist rayDir.y q j s0.mapY) := by
  obtain ⟨-, hf0, hf1⟩ := frac_bounds rayDir.y q j hf hq1 hjq hqj
  have hk5 := stepsTo_le rayDir.y j s0.mapY hj hm0
  obtain ⟨hk1, b, hb, hcb⟩ := accInv_step rayDir.y q j s0.mapY s0.sideDistY hmy hf0 hf1
    (by omega) hacc
  obtain ⟨d, hd, hcd, -⟩ := deltaDist_close rayDir.y hmy
  obtain ⟨t, a, ha, hca⟩ := perp_close rayDir.y q j s0.mapY hmy hf hq1 hj hjq hqj hm0 hacc.1
  have hT0 := lineDist_nonneg rayDir.y q j s0.mapY hmy hf0 hacc.1
  obtain ⟨hmpos, -⟩ := mag_mid rayDir.y hmy
  have hD0 : (0 : ℚ) ≤ 1 / mag rayDir.y := by positivity
  rw [lineDist_step, stepsTo_step] at hcb
  have hc21 : 9 + 2 * (((stepsTo rayDir.y j s0.mapY + 1 : Int)) : ℚ) ≤ 21 := by
    have : ((stepsTo rayDir.y j s0.mapY + 1 : Int) : ℚ) ≤ 6 := by
      exact_mod_cast (show stepsTo rayDir.y j s0.mapY + 1 ≤ 6 by omega)
    linarith
  exact ⟨t, a, b, d, ha, hb, hd, perp_near_acc _ _ b d (val t a) _ hc21 hT0 hD0 hcb hcd hca, hca⟩

/-! ### The hit point -/

theorem toRat_step (r : Fp) :
    toRat (if lt r (ofInt binary32 0) then ofInt binary32 (-1) else ofInt binary32 1) =
      if lt r (ofInt binary32 0) then -1 else 1 := by
  have h1 : ofInt binary32 (-1) = .num true 1 := by decide!
  have h2 : ofInt binary32 1 = .num false 1 := by decide!
  cases lt r (ofInt binary32 0)
  · simp only [Bool.false_eq_true, if_false, h2, toRat, val]
  · simp only [if_true, h1, toRat, val]

/-- The coordinate, along the axis of the last step, of the point at the ray
parameter `pv`: when `pv` is the closed form of `perpWallDist` it is within
`2^-18` of the face of the hit cell towards the player. -/
theorem face_coord (r : Fp) (p pv : ℚ) (i m0 : Int) (hr : MidComponent r)
    (hf0 : 0 ≤ frac r p i) (hf1 : frac r p i ≤ 1) (hk0 : 0 ≤ stepsTo r i m0)
    (hk5 : stepsTo r i m0 ≤ 5) (hc : Close 6 pv (lineDist r p i m0)) :
    |p + pv * toRat r -
      (((m0 + (if lt r (ofInt binary32 0) then -1 else 1) : Int) : ℚ) +
        (1 - toRat (if lt r (ofInt binary32 0) then ofInt binary32 (-1)
          else ofInt binary32 1)) / 2)| ≤ 1 / 2 ^ 18 := by
  rw [toRat_step]
  have hkq0 : (0 : ℚ) ≤ (stepsTo r i m0 : ℚ) := by exact_mod_cast hk0
  have hkq5 : (stepsTo r i m0 : ℚ) ≤ 5 := by exact_mod_cast hk5
  cases r with
  | num s m =>
    obtain ⟨hm1, hm2⟩ := hr
    obtain ⟨hmpos, -, -⟩ := one_div_mid m hm1 hm2
    have hlt := lt_zero_of_mid s m hmpos
    unfold Close lineDist at hc
    simp only [mag] at hc
    have hmul : |pv * m - (frac (.num s m) p i + (stepsTo (.num s m) i m0 : ℚ))| ≤
        6 * (frac (.num s m) p i + (stepsTo (.num s m) i m0 : ℚ)) / 2 ^ 24 := by
      have e : pv * m - (frac (.num s m) p i + (stepsTo (.num s m) i m0 : ℚ)) =
          (pv - (frac (.num s m) p i + (stepsTo (.num s m) i m0 : ℚ)) / m) * m := by
        field_simp
      rw [e, abs_mul, abs_of_pos hmpos]
      have := mul_le_mul_of_nonneg_right hc (le_of_lt hmpos)
      refine le_trans this (le_of_eq ?_)
      field_simp
      ring
    simp only [frac, stepsTo, hlt] at hmul hf0 hf1 hkq0 hkq5 ⊢
    rw [abs_le] at hmul ⊢
    cases s
    · simp only [Bool.false_eq_true, if_false, toRat, val] at hmul hf0 hf1 hkq0 hkq5 ⊢
      push_cast at hmul hkq0 hkq5 ⊢
      constructor <;> linarith
    · simp only [if_true, toRat, val] at hmul hf0 hf1 hkq0 hkq5 ⊢
      push_cast at hmul hkq0 hkq5 ⊢
      constructor <;> linarith
  | inf s => exact absurd hr id
  | nan => exact absurd hr id

/-- The coordinate, along the other axis, of the point at the ray parameter
`pv`: when `pv` lies between the parameters of the grid line crossed last and
of the next grid line of that axis, up to 71 units of `2^-24`, the coordinate
is in the row of the current cell up to `2^-15`. -/
theorem cross_coord (r : Fp) (q pv : ℚ) (j m : Int) (hr : MidComponent r)
    (hf0 : 0 ≤ frac r q j) (hf1 : frac r q j ≤ 1) (hk0 : 0 ≤ stepsTo r j m)
    (hk5 : stepsTo r j m ≤ 5)
    (hl : lineDist r q j m - 1 / mag r - 71 * lineDist r q j m / 2 ^ 24 ≤ pv)
    (hu : pv ≤ lineDist r q j m + 71 * lineDist r q j m / 2 ^ 24) :
    (m : ℚ) - 1 / 2 ^ 15 ≤ q + pv * toRat r ∧ q + pv * toRat r ≤ (m : ℚ) + 1 + 1 / 2 ^ 15 := by
  have hkq0 : (0 : ℚ) ≤ (stepsTo r j m : ℚ) := by exact_mod_cast hk0
  have hkq5 : (stepsTo r j m : ℚ) ≤ 5 := by exact_mod_cast hk5
  cases r with
  | num s mm =>
    obtain ⟨hm1, hm2⟩ := hr
    obtain ⟨hmpos, -, -⟩ := one_div_mid mm hm1 hm2
    have hlt := lt_zero_of_mid s mm hmpos
    unfold lineDist at hl hu
    simp only [mag] at hl hu
    have hl' : frac (.num s mm) q j + (stepsTo (.num s mm) j m : ℚ) - 1 -
        71 * (frac (.num s mm) q j + (stepsTo (.num s mm) j m : ℚ)) / 2 ^ 24 ≤ pv * mm := by
      have := mul_le_mul_of_nonneg_right hl (le_of_lt hmpos)
      refine le_trans (le_of_eq ?_) this
      field_simp
      ring
    have hu' : pv * mm ≤ frac (.num s mm) q j + (stepsTo (.num s mm) j m : ℚ) +
        71 * (frac (.num s mm) q j + (stepsTo (.num s mm) j m : ℚ)) / 2 ^ 24 := by
      have := mul_le_mul_of_nonneg_right hu (le_of_lt hmpos)
      refine le_trans this (le_of_eq ?_)
      field_simp
      ring
    simp only [frac, stepsTo, hlt] at hl' hu' hf0 hf1 hkq0 hkq5
    cases s
    · simp only [Bool.false_eq_true, if_false, toRat, val] at hl' hu' hf0 hf1 hkq0 hkq5 ⊢
      push_cast at hl' hu' hkq0 hkq5
      constructor <;> linarith
    · simp only [if_true, toRat, val] at hl' hu' hf0 hf1 hkq0 hkq5 ⊢
      push_cast at hl' hu' hkq0 hkq5
      constructor <;> linarith
  | inf s => exact absurd hr id
  | nan => exact absurd hr id

/-- The closed form lies between the parameters of the two grid lines of the
other axis that bound the current cell, up to 71 units of `2^-24`. -/
theorem perp_between (pv T TY D : ℚ) (hc : Close 6 pv T) (hTY : 0 ≤ TY)
    (h1 : T ≤ TY * (1 + 1 / 2 ^ 18)) (h2 : TY - D ≤ T * (1 + 1 / 2 ^ 18)) :
    TY - D - 71 * TY / 2 ^ 24 ≤ pv ∧ pv ≤ TY + 71 * TY / 2 ^ 24 := by
  unfold Close at hc
  rw [abs_le] at hc
  constructor <;> linarith

/-! ### Inputs on which binary32 arithmetic departs from exact arithmetic -/

/-- The `float` nearest to `0.66`. -/
theorem float_066 : ofRat binary32 (33 / 50) = .num false (11072963 / 16777216) := by decide!

/-- The scenario of the program in binary32 (position `(3.5, 3.5)`, direction
`(-1, 0)`, camera plane `(0, 0.66f)`, screen 800 x 600, column 400):
`cameraX = 0`, the ray is `(-1, +0)`, the loop stops after 3 iterations at
`[0][3]` with `side = 0`, `perpWallDist = 2.5` and `lineHeight = 240`, the
values of exact arithmetic. -/
theorem scenario_center_column_float :
    cameraX 800 400 = .num false 0 ∧
    rayDirection ⟨ofInt binary32 (-1), ofInt binary32 0⟩
        ⟨ofInt binary32 0, ofRat binary32 (33 / 50)⟩ (cameraX 800 400) =
      ⟨.num true 1, .num false 0⟩ ∧
    castRay 16 ⟨.num false (7 / 2), .num false (7 / 2)⟩ ⟨.num true 1, .num false 0⟩ =
      some (.hit ⟨.num false (7 / 2), .inf false, 0, 3, 0⟩ 3) ∧
    perpWallDist ⟨.num false (7 / 2), .num false (7 / 2)⟩ ⟨.num true 1, .num false 0⟩
        (stepOf ⟨.num true 1, .num false 0⟩) ⟨.num false (7 / 2), .inf false, 0, 3, 0⟩ =
      .num false (5 / 2) ∧
    lineHeight 600 (.num false (5 / 2)) = some 240 := by
  refine ⟨by decide!, by decide!, by decide!, by decide!, by decide!⟩

/-- Why the amended C3 asks for more than a position off the grid lines: in
binary32, from `(3.5, 3.5)` the ray `(+0, -0.0)` walks along `+y` (the test
`-0.0 < 0` is false) to the border cell `[3][7]` and `perpWallDist` is
`3.5 / -0.0 = -∞`; and from `(2 - 2^-23, 2.5)` the ray `(2^127, 0)` hits the
wall `[2][2]` with `perpWallDist = 2^-23 / 2^127`, which underflows to `+0`.
On the grid line, from `(1, 1.5)` with ray `(-1, 0)`, the binary32 value is
`-0.0`. -/
theorem perpWallDist_not_pos_float :
    (castRay 16 ⟨.num false (7 / 2), .num false (7 / 2)⟩ ⟨.num false 0, .num true 0⟩ =
        some (.hit ⟨.inf false, .inf false, 3, 7, 1⟩ 4) ∧
      perpWallDist ⟨.num false (7 / 2), .num false (7 / 2)⟩ ⟨.num false 0, .num true 0⟩
        (stepOf ⟨.num false 0, .num true 0⟩) ⟨.inf false, .inf false, 3, 7, 1⟩ = .inf true) ∧
    (IsFloat (.num false (16777215 / 8388608)) ∧ IsFloat (.num false (2 ^ 127)) ∧
      toInt (.num false (16777215 / 8388608)) = some 1 ∧ worldMapAt 1 2 = some 0 ∧
      castRay 16 ⟨.num false (16777215 / 8388608), .num false (5 / 2)⟩
          ⟨.num false (2 ^ 127), .num false 0⟩ =
        some (.hit ⟨.num false (1 / 2 ^ 127), .inf false, 2, 2, 0⟩ 1) ∧
      perpWallDist ⟨.num false (16777215 / 8388608), .num false (5 / 2)⟩
        ⟨.num false (2 ^ 127), .num false 0⟩ (stepOf ⟨.num false (2 ^ 127), .num false 0⟩)
        ⟨.num false (1 / 2 ^ 127), .inf false, 2, 2, 0⟩ = .num false 0) ∧
    (castRay 16 ⟨.num false 1, .num false (3 / 2)⟩ ⟨.num true 1, .num false 0⟩ =
        some (.hit ⟨.num false 1, .inf false, 0, 1, 0⟩ 1) ∧
      perpWallDist ⟨.num false 1, .num false (3 / 2)⟩ ⟨.num true 1, .num false 0⟩
        (stepOf ⟨.num true 1, .num false 0⟩) ⟨.num false 1, .inf false, 0, 1, 0⟩ = .num true 0) := by
  refine ⟨⟨by decide!, by decide!⟩, ⟨by decide!, by decide!, by decide!, by decide!, by decide!,
    by decide!⟩, by decide!, by decide!⟩

/-- C11, as stated, fails in binary32.  From `(1.5, 1.5)` in the empty cell
`[1][1]`, the ray `(1.2e-38f, 0)` has `rayDirection.y == 0` and
`rayDirection.x != 0`, but `sideDist.x` overflows to `+∞` after four steps
along x, the fifth iteration advances `mapY`, and the loop stops at `[5][2]`
with `side == 1`.  From the same position the ray `(0, 2^-130)` stops with
`side == 1` and `mapX == 1`, but its `perpWallDist` is `+∞`, not finite. -/
theorem zero_component_overflow :
    toInt (.num false (3 / 2)) = some 1 ∧ worldMapAt 1 1 = some 0 ∧
    ofRat binary32 (12 / 10 ^ 39) = .num false (4281743 / 2 ^ 148) ∧
    castRay 16 ⟨.num false (3 / 2), .num false (3 / 2)⟩
        ⟨.num false (4281743 / 2 ^ 148), .num false 0⟩ =
      some (.hit ⟨.inf false, .inf false, 5, 2, 1⟩ 5) ∧
    IsFloat (.num false (1 / 2 ^ 130)) ∧
    castRay 16 ⟨.num false (3 / 2), .num false (3 / 2)⟩
        ⟨.num false 0, .num false (1 / 2 ^ 130)⟩ =
      some (.hit ⟨.inf false, .inf false, 1, 7, 1⟩ 6) ∧
    perpWallDist ⟨.num false (3 / 2), .num false (3 / 2)⟩
        ⟨.num false 0, .num false (1 / 2 ^ 130)⟩
        (stepOf ⟨.num false 0, .num false (1 / 2 ^ 130)⟩)
        ⟨.inf false, .inf false, 1, 7, 1⟩ = .inf false := by
  refine ⟨by decide!, by decide!, by decide!, by decide!, by decide!, by decide!, by decide!⟩

/-- C14, as stated, fails in binary32.  In the scenario of the program
(position `(3.5, 3.5)`, direction `(-1, 0)`, camera plane `(0, 0.66f)`, 800
columns) the ray of column 0 is `(-1, -0.66f)`; it stops at the wall `[2][2]`
with `side == 1` and `perpWallDist = 3177503 / 2^22`, and the y-coordinate of
`position + perpWallDist * rayDirection` is `2.99999998…`, not the face
`mapY + (1 - step.y) / 2 = 3`. -/
theorem hit_point_off_wall_face_float :
    rayDirection ⟨ofInt binary32 (-1), ofInt binary32 0⟩
        ⟨ofInt binary32 0, ofRat binary32 (33 / 50)⟩ (cameraX 800 0) =
      ⟨.num true 1, .num true (11072963 / 16777216)⟩ ∧
    toInt (.num false (7 / 2)) = some 3 ∧ worldMapAt 3 3 = some 0 ∧
    castRay 16 ⟨.num false (7 / 2), .num false (7 / 2)⟩
        ⟨.num true 1, .num true (11072963 / 16777216)⟩ =
      some (.hit ⟨.num false (3 / 2), .num false (9532509 / 4194304), 2, 2, 1⟩ 2) ∧
    perpWallDist ⟨.num false (7 / 2), .num false (7 / 2)⟩
        ⟨.num true 1, .num true (11072963 / 16777216)⟩
        (stepOf ⟨.num true 1, .num true (11072963 / 16777216)⟩)
        ⟨.num false (3 / 2), .num false (9532509 / 4194304), 2, 2, 1⟩ =
      .num false (3177503 / 4194304) ∧
    (stepOf ⟨.num true 1, .num true (11072963 / 16777216)⟩).y = .num true 1 ∧
    (7 / 2 : ℚ) + 3177503 / 4194304 * (-(11072963 / 16777216)) ≠ 2 + (1 - (-1)) / 2 := by
  refine ⟨by decide!, by decide!, by decide!, by decide!, by decide!, by decide!, by decide!⟩

/-- C18, as stated, fails in binary32.  From `(4.875, 1.375)` in the empty cell
`[4][1]` the ray `(0.65625, -0.21875)` stops at the border cell `[6][0]` with
`side == 1`; `perpWallDist` is `14380471 / 2^23 = 1.71428573…` while
`sideDist.y - deltaDist.y` is `1797559 / 2^20 = 1.71428585…`. -/
theorem perpWallDist_ne_sideDist_sub_float :
    toInt (.num false (39 / 8)) = some 4 ∧ toInt (.num false (11 / 8)) = some 1 ∧
    worldMapAt 4 1 = some 0 ∧
    castRay 16 ⟨.num false (39 / 8), .num false (11 / 8)⟩
        ⟨.num false (21 / 32), .num true (7 / 32)⟩ =
      some (.hit ⟨.num false (3395389 / 1048576), .num false (13182099 / 2097152), 6, 0, 1⟩ 3) ∧
    perpWallDist ⟨.num false (39 / 8), .num false (11 / 8)⟩
        ⟨.num false (21 / 32), .num true (7 / 32)⟩
        (stepOf ⟨.num false (21 / 32), .num true (7 / 32)⟩)
        ⟨.num false (3395389 / 1048576), .num false (13182099 / 2097152), 6, 0, 1⟩ =
      .num false (14380471 / 8388608) ∧
    sub binary32 (.num false (13182099 / 2097152))
        (deltaDist ⟨.num false (21 / 32), .num true (7 / 32)⟩).y =
      .num false (1797559 / 1048576) ∧
    (14380471 / 8388608 : ℚ) ≠ 1797559 / 1048576 := by
  refine ⟨by decide!, by decide!, by decide!, by decide!, by decide!, by decide!, by decide!⟩

/-- C3, amended, in the binary32 arithmetic of the program: from every `float`
position whose cell is an empty cell of `worldMap` and that is not on a grid
line the ray faces, and for every ray direction whose components are finite, are
not `-0.0` and have magnitude at most `2^125`, the DDA loop stops and the
`perpWallDist` computed from its final variables is strictly greater than 0
(it is `+∞` when the ray component of the side that was hit is `+0`). -/
theorem perpWallDist_pos_float (playerPosition rayDir : Vector2 Fp) (i j : Int)
    (hfx : IsFloat playerPosition.x) (hfy : IsFloat playerPosition.y)
    (hi : toInt playerPosition.x = some i) (hj : toInt playerPosition.y = some j)
    (hcell : worldMapAt i j = some 0)
    (hrx : RayComponent rayDir.x) (hry : RayComponent rayDir.y)
    (hgx : lt rayDir.x (ofInt binary32 0) = true → playerPosition.x ≠ ofInt binary32 i)
    (hgy : lt rayDir.y (ofInt binary32 0) = true → playerPosition.y ≠ ofInt binary32 j) :
    ∃ s n, (∀ fuel, 16 ≤ fuel → castRay fuel playerPosition rayDir = some (.hit s n)) ∧
      lt (ofInt binary32 0) (perpWallDist playerPosition rayDir (stepOf rayDir) s) = true := by
  have hint : (1 ≤ i ∧ i ≤ 6) ∧ (1 ≤ j ∧ j ≤ 6) := interior_of_worldMapAt_le i j 0 hcell (le_refl 0)
  obtain ⟨p, q, sInit, s0, s1, n, hpx, hqy, ⟨hip, hpi, hp1⟩, ⟨hjq, hqj, hq1⟩, -, hs0, hinv, -,
    hs1, hrun, -, -⟩ := dda_run_float playerPosition rayDir i j hfx hfy hi hj hcell
      (fun _ => True) (fun _ _ _ _ _ => trivial) (fun _ _ _ _ _ _ _ _ _ _ _ _ _ => trivial)
  refine ⟨s1, n, hrun, ?_⟩
  obtain ⟨px, py⟩ := playerPosition
  obtain ⟨rx, ry⟩ := rayDir
  simp only at hpx hqy hfx hfy hrx hry hgx hgy
  subst hpx hqy
  obtain ⟨⟨hx1, hx6⟩, hy1, hy6⟩ := hs0
  obtain ⟨⟨h1, h2⟩, ⟨h3, h4⟩, -, -⟩ := hinv
  cases hlt : lt s0.sideDistX s0.sideDistY
  · rw [ddaStep_of_not_lt_float _ s0 ⟨by omega, by omega⟩ hlt] at hs1
    have := Option.some.inj hs1
    subst this
    exact perpWallDist_pos_after_y _ ry rx q j s0 hfy hq1 hjq hqj hint.2 hry hgy ⟨hy1, hy6⟩ h3 h4
  · rw [ddaStep_of_lt_float _ s0 ⟨by omega, by omega⟩ hlt] at hs1
    have := Option.some.inj hs1
    subst this
    exact perpWallDist_pos_after_x _ rx ry p i s0 hfx hp1 hip hpi hint.1 hrx hgx ⟨hx1, hx6⟩ h1 h2

theorem perpWallDist_pos_float_witness :
    IsFloat (.num false (7 / 2)) ∧ toInt (.num false (7 / 2)) = some 3 ∧
      worldMapAt 3 3 = some 0 ∧ RayComponent (.num true 1) ∧ RayComponent (.num false 0) ∧
      (.num false (7 / 2) : Fp) ≠ ofInt binary32 3 ∧
      ∃ s n, (∀ fuel, 16 ≤ fuel →
          castRay fuel ⟨.num false (7 / 2), .num false (7 / 2)⟩ ⟨.num true 1, .num false 0⟩ =
            some (.hit s n)) ∧
        lt (ofInt binary32 0)
          (perpWallDist ⟨.num false (7 / 2), .num false (7 / 2)⟩ ⟨.num true 1, .num false 0⟩
            (stepOf ⟨.num true 1, .num false 0⟩) s) = true :=
  ⟨by decide!, by decide!, by decide!, by decide!, by decide!, by decide!,
    perpWallDist_pos_float ⟨.num false (7 / 2), .num false (7 / 2)⟩ ⟨.num true 1, .num false 0⟩
      3 3 (by decide!) (by decide!) (by decide!) (by decide!) (by decide!) (by decide!)
      (by decide!) (fun _ => by decide!) (fun h => absurd h (by decide!))⟩

/-- C11, amended, in the binary32 arithmetic of the program: from every `float`
position in an empty cell, a ray with `rayDirection.x` zero (`+0` or `-0`) and
`rayDirection.y` finite of magnitude at least `2^-124` never advances `mapX`:
after every iteration `mapX` is still `int(position.x)`, the loop stops with
`side = 1` and the perpendicular distance is finite.  Symmetrically a ray with
`rayDirection.y` zero and `rayDirection.x` finite of magnitude at least
`2^-124` never advances `mapY` and stops with `side = 0`. -/
theorem zero_component_axis_not_advanced_float (playerPosition rayDir : Vector2 Fp) (i j : Int)
    (hfx : IsFloat playerPosition.x) (hfy : IsFloat playerPosition.y)
    (hi : toInt playerPosition.x = some i) (hj : toInt playerPosition.y = some j)
    (hcell : worldMapAt i j = some 0) :
    (IsZero rayDir.x → LargeComponent rayDir.y →
      ∃ sInit s n, ddaInit playerPosition rayDir = some sInit ∧
        (∀ fuel, 16 ≤ fuel → castRay fuel playerPosition rayDir = some (.hit s n)) ∧
        ddaIter (deltaDist rayDir) (stepOf rayDir) n sInit = some s ∧
        (∀ k, k ≤ n → ∃ sk,
          ddaIter (deltaDist rayDir) (stepOf rayDir) k sInit = some sk ∧ sk.mapX = i) ∧
        s.side = 1 ∧ s.mapX = i ∧
        IsFinite (perpWallDist playerPosition rayDir (stepOf rayDir) s)) ∧
    (IsZero rayDir.y → LargeComponent rayDir.x →
      ∃ sInit s n, ddaInit playerPosition rayDir = some sInit ∧
        (∀ fuel, 16 ≤ fuel → castRay fuel playerPosition rayDir = some (.hit s n)) ∧
        ddaIter (deltaDist rayDir) (stepOf rayDir) n sInit = some s ∧
        (∀ k, k ≤ n → ∃ sk,
          ddaIter (deltaDist rayDir) (stepOf rayDir) k sInit = some sk ∧ sk.mapY = j) ∧
        s.side = 0 ∧ s.mapY = j ∧
        IsFinite (perpWallDist playerPosition rayDir (stepOf rayDir) s)) := by
  have hint : (1 ≤ i ∧ i ≤ 6) ∧ (1 ≤ j ∧ j ≤ 6) := interior_of_worldMapAt_le i j 0 hcell (le_refl 0)
  have hdi := ddaInit_eq playerPosition rayDir i j hi hj
  constructor
  · intro hzx hly
    obtain ⟨p, q, sInit, s0, s1, n, hpx, hqy, -, ⟨hjq, hqj, hq1⟩, hinit, hs0, -, hinv,
      hs1, hrun, -, hall⟩ := dda_run_float playerPosition rayDir i j hfx hfy hi hj hcell
        (fun s => s.sideDistX = .inf false ∧ s.mapX = i)
        (fun s s1 hs h hs1 => by
          obtain ⟨h1, h2, -⟩ := ddaStep_of_inf_x rayDir s s1 hs h.1 hs1
          exact ⟨h1, h2.trans h.2⟩)
        (fun p q _ _ _ _ _ _ _ _ sInit hsInit hrunInv => by
          refine ⟨hrunInv.2.2.1 hzx, ?_⟩
          rw [hdi] at hsInit
          rw [← Option.some.inj hsInit])
    obtain ⟨h1, h2, h3⟩ := ddaStep_of_inf_x rayDir s0 s1 hs0 hinv.1 hs1
    have h16 := hrun 16 (le_refl 16)
    unfold castRay at h16
    rw [hinit] at h16
    have hlast := (ddaLoop_last_iterate _ _ 16 0 sInit s1 n (Option.some.inj h16)).2
    obtain ⟨s2, hs2, ⟨-, hb⟩, -⟩ := ddaStep_travel_float rayDir s0 hs0
    rw [hs1] at hs2
    have := Option.some.inj hs2
    subst this
    refine ⟨sInit, s1, n, hinit, hrun, hlast, ?_, h3, h2.trans hinv.2, ?_⟩
    · intro k hk
      obtain ⟨sk, hsk, -, hk2⟩ := hall k hk
      exact ⟨sk, hsk, hk2.2⟩
    · obtain ⟨px, py⟩ := playerPosition
      obtain ⟨rx, ry⟩ := rayDir
      simp only at hqy hly
      subst hqy
      have hj6 : (j : ℚ) ≤ 6 := by exact_mod_cast hint.2.2
      exact perpWallDist_finite_after_y px rx ry q s1 hq1 (by linarith) hb h3 hly
  · intro hzy hlx
    obtain ⟨p, q, sInit, s0, s1, n, hpx, hqy, ⟨hip, hpi, hp1⟩, -, hinit, hs0, -, hinv,
      hs1, hrun, -, hall⟩ := dda_run_float playerPosition rayDir i j hfx hfy hi hj hcell
        (fun s => s.sideDistY = .inf false ∧ s.mapY = j ∧
          ∃ r, s.sideDistX = .num false r ∧ 0 ≤ r ∧
            r ≤ ((13 - travel rayDir s : Int) : ℚ) * 2 ^ 124)
        (fun s s1 hs h hs1 => by
          obtain ⟨h1, h2, -, h4⟩ := ddaStep_of_inf_y rayDir s s1 hs hlx h.1 h.2.2 hs1
          exact ⟨h1, h2.trans h.2.1, h4⟩)
        (fun p q hp _ hip hpi _ _ _ _ sInit hsInit hrunInv => by
          refine ⟨hrunInv.2.2.2 hzy, ?_, ?_⟩
          · rw [hdi] at hsInit
            rw [← Option.some.inj hsInit]
          · rw [hdi] at hsInit
            have hs := Option.some.inj hsInit
            obtain ⟨sd, hsd, hsd0, hsd1⟩ := sideDistInit_of_large rayDir.x p i hlx hint.1 hip hpi
            have hI : Interior sInit := by
              rw [← hs]
              exact hint
            have ht := (travel_ge_two_float rayDir sInit hI).2
            refine ⟨sd, ?_, hsd0, le_trans hsd1 ?_⟩
            · rw [← hs, ← hsd, hp]
              rfl
            · have : (1 : ℚ) ≤ ((13 - travel rayDir sInit : Int) : ℚ) := by
                exact_mod_cast (show (1 : Int) ≤ 13 - travel rayDir sInit by omega)
              nlinarith)
    obtain ⟨h1, h2, h3, -⟩ := ddaStep_of_inf_y rayDir s0 s1 hs0 hlx hinv.1 hinv.2.2 hs1
    have h16 := hrun 16 (le_refl 16)
    unfold castRay at h16
    rw [hinit] at h16
    have hlast := (ddaLoop_last_iterate _ _ 16 0 sInit s1 n (Option.some.inj h16)).2
    obtain ⟨s2, hs2, ⟨hb, -⟩, -⟩ := ddaStep_travel_float rayDir s0 hs0
    rw [hs1] at hs2
    have := Option.some.inj hs2
    subst this
    refine ⟨sInit, s1, n, hinit, hrun, hlast, ?_, h3, h2.trans hinv.2.1, ?_⟩
    · intro k hk
      obtain ⟨sk, hsk, -, hk2⟩ := hall k hk
      exact ⟨sk, hsk, hk2.2.1⟩
    · obtain ⟨px, py⟩ := playerPosition
      obtain ⟨rx, ry⟩ := rayDir
      simp only at hpx hlx
      subst hpx
      have hi6 : (i : ℚ) ≤ 6 := by exact_mod_cast hint.1.2
      exact perpWallDist_finite_after_x py rx ry p s1 hp1 (by linarith) hb h3 hlx

theorem zero_component_axis_not_advanced_float_witness :
    IsFloat (.num false (7 / 2)) ∧ toInt (.num false (7 / 2)) = some 3 ∧
      worldMapAt 3 3 = some 0 ∧ IsZero (.num false 0) ∧ LargeComponent (.num true 1) ∧
      ∃ sInit s n,
        ddaInit ⟨.num false (7 / 2), .num false (7 / 2)⟩ ⟨.num true 1, .num false 0⟩ =
          some sInit ∧
        (∀ fuel, 16 ≤ fuel →
          castRay fuel ⟨.num false (7 / 2), .num false (7 / 2)⟩ ⟨.num true 1, .num false 0⟩ =
            some (.hit s n)) ∧
        ddaIter (deltaDist ⟨.num true 1, .num false 0⟩) (stepOf ⟨.num true 1, .num false 0⟩)
          n sInit = some s ∧
        (∀ k, k ≤ n → ∃ sk,
          ddaIter (deltaDist ⟨.num true 1, .num false 0⟩) (stepOf ⟨.num true 1, .num false 0⟩)
            k sInit = some sk ∧ sk.mapY = 3) ∧
        s.side = 0 ∧ s.mapY = 3 ∧
        IsFinite (perpWallDist ⟨.num false (7 / 2), .num false (7 / 2)⟩
          ⟨.num true 1, .num false 0⟩ (stepOf ⟨.num true 1, .num false 0⟩) s) :=
  ⟨by decide!, by decide!, by decide!, by decide!, by decide!,
    (zero_component_axis_not_advanced_float ⟨.num false (7 / 2), .num false (7 / 2)⟩
      ⟨.num true 1, .num false 0⟩ 3 3 (by decide!) (by decide!) (by decide!) (by decide!)
      (by decide!)).2 (by decide!) (by decide!)⟩

/-- C12, amended: in binary32, for `screenHeight ≥ 0` and float distances
`0 < d1 ≤ d2`, whenever the nearer line height
`( int ) ( screenHeight / d1 )` is defined (the quotient fits an `int`), the
farther one is defined too and is not larger. -/
theorem lineHeight_antitone_float (screenHeight : Int) (d1 d2 : Fp) (l1 : Int)
    (hh : 0 ≤ screenHeight) (hf1 : IsFloat d1) (hf2 : IsFloat d2)
    (hpos : lt (ofInt binary32 0) d1 = true) (hle : le d1 d2 = true)
    (h1 : lineHeight screenHeight d1 = some l1) :
    ∃ l2, lineHeight screenHeight d2 = some l2 ∧ l2 ≤ l1 := by
  unfold lineHeight at h1 ⊢
  have zero_ok : toInt (.num false 0) = some 0 := by decide!
  rcases ofInt_nonneg_cases screenHeight hh with ⟨hr, hH, hhr⟩ | hH
  · rw [hH] at h1 ⊢
    rcases pos_cases d1 hf1 hpos with ⟨m1, rfl, hm1⟩ | rfl
    · -- a finite nearer distance
      simp only [div, if_neg (ne_of_gt hm1), Bool.xor_false, round] at h1
      cases hq1 : roundMag binary32 (hr / m1) with
      | none =>
        rw [hq1] at h1
        simp [toInt] at h1
      | some r1 =>
        rw [hq1] at h1
        simp only at h1
        obtain ⟨hl1, hl1max⟩ := toInt_num_false r1 l1 h1
        have hr1nn : 0 ≤ r1 := by
          obtain ⟨r0, hr0, -, hnn⟩ := roundMag_mono binary32 (by decide) _ _ r1
            (div_nonneg hhr (le_of_lt hm1)) le_rfl hq1
          rw [hq1] at hr0
          exact (Option.some.inj hr0) ▸ hnn
        have hl1nn : 0 ≤ l1 := by
          have := toInt_mono 0 r1 hr1nn
          rw [toInt_zero] at this
          omega
        cases d2 with
        | num s2 m2 =>
          have hm2nn : (0 : ℚ) ≤ m2 := hf2.1
          have hval : m1 ≤ val s2 m2 := by simpa [le, val] using hle
          have hs2 : s2 = false := by
            cases s2 with
            | false => rfl
            | true =>
              exfalso
              rw [val_true] at hval
              linarith
          subst hs2
          rw [val_false] at hval
          have hm2 : 0 < m2 := lt_of_lt_of_le hm1 hval
          obtain ⟨r2, hq2, hr21, hr2nn⟩ := roundMag_mono binary32 (by decide) (hr / m2) (hr / m1) r1
            (div_nonneg hhr (le_of_lt hm2)) (div_le_div_of_nonneg_left hhr hm1 hval) hq1
          simp only [div, if_neg (ne_of_gt hm2), Bool.xor_false, round, hq2]
          have hmono := toInt_mono r2 r1 hr21
          refine ⟨Adventure.toInt r2, toInt_num_false_of_le r2 hr2nn (by omega), by omega⟩
        | inf t =>
          have ht : t = false := by
            cases t with
            | false => rfl
            | true => simp [le] at hle
          subst ht
          exact ⟨0, by simpa [div] using zero_ok, hl1nn⟩
        | nan => simp [le] at hle
    · -- the nearer distance is `+∞`
      simp only [div, Bool.xor_false] at h1
      rw [zero_ok] at h1
      have hl1 : l1 = 0 := (Option.some.inj h1).symm
      cases d2 with
      | num s2 m2 => simp [le] at hle
      | inf t =>
        have ht : t = false := by
          cases t with
          | false => rfl
          | true => simp [le] at hle
        subst ht
        exact ⟨0, by simpa [div] using zero_ok, by omega⟩
      | nan => simp [le] at hle
  · -- `screenHeight` converts to `+∞`: the nearer height is not defined
    exfalso
    rw [hH] at h1
    rcases pos_cases d1 hf1 hpos with ⟨m1, rfl, hm1⟩ | rfl
    · simp [div, toInt] at h1
    · simp [div, toInt] at h1

theorem lineHeight_antitone_float_witness :
    (0 : Int) ≤ 600 ∧ IsFloat (.num false (5 / 2)) ∧ IsFloat (.num false 7) ∧
      lt (ofInt binary32 0) (.num false (5 / 2)) = true ∧
      le (.num false (5 / 2)) (.num false 7) = true ∧
      lineHeight 600 (.num false (5 / 2)) = some 240 ∧
      ∃ l2, lineHeight 600 (.num false 7) = some l2 ∧ l2 ≤ 240 :=
  ⟨by decide, by decide!, by decide!, by decide!, by decide!, by decide!,
    lineHeight_antitone_float 600 (.num false (5 / 2)) (.num false 7) 240 (by decide) (by decide!)
      (by decide!) (by decide!) (by decide!) (by decide!)⟩

/-- C12, as stated, fails: at `screenHeight = 600` and the distances
`d1 = 2^-23 ≤ d2 = 2.5` the quotient `600 / d1 = 5033164800` does not fit an
`int`, so the cast that gives `lineHeight(d1)` is undefined, while
`lineHeight(d2) = 240`.  The distance `2^-23` is what the ray `(-1, 0)` from
position `(1 + 2^-23, 1.5)` gets. -/
theorem lineHeight_cast_overflow :
    lt (ofInt binary32 0) (.num false (1 / 8388608)) = true ∧
    le (.num false (1 / 8388608)) (.num false (5 / 2)) = true ∧
    div binary32 (ofInt binary32 600) (.num false (1 / 8388608)) = .num false 5033164800 ∧
    lineHeight 600 (.num false (1 / 8388608)) = none ∧
    lineHeight 600 (.num false (5 / 2)) = some 240 ∧
    castRay 16 ⟨.num false (8388609 / 8388608), .num false (3 / 2)⟩
        ⟨.num true 1, .num false 0⟩ =
      some (.hit ⟨.num false (8388609 / 8388608), .inf false, 0, 1, 0⟩ 1) ∧
    perpWallDist ⟨.num false (8388609 / 8388608), .num false (3 / 2)⟩
        ⟨.num true 1, .num false 0⟩ (stepOf ⟨.num true 1, .num false 0⟩)
        ⟨.num false (8388609 / 8388608), .inf false, 0, 1, 0⟩ = .num false (1 / 8388608) := by
  refine ⟨by decide!, by decide!, by decide!, by decide!, by decide!, by decide!, by decide!⟩

/-- C14, amended, in the binary32 arithmetic of the program: from every
`float` position in an empty cell and for every ray whose two components have
magnitude between `2^-100` and `2^100`, the loop stops in a state `s` with a
finite `perpWallDist`; when `side = 0` the point
`position + perpWallDist * rayDirection` has its x-coordinate within `2^-18`
of `mapX + (1 - step.x) / 2` and its y-coordinate in
`[mapY - 2^-15, mapY + 1 + 2^-15]`, and the same with the axes exchanged when
`side = 1`.  The cell `worldMap[mapX][mapY]` is `> 0` and the cell read after
every earlier iteration was 0. -/
theorem hit_point_near_wall_face (playerPosition rayDir : Vector2 Fp) (i j : Int)
    (hfx : IsFloat playerPosition.x) (hfy : IsFloat playerPosition.y)
    (hi : toInt playerPosition.x = some i) (hj : toInt playerPosition.y = some j)
    (hcell : worldMapAt i j = some 0)
    (hmx : MidComponent rayDir.x) (hmy : MidComponent rayDir.y) :
    ∃ sInit s n, ddaInit playerPosition rayDir = some sInit ∧
      (∀ fuel, 16 ≤ fuel → castRay fuel playerPosition rayDir = some (.hit s n)) ∧
      IsFinite (perpWallDist playerPosition rayDir (stepOf rayDir) s) ∧
      (s.side = 0 ∨ s.side = 1) ∧
      (s.side = 0 →
        |toRat playerPosition.x +
            toRat (perpWallDist playerPosition rayDir (stepOf rayDir) s) * toRat rayDir.x -
          ((s.mapX : ℚ) + (1 - toRat (stepOf rayDir).x) / 2)| ≤ 1 / 2 ^ 18 ∧
        (s.mapY : ℚ) - 1 / 2 ^ 15 ≤ toRat playerPosition.y +
          toRat (perpWallDist playerPosition rayDir (stepOf rayDir) s) * toRat rayDir.y ∧
        toRat playerPosition.y +
          toRat (perpWallDist playerPosition rayDir (stepOf rayDir) s) * toRat rayDir.y ≤
            (s.mapY : ℚ) + 1 + 1 / 2 ^ 15) ∧
      (s.side = 1 →
        |toRat playerPosition.y +
            toRat (perpWallDist playerPosition rayDir (stepOf rayDir) s) * toRat rayDir.y -
          ((s.mapY : ℚ) + (1 - toRat (stepOf rayDir).y) / 2)| ≤ 1 / 2 ^ 18 ∧
        (s.mapX : ℚ) - 1 / 2 ^ 15 ≤ toRat playerPosition.x +
          toRat (perpWallDist playerPosition rayDir (stepOf rayDir) s) * toRat rayDir.x ∧
        toRat playerPosition.x +
          toRat (perpWallDist playerPosition rayDir (stepOf rayDir) s) * toRat rayDir.x ≤
            (s.mapX : ℚ) + 1 + 1 / 2 ^ 15) ∧
      (∃ c, worldMapAt s.mapX s.mapY = some c ∧ 0 < c) ∧
      ∀ k, 1 ≤ k → k < n → ∃ sk,
        ddaIter (deltaDist rayDir) (stepOf rayDir) k sInit = some sk ∧
          worldMapAt sk.mapX sk.mapY = some 0 := by
  have hint : (1 ≤ i ∧ i ≤ 6) ∧ (1 ≤ j ∧ j ≤ 6) := interior_of_worldMapAt_le i j 0 hcell (le_refl 0)
  obtain ⟨p, hpx, -⟩ := position_cases playerPosition.x i hfx hi hint.1.1
  obtain ⟨q, hqy, -⟩ := position_cases playerPosition.y j hfy hj hint.2.1
  obtain ⟨px, py⟩ := playerPosition
  simp only at hpx hqy hfx hfy hi hj
  subst hpx hqy
  obtain ⟨sInit, s0, s1, n, hinit, ⟨hip, hpi, hp1⟩, ⟨hjq, hqj, hq1⟩, hs0, hrinv, ⟨hax, hay, hord⟩,
    hs1, hrun, -, hwall, hcells⟩ := dda_run_err rayDir p q i j hfx hfy hi hj hcell
  obtain ⟨-, hfx0, hfx1⟩ := frac_bounds rayDir.x p i hfx hp1 hip hpi
  obtain ⟨-, hfy0, hfy1⟩ := frac_bounds rayDir.y q j hfy hq1 hjq hqj
  obtain ⟨hox, hoy⟩ := lineDist_order rayDir p q i j s0 hs0 hint.1 hint.2 hfx0 hfy0 hmx hmy
    (hax hmx) (hay hmy)
  obtain ⟨ho1, ho2⟩ := hord hmx hmy
  have hkx := stepsTo_le rayDir.x i s0.mapX hint.1 hs0.1
  have hky := stepsTo_le rayDir.y j s0.mapY hint.2 hs0.2
  have hTX := lineDist_nonneg rayDir.x p i s0.mapX hmx hfx0 (hax hmx).1
  have hTY := lineDist_nonneg rayDir.y q j s0.mapY hmy hfy0 (hay hmy).1
  obtain ⟨⟨hx1, hx6⟩, hy1, hy6⟩ := hs0
  cases hlt : lt s0.sideDistX s0.sideDistY
  · rw [ddaStep_of_not_lt_float rayDir s0 ⟨by omega, by omega⟩ hlt] at hs1
    have hs1' := Option.some.inj hs1
    subst hs1'
    obtain ⟨t, a, b, d, ha, -, -, -, hca⟩ := perp_near_acc_y (.num false p) rayDir q j s0 hfy
      hq1 hint.2 hjq hqj ⟨hy1, hy6⟩ hmy (hay hmy)
    obtain ⟨hb1, hb2⟩ := perp_between (val t a) _ _ (1 / mag rayDir.x) hca hTX (hoy hlt) ho1
    have hface := face_coord rayDir.y q (val t a) j s0.mapY hmy hfy0 hfy1 (hay hmy).1 hky hca
    have hcross := cross_coord rayDir.x p (val t a) i s0.mapX hmx hfx0 hfx1 (hax hmx).1 hkx
      hb1 hb2
    refine ⟨sInit, _, n, hinit, hrun, ?_, Or.inr rfl,
      fun h => absurd (show (1 : Int) = 0 from h) (by decide), fun _ => ?_, hwall, hcells⟩
    · rw [ha]
      trivial
    · rw [ha]
      exact ⟨hface, hcross⟩
  · rw [ddaStep_of_lt_float rayDir s0 ⟨by omega, by omega⟩ hlt] at hs1
    have hs1' := Option.some.inj hs1
    subst hs1'
    obtain ⟨t, a, b, d, ha, -, -, -, hca⟩ := perp_near_acc_x (.num false q) rayDir p i s0 hfx
      hp1 hint.1 hip hpi ⟨hx1, hx6⟩ hmx (hax hmx)
    obtain ⟨hb1, hb2⟩ := perp_between (val t a) _ _ (1 / mag rayDir.y) hca hTY (hox hlt) ho2
    have hface := face_coord rayDir.x p (val t a) i s0.mapX hmx hfx0 hfx1 (hax hmx).1 hkx hca
    have hcross := cross_coord rayDir.y q (val t a) j s0.mapY hmy hfy0 hfy1 (hay hmy).1 hky
      hb1 hb2
    refine ⟨sInit, _, n, hinit, hrun, ?_, Or.inl rfl, fun _ => ?_,
      fun h => absurd (show (0 : Int) = 1 from h) (by decide), hwall, hcells⟩
    · rw [ha]
      trivial
    · rw [ha]
      exact ⟨hface, hcross⟩

theorem hit_point_near_wall_face_witness :
    IsFloat (.num false (7 / 2)) ∧ toInt (.num false (7 / 2)) = some 3 ∧
    worldMapAt 3 3 = some 0 ∧ MidComponent (.num true 1) ∧ MidComponent (.num true (1 / 2)) ∧
    ∃ sInit s n,
      ddaInit ⟨.num false (7 / 2), .num false (7 / 2)⟩ ⟨.num true 1, .num true (1 / 2)⟩ =
        some sInit ∧
      (∀ fuel, 16 ≤ fuel →
        castRay fuel ⟨.num false (7 / 2), .num false (7 / 2)⟩ ⟨.num true 1, .num true (1 / 2)⟩ =
          some (.hit s n)) ∧
      IsFinite (perpWallDist ⟨.num false (7 / 2), .num false (7 / 2)⟩
        ⟨.num true 1, .num true (1 / 2)⟩ (stepOf ⟨.num true 1, .num true (1 / 2)⟩) s) ∧
      (s.side = 0 ∨ s.side = 1) ∧
      (s.side = 0 →
        |toRat (.num false (7 / 2)) +
            toRat (perpWallDist ⟨.num false (7 / 2), .num false (7 / 2)⟩
              ⟨.num true 1, .num true (1 / 2)⟩ (stepOf ⟨.num true 1, .num true (1 / 2)⟩) s) *
              toRat (.num true 1) -
          ((s.mapX : ℚ) + (1 - toRat (stepOf ⟨.num true 1, .num true (1 / 2)⟩).x) / 2)| ≤
            1 / 2 ^ 18 ∧
        (s.mapY : ℚ) - 1 / 2 ^ 15 ≤ toRat (.num false (7 / 2)) +
          toRat (perpWallDist ⟨.num false (7 / 2), .num false (7 / 2)⟩
            ⟨.num true 1, .num true (1 / 2)⟩ (stepOf ⟨.num true 1, .num true (1 / 2)⟩) s) *
            toRat (.num true (1 / 2)) ∧
        toRat (.num false (7 / 2)) +
          toRat (perpWallDist ⟨.num false (7 / 2), .num false (7 / 2)⟩
            ⟨.num true 1, .num true (1 / 2)⟩ (stepOf ⟨.num true 1, .num true (1 / 2)⟩) s) *
            toRat (.num true (1 / 2)) ≤ (s.mapY : ℚ) + 1 + 1 / 2 ^ 15) ∧
      (s.side = 1 →
        |toRat (.num false (7 / 2)) +
            toRat (perpWallDist ⟨.num false (7 / 2), .num false (7 / 2)⟩
              ⟨.num true 1, .num true (1 / 2)⟩ (stepOf ⟨.num true 1, .num true (1 / 2)⟩) s) *
              toRat (.num true (1 / 2)) -
          ((s.mapY : ℚ) + (1 - toRat (stepOf ⟨.num true 1, .num true (1 / 2)⟩).y) / 2)| ≤
            1 / 2 ^ 18 ∧
        (s.mapX : ℚ) - 1 / 2 ^ 15 ≤ toRat (.num false (7 / 2)) +
          toRat (perpWallDist ⟨.num false (7 / 2), .num false (7 / 2)⟩
            ⟨.num true 1, .num true (1 / 2)⟩ (stepOf ⟨.num true 1, .num true (1 / 2)⟩) s) *
            toRat (.num true 1) ∧
        toRat (.num false (7 / 2)) +
          toRat (perpWallDist ⟨.num false (7 / 2), .num false (7 / 2)⟩
            ⟨.num true 1, .num true (1 / 2)⟩ (stepOf ⟨.num true 1, .num true (1 / 2)⟩) s) *
            toRat (.num true 1) ≤ (s.mapX : ℚ) + 1 + 1 / 2 ^ 15) ∧
      (∃ c, worldMapAt s.mapX s.mapY = some c ∧ 0 < c) ∧
      ∀ k, 1 ≤ k → k < n → ∃ sk,
        ddaIter (deltaDist ⟨.num true 1, .num true (1 / 2)⟩)
            (stepOf ⟨.num true 1, .num true (1 / 2)⟩) k sInit = some sk ∧
          worldMapAt sk.mapX sk.mapY = some 0 :=
  ⟨by decide!, by decide!, by decide!, by decide!, by decide!,
    hit_point_near_wall_face ⟨.num false (7 / 2), .num false (7 / 2)⟩
      ⟨.num true 1, .num true (1 / 2)⟩ 3 3 (by decide!) (by decide!) (by decide!) (by decide!)
      (by decide!) (by decide!) (by decide!)⟩

/-- C18, amended, in the binary32 arithmetic of the program: from every
`float` position in an empty cell and for every ray the loop stops; when it
stops with `side = 0` then `rayDirection.x` is not zero, and if its magnitude
is between `2^-100` and `2^100` then `perpWallDist`, `sideDist.x` and
`deltaDist.x` are finite and `perpWallDist` is `sideDist.x - deltaDist.x` up
to `2^-19` of `sideDist.x`; when it stops with `side = 1` and the magnitude of
`rayDirection.y` is between `2^-100` and `2^100`, the same holds of
`sideDist.y - deltaDist.y`. -/
theorem perpWallDist_near_sideDist_sub (playerPosition rayDir : Vector2 Fp) (i j : Int)
    (hfx : IsFloat playerPosition.x) (hfy : IsFloat playerPosition.y)
    (hi : toInt playerPosition.x = some i) (hj : toInt playerPosition.y = some j)
    (hcell : worldMapAt i j = some 0) :
    ∃ s n, (∀ fuel, 16 ≤ fuel → castRay fuel playerPosition rayDir = some (.hit s n)) ∧
      (s.side = 0 ∨ s.side = 1) ∧
      (s.side = 0 → ¬ IsZero rayDir.x ∧
        (MidComponent rayDir.x →
          IsFinite (perpWallDist playerPosition rayDir (stepOf rayDir) s) ∧
          IsFinite s.sideDistX ∧ IsFinite (deltaDist rayDir).x ∧
          |toRat (perpWallDist playerPosition rayDir (stepOf rayDir) s) -
              (toRat s.sideDistX - toRat (deltaDist rayDir).x)| ≤ toRat s.sideDistX / 2 ^ 19)) ∧
      (s.side = 1 → MidComponent rayDir.y →
        IsFinite (perpWallDist playerPosition rayDir (stepOf rayDir) s) ∧
        IsFinite s.sideDistY ∧ IsFinite (deltaDist rayDir).y ∧
        |toRat (perpWallDist playerPosition rayDir (stepOf rayDir) s) -
            (toRat s.sideDistY - toRat (deltaDist rayDir).y)| ≤ toRat s.sideDistY / 2 ^ 19) := by
  have hint : (1 ≤ i ∧ i ≤ 6) ∧ (1 ≤ j ∧ j ≤ 6) := interior_of_worldMapAt_le i j 0 hcell (le_refl 0)
  obtain ⟨p, hpx, -⟩ := position_cases playerPosition.x i hfx hi hint.1.1
  obtain ⟨q, hqy, -⟩ := position_cases playerPosition.y j hfy hj hint.2.1
  obtain ⟨px, py⟩ := playerPosition
  simp only at hpx hqy hfx hfy hi hj
  subst hpx hqy
  obtain ⟨sInit, s0, s1, n, -, ⟨hip, hpi, hp1⟩, ⟨hjq, hqj, hq1⟩, hs0, hrinv, ⟨hax, hay, -⟩, hs1, hrun,
    -, -, -⟩ := dda_run_err rayDir p q i j hfx hfy hi hj hcell
  refine ⟨s1, n, hrun, ?_⟩
  obtain ⟨⟨hx1, hx6⟩, hy1, hy6⟩ := hs0
  cases hlt : lt s0.sideDistX s0.sideDistY
  · rw [ddaStep_of_not_lt_float rayDir s0 ⟨by omega, by omega⟩ hlt] at hs1
    have := Option.some.inj hs1
    subst this
    refine ⟨Or.inr rfl, fun h => absurd (show (1 : Int) = 0 from h) (by decide), fun _ hmy => ?_⟩
    obtain ⟨t, a, b, d, ha, hb, hd, hnear, -⟩ := perp_near_acc_y (.num false p) rayDir q j s0 hfy
      hq1 hint.2 hjq hqj ⟨hy1, hy6⟩ hmy (hay hmy)
    rw [ha, hb, hd]
    exact ⟨trivial, trivial, trivial, hnear⟩
  · rw [ddaStep_of_lt_float rayDir s0 ⟨by omega, by omega⟩ hlt] at hs1
    have := Option.some.inj hs1
    subst this
    refine ⟨Or.inl rfl, fun _ => ⟨fun hz => ?_, fun hmx => ?_⟩,
      fun h => absurd (show (0 : Int) = 1 from h) (by decide)⟩
    · rw [hrinv.2.2.1 hz, lt_inf_left] at hlt
      exact Bool.noConfusion hlt
    · obtain ⟨t, a, b, d, ha, hb, hd, hnear, -⟩ := perp_near_acc_x (.num false q) rayDir p i s0 hfx
        hp1 hint.1 hip hpi ⟨hx1, hx6⟩ hmx (hax hmx)
      rw [ha, hb, hd]
      exact ⟨trivial, trivial, trivial, hnear⟩

theorem perpWallDist_near_sideDist_sub_witness :
    IsFloat (.num false (39 / 8)) ∧ IsFloat (.num false (11 / 8)) ∧
      toInt (.num false (39 / 8)) = some 4 ∧ toInt (.num false (11 / 8)) = some 1 ∧
      worldMapAt 4 1 = some 0 ∧
      ∃ s n, (∀ fuel, 16 ≤ fuel →
          castRay fuel ⟨.num false (39 / 8), .num false (11 / 8)⟩
            ⟨.num false (21 / 32), .num true (7 / 32)⟩ = some (.hit s n)) ∧
        (s.side = 0 ∨ s.side = 1) ∧
        (s.side = 0 → ¬ IsZero (.num false (21 / 32)) ∧
          (MidComponent (.num false (21 / 32)) →
            IsFinite (perpWallDist ⟨.num false (39 / 8), .num false (11 / 8)⟩
              ⟨.num false (21 / 32), .num true (7 / 32)⟩
              (stepOf ⟨.num false (21 / 32), .num true (7 / 32)⟩) s) ∧
            IsFinite s.sideDistX ∧
            IsFinite (deltaDist ⟨.num false (21 / 32), .num true (7 / 32)⟩).x ∧
            |toRat (perpWallDist ⟨.num false (39 / 8), .num false (11 / 8)⟩
                ⟨.num false (21 / 32), .num true (7 / 32)⟩
                (stepOf ⟨.num false (21 / 32), .num true (7 / 32)⟩) s) -
              (toRat s.sideDistX -
                toRat (deltaDist ⟨.num false (21 / 32), .num true (7 / 32)⟩).x)| ≤
              toRat s.sideDistX / 2 ^ 19)) ∧
        (s.side = 1 → MidComponent (.num true (7 / 32)) →
          IsFinite (perpWallDist ⟨.num false (39 / 8), .num false (11 / 8)⟩
            ⟨.num false (21 / 32), .num true (7 / 32)⟩
            (stepOf ⟨.num false (21 / 32), .num true (7 / 32)⟩) s) ∧
          IsFinite s.sideDistY ∧
          IsFinite (deltaDist ⟨.num false (21 / 32), .num true (7 / 32)⟩).y ∧
          |toRat (perpWallDist ⟨.num false (39 / 8), .num false (11 / 8)⟩
              ⟨.num false (21 / 32), .num true (7 / 32)⟩
              (stepOf ⟨.num false (21 / 32), .num true (7 / 32)⟩) s) -
            (toRat s.sideDistY -
              toRat (deltaDist ⟨.num false (21 / 32), .num true (7 / 32)⟩).y)| ≤
            toRat s.sideDistY / 2 ^ 19) :=
  ⟨by decide!, by decide!, by decide!, by decide!, by decide!,
    perpWallDist_near_sideDist_sub ⟨.num false (39 / 8), .num false (11 / 8)⟩
      ⟨.num false (21 / 32), .num true (7 / 32)⟩ 4 1 (by decide!) (by decide!) (by decide!)
      (by decide!) (by decide!)⟩

end Binary32

end Adventure
